import Mathlib

/-! AVL binary search tree of `src/src/bst/bst.c`.

A shallow embedding of the tree of `bst.c` and a verification of its contract.

* Payloads are opaque references (`node_payload_t *`): a type `α` whose values stand for the
  pointers.  Two different references may compare `BST_EQ`.
* A `node_t *` is a value of `node α`; `node.null` is `NULL`.  The `parent` field of
  `struct node` is never read or written by `bst.c` (it stays `NULL` from `calloc`), so it is
  not represented.
* The cached `height` is a C `int`; heights stay far below the range of `int`, so it is an `Int`.
* A dereference of `NULL` and a call through a `NULL` function pointer are faults: every
  function that can reach one returns `Except fault _`.
* The calls of `free` and of the payload destructor are recorded as a list of `event`s.
-/

namespace Bst

/-- Result of the comparator, `bst_compare_t` of `include/bst.h`. -/
inductive bst_compare_t where
  | BST_LT
  | BST_GT
  | BST_EQ
  deriving DecidableEq, Repr

/-- Modelled from the spec: `bst_status_t`.  The first seven enumerators are those of
`include/bst.h`; `BST_NODE_NOT_FOUND`, `BST_ROTATION_SUCCESS`, `BST_SEARCH_FAILURE`,
`BST_ROTATE_FAILURE`, `BST_ROTATE_RIGHT` and `BST_ROTATE_LEFT` are used by `bst.c` but their
declaration is missing from the header under `src/`; they are taken as further enumerators of
the same enumeration, so that all of them are pairwise different (spec §4.4, §7: `NotFound` is
a status of its own). -/
inductive bst_status_t where
  | BST_INSERT_SUCCESS
  | BST_INSERT_FAILURE
  | BST_INSERT_EQUAL
  | BST_REPLACE_TRUE
  | BST_REPLACE_FALSE
  | BST_FREE_PAYLOAD_TRUE
  | BST_FREE_PAYLOAD_FALSE
  | BST_NODE_NOT_FOUND
  | BST_ROTATION_SUCCESS
  | BST_SEARCH_FAILURE
  | BST_ROTATE_FAILURE
  | BST_ROTATE_RIGHT
  | BST_ROTATE_LEFT
  deriving DecidableEq, Repr

/-- A `node_t *`: `null` is `NULL`, `mk height left_child key right_child` a `struct node`. -/
inductive node (α : Type) where
  | null : node α
  | mk (height : Int) (left_child : node α) (key : α) (right_child : node α) : node α
  deriving DecidableEq, Repr

/-- Undefined behaviour the C code can run into. -/
inductive fault where
  | null_deref
  | null_call
  deriving DecidableEq, Repr

/-- Observable memory effects: `free(node)` of a node that holds `key` at that moment,
`free(node->key)` of the replace branch of `insert_node`, a call `bst->free_payload(p)`,
and `free(bst)`. -/
inductive event (α : Type) where
  | free_node (key : α)
  | free_key (p : α)
  | free_payload (p : α)
  | free_bst
  deriving DecidableEq, Repr

/-- The tree handle `bst_t`.  `free_payload` says whether the destructor callback is a
non-`NULL` function pointer; what the callback does is recorded as `event.free_payload`. -/
structure bst_t (α : Type) where
  root : node α
  compare : α → α → bst_compare_t
  free_payload : Bool

open bst_compare_t bst_status_t

variable {α : Type}

/-- The function `bst_init`: `calloc` leaves `root` at `NULL`. -/
def bst_init (compare : α → α → bst_compare_t) (free_payload : Bool) : bst_t α :=
  { root := node.null, compare := compare, free_payload := free_payload }

/-- The function `get_height`. -/
def get_height : node α → Int
  | node.null => -1
  | node.mk h _ _ _ => h

/-- The function `node_max`. -/
def node_max (left right : Int) : Int :=
  if left > right then left else right

/-- The function `set_height`; it dereferences `node`. -/
def set_height : node α → Except fault (node α)
  | node.null => Except.error fault.null_deref
  | node.mk _ l k r => Except.ok (node.mk (node_max (get_height l) (get_height r) + 1) l k r)

/-- The function `get_balance_factor`. -/
def get_balance_factor : node α → Int
  | node.null => 0
  | node.mk _ l _ r => get_height l - get_height r

/-- The function `is_right_heavy`. -/
def is_right_heavy (n : node α) : Bool :=
  decide (get_balance_factor n < -1)

/-- The function `is_left_heavy`. -/
def is_left_heavy (n : node α) : Bool :=
  decide (get_balance_factor n > 1)

/-- The function `right_rotation`: `new_root = node->left_child` is dereferenced. -/
def right_rotation : node α → Except fault (node α)
  | node.mk h (node.mk hl a x b) y c =>
    match set_height (node.mk h b y c) with
    | Except.error e => Except.error e
    | Except.ok n => set_height (node.mk hl a x n)
  | _ => Except.error fault.null_deref

/-- The function `left_rotation`: `new_root = node->right_child` is dereferenced. -/
def left_rotation : node α → Except fault (node α)
  | node.mk h a x (node.mk hr b y c) =>
    match set_height (node.mk h a x b) with
    | Except.error e => Except.error e
    | Except.ok n => set_height (node.mk hr n y c)
  | _ => Except.error fault.null_deref

/-- The function `balance_tree`. -/
def balance_tree : node α → Except fault (node α)
  | node.null => Except.ok node.null
  | node.mk h l k r =>
    if is_left_heavy (node.mk h l k r) then
      if get_balance_factor l < 0 then
        match left_rotation l with
        | Except.error e => Except.error e
        | Except.ok l1 => right_rotation (node.mk h l1 k r)
      else right_rotation (node.mk h l k r)
    else if is_right_heavy (node.mk h l k r) then
      if get_balance_factor r > 0 then
        match right_rotation r with
        | Except.error e => Except.error e
        | Except.ok r1 => left_rotation (node.mk h l k r1)
      else left_rotation (node.mk h l k r)
    else Except.ok (node.mk h l k r)

/-- The function `create_node`: `calloc` zeroes the height and both children. -/
def create_node (payload : α) : node α :=
  node.mk 0 node.null payload node.null

/-- The tail of `insert_node` and `remove_node`: `set_height(node); node = balance_tree(node)`. -/
def rebalance (n : node α) : Except fault (node α) :=
  match set_height n with
  | Except.error e => Except.error e
  | Except.ok n1 => balance_tree n1

/-- The function `insert_node`; the result carries the `free` calls it made. -/
def insert_node (compare : α → α → bst_compare_t) :
    node α → α → bst_status_t → Except fault (node α × List (event α))
  | node.null, payload, _ => Except.ok (create_node payload, [])
  | node.mk h l k r, payload, replace =>
    match compare k payload with
    | BST_LT =>
      match insert_node compare l payload replace with
      | Except.error e => Except.error e
      | Except.ok (l1, ev) =>
        match rebalance (node.mk h l1 k r) with
        | Except.error e => Except.error e
        | Except.ok n => Except.ok (n, ev)
    | BST_GT =>
      match insert_node compare r payload replace with
      | Except.error e => Except.error e
      | Except.ok (r1, ev) =>
        match rebalance (node.mk h l k r1) with
        | Except.error e => Except.error e
        | Except.ok n => Except.ok (n, ev)
    | BST_EQ =>
      if replace = BST_REPLACE_TRUE then
        match rebalance (node.mk h l payload r) with
        | Except.error e => Except.error e
        | Except.ok n => Except.ok (n, [event.free_key k])
      else
        match rebalance (node.mk h l k r) with
        | Except.error e => Except.error e
        | Except.ok n => Except.ok (n, [])

/-- The function `find_max_payload`: follows `right_child` from a non-`NULL` node. -/
def find_max_payload : node α → Except fault (node α)
  | node.null => Except.error fault.null_deref
  | node.mk h l k node.null => Except.ok (node.mk h l k node.null)
  | node.mk _ _ _ (node.mk hr rl rk rr) => find_max_payload (node.mk hr rl rk rr)

/-- The function `find_min_payload`: follows `left_child` from a non-`NULL` node. -/
def find_min_payload : node α → Except fault (node α)
  | node.null => Except.error fault.null_deref
  | node.mk h node.null k r => Except.ok (node.mk h node.null k r)
  | node.mk _ (node.mk hl ll lk lr) _ _ => find_min_payload (node.mk hl ll lk lr)

/-- The test `NULL == node`. -/
def is_null : node α → Bool
  | node.null => true
  | node.mk _ _ _ _ => false

/-- The field access `node->key`. -/
def node_key : node α → Except fault α
  | node.null => Except.error fault.null_deref
  | node.mk _ _ k _ => Except.ok k

/-- The function `remove_node`; the result carries the `free(node)` calls it made. -/
def remove_node (compare : α → α → bst_compare_t) :
    node α → α → Except fault (node α × List (event α))
  | node.null, _ => Except.ok (node.null, [])
  | node.mk h l k r, payload =>
    match compare k payload with
    | BST_LT =>
      match remove_node compare l payload with
      | Except.error e => Except.error e
      | Except.ok (l1, ev) =>
        match rebalance (node.mk h l1 k r) with
        | Except.error e => Except.error e
        | Except.ok n => Except.ok (n, ev)
    | BST_GT =>
      match remove_node compare r payload with
      | Except.error e => Except.error e
      | Except.ok (r1, ev) =>
        match rebalance (node.mk h l k r1) with
        | Except.error e => Except.error e
        | Except.ok n => Except.ok (n, ev)
    | BST_EQ =>
      if is_null l || is_null r then
        if is_null r then Except.ok (l, [event.free_node k])
        else Except.ok (r, [event.free_node k])
      else if get_height l > get_height r then
        match find_max_payload l with
        | Except.error e => Except.error e
        | Except.ok promote_node =>
          match node_key promote_node with
          | Except.error e => Except.error e
          | Except.ok key1 =>
            match remove_node compare l key1 with
            | Except.error e => Except.error e
            | Except.ok (l1, ev) =>
              match rebalance (node.mk h l1 key1 r) with
              | Except.error e => Except.error e
              | Except.ok n => Except.ok (n, ev)
      else
        match find_min_payload r with
        | Except.error e => Except.error e
        | Except.ok promote_node =>
          match node_key promote_node with
          | Except.error e => Except.error e
          | Except.ok key1 =>
            match remove_node compare r key1 with
            | Except.error e => Except.error e
            | Except.ok (r1, ev) =>
              match rebalance (node.mk h l key1 r1) with
              | Except.error e => Except.error e
              | Except.ok n => Except.ok (n, ev)

/-- The function `search_node`: the node found, or `NULL`. -/
def search_node (compare : α → α → bst_compare_t) : node α → α → node α
  | node.null, _ => node.null
  | node.mk h l k r, target_payload =>
    match compare k target_payload with
    | BST_EQ => node.mk h l k r
    | BST_LT => search_node compare l target_payload
    | BST_GT => search_node compare r target_payload

/-- The function `bst_get_node`: `none` is the `NULL` result. -/
def bst_get_node (bst : bst_t α) (payload : α) : Option α :=
  match search_node bst.compare bst.root payload with
  | node.null => none
  | node.mk _ _ k _ => some k

/-- The function `bst_insert`: the status, the handle afterwards and the `free` calls. -/
def bst_insert (bst : bst_t α) (payload : α) (replace : bst_status_t) :
    Except fault (bst_status_t × bst_t α × List (event α)) :=
  match insert_node bst.compare bst.root payload replace with
  | Except.error e => Except.error e
  | Except.ok (n, ev) => Except.ok (BST_ROTATION_SUCCESS, { bst with root := n }, ev)

/-- The function `bst_remove`: the status, the handle afterwards and the `free` and
destructor calls, in the order they are made. -/
def bst_remove (bst : bst_t α) (payload : α) :
    Except fault (bst_status_t × bst_t α × List (event α)) :=
  match bst_get_node bst payload with
  | none => Except.ok (BST_NODE_NOT_FOUND, bst, [])
  | some node_payload =>
    match remove_node bst.compare bst.root payload with
    | Except.error e => Except.error e
    | Except.ok (n, ev) =>
      if bst.free_payload then
        Except.ok (BST_INSERT_SUCCESS, { bst with root := n }, ev ++ [event.free_payload node_payload])
      else Except.error fault.null_call

/-- The function `in_order_traversal_node`; the callback `function(node->key, void_ptr)`
updates the caller's context `σ`. -/
def in_order_traversal_node {σ : Type} : node α → (α → σ → σ) → σ → σ
  | node.null, _, s => s
  | node.mk _ l k r, function, s =>
    in_order_traversal_node r function (function k (in_order_traversal_node l function s))

/-- The function `pre_order_traversal_node`. -/
def pre_order_traversal_node {σ : Type} : node α → (α → σ → σ) → σ → σ
  | node.null, _, s => s
  | node.mk _ l k r, function, s =>
    pre_order_traversal_node r function (pre_order_traversal_node l function (function k s))

/-- The function `post_order_traversal_node`. -/
def post_order_traversal_node {σ : Type} : node α → (α → σ → σ) → σ → σ
  | node.null, _, s => s
  | node.mk _ l k r, function, s =>
    function k (post_order_traversal_node r function (post_order_traversal_node l function s))

/-- Enumerator `BST_IN_ORDER` of `bst_traversal_t`. -/
def BST_IN_ORDER : Int := 0

/-- Enumerator `BST_POST_ORDER` of `bst_traversal_t`. -/
def BST_POST_ORDER : Int := 1

/-- Enumerator `BST_PRE_ORDER` of `bst_traversal_t`. -/
def BST_PRE_ORDER : Int := 2

/-- The function `bst_traversal`; `type` is the raw value of the `bst_traversal_t` argument,
so that the `default` branch of the `switch` is represented. -/
def bst_traversal {σ : Type} (bst : bst_t α) (type : Int) (callback : α → σ → σ) (void_ptr : σ) : σ :=
  if type = BST_IN_ORDER then in_order_traversal_node bst.root callback void_ptr
  else if type = BST_POST_ORDER then post_order_traversal_node bst.root callback void_ptr
  else if type = BST_PRE_ORDER then pre_order_traversal_node bst.root callback void_ptr
  else void_ptr

/-- The callback `save_nodes` of the test suite: it appends the visited payload to the
caller's list. -/
def save_nodes (node_payload : α) (iter : List α) : List α :=
  iter ++ [node_payload]

/-- The payload of the test suite (`my_structure`, built by `create_payload`). -/
structure my_structure where
  value : Int
  other_value : Int
  deriving DecidableEq, Repr

/-- The comparator `compare` of the test suite. -/
def compare (current_payload new_payload : my_structure) : bst_compare_t :=
  if new_payload.value < current_payload.value then BST_LT
  else if new_payload.value > current_payload.value then BST_GT
  else BST_EQ

/-- The function `create_payload` of the test suite. -/
def create_payload (val1 val2 : Int) : my_structure :=
  { value := val1, other_value := val2 }

/-- The loop of the test fixtures: `bst_insert(tree, payload, replace)` for each payload in
turn (the fixtures pass "do not replace"). -/
def insert_all (b : bst_t α) (replace : bst_status_t) : List α → Except fault (bst_t α)
  | [] => Except.ok b
  | x :: xs =>
    match bst_insert b x replace with
    | Except.error e => Except.error e
    | Except.ok (_, b1, _) => insert_all b1 replace xs

/-- The fixture `create_test_30_10_28_50_29_55` of the test suite. -/
def create_test_30_10_28_50_29_55 : Except fault (bst_t my_structure) :=
  insert_all (bst_init compare true) BST_REPLACE_FALSE
    [create_payload 30 1, create_payload 10 2, create_payload 28 3, create_payload 50 4,
     create_payload 29 5, create_payload 55 5]

/-- The handle that `create_test_30_10_28_50_29_55` returns. -/
def tree_30_10_28_50_29_55 : bst_t my_structure :=
  { root :=
      node.mk 2
        (node.mk 1 (node.mk 0 node.null (create_payload 10 2) node.null) (create_payload 28 3)
          (node.mk 0 node.null (create_payload 29 5) node.null))
        (create_payload 30 1)
        (node.mk 1 node.null (create_payload 50 4)
          (node.mk 0 node.null (create_payload 55 5) node.null)),
    compare := compare,
    free_payload := true }

/-- The fixture tree on a handle created by `bst_init(compare, NULL)`: no destructor. -/
def tree_without_destructor : bst_t my_structure :=
  { tree_30_10_28_50_29_55 with free_payload := false }

/-- The handle after `bst_init(compare, NULL)` and one `bst_insert` of key 30. -/
def single_without_destructor : bst_t my_structure :=
  { root := node.mk 0 node.null (create_payload 30 1) node.null,
    compare := compare,
    free_payload := false }

/-- The function `free_node`: with `BST_FREE_PAYLOAD_TRUE` it calls `bst->free_payload` on
`node->key` and then frees the node, with `BST_FREE_PAYLOAD_FALSE` it frees the node, and with
any other status it prints a message and frees nothing. -/
def free_node (bst : bst_t α) (n : node α) (free_payload : bst_status_t) :
    Except fault (List (event α)) :=
  if free_payload = BST_FREE_PAYLOAD_TRUE then
    match n with
    | node.null => Except.error fault.null_deref
    | node.mk _ _ k _ =>
      if bst.free_payload then Except.ok [event.free_payload k, event.free_node k]
      else Except.error fault.null_call
  else if free_payload = BST_FREE_PAYLOAD_FALSE then
    match n with
    | node.null => Except.ok []
    | node.mk _ _ k _ => Except.ok [event.free_node k]
  else Except.ok []

/-- The function `traversal_free`: left subtree, right subtree, then `free_node`. -/
def traversal_free (bst : bst_t α) : node α → bst_status_t → Except fault (List (event α))
  | node.null, _ => Except.ok []
  | node.mk h l k r, free_payload =>
    match traversal_free bst l free_payload with
    | Except.error e => Except.error e
    | Except.ok ev1 =>
      match traversal_free bst r free_payload with
      | Except.error e => Except.error e
      | Except.ok ev2 =>
        match free_node bst (node.mk h l k r) free_payload with
        | Except.error e => Except.error e
        | Except.ok ev3 => Except.ok (ev1 ++ ev2 ++ ev3)

/-- The function `bst_destroy`: `traversal_free` of the root, then `free(bst)`. -/
def bst_destroy (bst : bst_t α) (free_payload : bst_status_t) : Except fault (List (event α)) :=
  match traversal_free bst bst.root free_payload with
  | Except.error e => Except.error e
  | Except.ok ev => Except.ok (ev ++ [event.free_bst])

/-- The fixture `create_test_5_4_3_2_1_6_7_8_9_6` of the test suite. -/
def create_test_5_4_3_2_1_6_7_8_9_6 : Except fault (bst_t my_structure) :=
  insert_all (bst_init compare true) BST_REPLACE_FALSE
    [create_payload 5 1, create_payload 4 2, create_payload 3 3, create_payload 2 4,
     create_payload 1 5, create_payload 6 100, create_payload 7 5, create_payload 8 100,
     create_payload 9 5]

/-- The handle after `bst_init(compare, NULL)` and no insertion. -/
def empty_without_destructor : bst_t my_structure :=
  bst_init compare false

/-- Return type of the callbacks of the test suite (`bst_recurse_t`). -/
inductive bst_recurse_t where
  | RECURSE_TRUE
  | RECURSE_STOP
  deriving DecidableEq, Repr

/-- The context of the callback `stop_recurse` of the test suite (`recursion_test_t`);
`payload` is `NULL` after `calloc`. -/
structure recursion_test_t where
  target : Int
  payload : Option my_structure
  deriving DecidableEq, Repr

/-- The callback `stop_recurse` of the test suite: it records a payload whose `other_value`
is the target and answers `RECURSE_STOP`, otherwise `RECURSE_TRUE`. -/
def stop_recurse (node_payload : my_structure) (m : recursion_test_t) :
    recursion_test_t × bst_recurse_t :=
  if node_payload.other_value = m.target then
    ({ m with payload := some node_payload }, bst_recurse_t.RECURSE_STOP)
  else (m, bst_recurse_t.RECURSE_TRUE)

/-- A callback that returns a value, used at the callback type of `bst.c`,
`void (*)(node_payload_t *, void *)`: the value it returns is dropped. -/
def as_void_callback {σ ρ : Type} (callback : α → σ → σ × ρ) : α → σ → σ :=
  fun node_payload void_ptr => (callback node_payload void_ptr).1

/-- The field access `node->left_child`. -/
def left_child : node α → Except fault (node α)
  | node.null => Except.error fault.null_deref
  | node.mk _ l _ _ => Except.ok l

/-- The field access `node->right_child`. -/
def right_child : node α → Except fault (node α)
  | node.null => Except.error fault.null_deref
  | node.mk _ _ _ r => Except.ok r

/-- What a pointer to `node` refers to after the statement `right_rotation(node, bst);` whose
result is dropped: the rotation has made `node` the right child of the new root and
recomputed its height, so the pointer refers to the right child of what `right_rotation`
returns. -/
def after_right_rotation (n : node α) : Except fault (node α) :=
  match right_rotation n with
  | Except.error e => Except.error e
  | Except.ok new_root => right_child new_root

/-- What a pointer to `node` refers to after the statement `left_rotation(node, bst);` whose
result is dropped: the left child of what `left_rotation` returns. -/
def after_left_rotation (n : node α) : Except fault (node α) :=
  match left_rotation n with
  | Except.error e => Except.error e
  | Except.ok new_root => left_child new_root

/-- The tree below a pointer once the node that `search_node` finds from it has been changed
in place by `f`: the parent of that node (or the handle) keeps pointing at the same node, and
no ancestor is touched. -/
def update_found (compare : α → α → bst_compare_t) (f : node α → Except fault (node α)) :
    node α → α → Except fault (node α)
  | node.null, _ => Except.ok node.null
  | node.mk h l k r, target_payload =>
    match compare k target_payload with
    | BST_EQ => f (node.mk h l k r)
    | BST_LT =>
      match update_found compare f l target_payload with
      | Except.error e => Except.error e
      | Except.ok l1 => Except.ok (node.mk h l1 k r)
    | BST_GT =>
      match update_found compare f r target_payload with
      | Except.error e => Except.error e
      | Except.ok r1 => Except.ok (node.mk h l k r1)

/-- The function `rotate`: the status and the handle afterwards.  The node returned by
`right_rotation` or `left_rotation` is not stored anywhere. -/
def rotate (bst : bst_t α) (payload : α) (side : bst_status_t) :
    Except fault (bst_status_t × bst_t α) :=
  if is_null (search_node bst.compare bst.root payload) then
    Except.ok (BST_SEARCH_FAILURE, bst)
  else if side = BST_ROTATE_RIGHT then
    match update_found bst.compare after_right_rotation bst.root payload with
    | Except.error e => Except.error e
    | Except.ok n => Except.ok (BST_ROTATION_SUCCESS, { bst with root := n })
  else if side = BST_ROTATE_LEFT then
    match update_found bst.compare after_left_rotation bst.root payload with
    | Except.error e => Except.error e
    | Except.ok n => Except.ok (BST_ROTATION_SUCCESS, { bst with root := n })
  else Except.ok (BST_ROTATE_FAILURE, bst)

/-! ## Specification vocabulary -/

/-- What it means for a three-way comparator to be induced by a strict total order on keys
(`compare a b` tells where `b` stands relative to `a`): equal keys compare `BST_EQ`, `BST_LT`
and `BST_GT` mirror each other, "after" is transitive, and payloads with equal keys compare
alike against every third payload. -/
structure StrictTotalOrder (cmp : α → α → bst_compare_t) : Prop where
  refl : ∀ a, cmp a a = BST_EQ
  antisymm : ∀ a b, cmp a b = BST_LT ↔ cmp b a = BST_GT
  trans : ∀ a b c, cmp a b = BST_GT → cmp b c = BST_GT → cmp a c = BST_GT
  eq_congr : ∀ a b c, cmp a b = BST_EQ → cmp a c = cmp b c

/-- True height of a subtree: empty is `-1`, a leaf is `0`. -/
def height : node α → Int
  | node.null => -1
  | node.mk _ l _ r => 1 + max (height l) (height r)

/-- Number of nodes. -/
def size : node α → Nat
  | node.null => 0
  | node.mk _ l _ r => size l + 1 + size r

/-- In-order payload sequence (left, node, right). -/
def inorder : node α → List α
  | node.null => []
  | node.mk _ l k r => inorder l ++ k :: inorder r

/-- Pre-order payload sequence (node, left, right). -/
def preorder : node α → List α
  | node.null => []
  | node.mk _ l k r => k :: (preorder l ++ preorder r)

/-- Post-order payload sequence (left, right, node). -/
def postorder : node α → List α
  | node.null => []
  | node.mk _ l k r => postorder l ++ (postorder r ++ [k])

/-- The shape of a tree: its structure and cached heights, payloads erased. -/
def shape : node α → node Unit
  | node.null => node.null
  | node.mk h l _ r => node.mk h (shape l) () (shape r)

/-- Balance invariant: at every node the true heights of the two subtrees differ by at most 1. -/
def Balanced : node α → Prop
  | node.null => True
  | node.mk _ l _ r =>
    Balanced l ∧ Balanced r ∧ height l - height r ≤ 1 ∧ height r - height l ≤ 1

/-- Height invariant: every cached height is `1 + max` of the children's (`-1` for `NULL`). -/
def HeightInv : node α → Prop
  | node.null => True
  | node.mk h l _ r =>
    HeightInv l ∧ HeightInv r ∧ h = 1 + max (get_height l) (get_height r)

/-- Order invariant: at every node the payloads of the left subtree compare `BST_LT` against
the node's payload and those of the right subtree `BST_GT`. -/
def Ordered (cmp : α → α → bst_compare_t) : node α → Prop
  | node.null => True
  | node.mk _ l k r =>
    Ordered cmp l ∧ Ordered cmp r ∧
      (∀ a ∈ inorder l, cmp k a = BST_LT) ∧ (∀ b ∈ inorder r, cmp k b = BST_GT)

/-- The strictly ascending sequences: of two visited payloads the later one orders after the
earlier one. -/
def Ascending (cmp : α → α → bst_compare_t) (l : List α) : Prop :=
  l.Pairwise (fun a b => cmp a b = BST_GT)

/-- Balance and height invariant together, over true heights. -/
def AVL : node α → Prop
  | node.null => True
  | node.mk h l _ r =>
    AVL l ∧ AVL r ∧ h = 1 + max (height l) (height r) ∧
      height l - height r ≤ 1 ∧ height r - height l ≤ 1

/-- Every cached height is the true height of the subtree it is cached for. -/
def HeightTrue : node α → Prop
  | node.null => True
  | node.mk h l k r => HeightTrue l ∧ HeightTrue r ∧ h = height (node.mk h l k r)

/-- The payloads on which a trace calls the payload destructor, in the order of the calls. -/
def destructor_calls : List (event α) → List α
  | [] => []
  | event.free_payload p :: ev => p :: destructor_calls ev
  | _ :: ev => destructor_calls ev

/-- The payloads held by the nodes that a trace releases with `free(node)`, in the order of
the calls: one entry per released node. -/
def freed_nodes : List (event α) → List α
  | [] => []
  | event.free_node k :: ev => k :: freed_nodes ev
  | _ :: ev => freed_nodes ev

/-- The trace of a destructive teardown of nodes holding the given payloads: for each, the
destructor call and then the release of the node. -/
def destroy_events : List α → List (event α)
  | [] => []
  | k :: ks => event.free_payload k :: event.free_node k :: destroy_events ks

/-- The payload sequences with the same keys: equally long, and payloads at the same
position compare `BST_EQ`. -/
def SameKeys (cmp : α → α → bst_compare_t) (l1 l2 : List α) : Prop :=
  List.Forall₂ (fun a b => cmp a b = BST_EQ) l1 l2

/-- The payload stored for `a` once `x` has replaced the payload with its key. -/
def replace_with (cmp : α → α → bst_compare_t) (x a : α) : α :=
  if cmp a x = BST_EQ then x else a

/-- The tree with every payload `a` replaced by `f a`, structure and cached heights kept. -/
def map_key (f : α → α) : node α → node α
  | node.null => node.null
  | node.mk h l k r => node.mk h (map_key f l) (f k) (map_key f r)

/-- The handles that a finite sequence of `bst_insert` and `bst_remove` calls produces from
the empty tree of `bst_init compare free_payload`. -/
inductive Reachable (compare : α → α → bst_compare_t) (free_payload : Bool) : bst_t α → Prop where
  | init : Reachable compare free_payload (bst_init compare free_payload)
  | insert (b b1 : bst_t α) (payload : α) (replace st : bst_status_t) (ev : List (event α)) :
      Reachable compare free_payload b →
      bst_insert b payload replace = Except.ok (st, b1, ev) →
      Reachable compare free_payload b1
  | remove (b b1 : bst_t α) (payload : α) (st : bst_status_t) (ev : List (event α)) :
      Reachable compare free_payload b →
      bst_remove b payload = Except.ok (st, b1, ev) →
      Reachable compare free_payload b1

/-- The two child pointers of a node, `NULL` ones included. -/
def children : node α → List (node α)
  | node.null => []
  | node.mk _ l _ r => [l, r]

end Bst

/-! Doubly linked list of `src/src/dlist_adt/src/dl_list.c`.

The nodes live in a memory `Nat → Option (dnode_t α)`: an address is a `Nat`, a pointer is
an `Option Nat` with `none` for `NULL`, and an address holds `none` when no node is allocated
there.  `calloc` returns the fresh address `brk`; allocation is taken to succeed.  The data
pointers are values of `α` (the public functions assert that they are not `NULL`).  The
iterator bookkeeping (`iter_list`, `is_iter_mgr`) and `compare_func` are not represented:
the functions embedded here change them only through the absent iterator API, and only when
live iterators exist. -/

namespace Dlist

/-- Undefined behaviour the C code can run into, and the exhaustion of the fuel that bounds
the loops and the recursion of the sort in this embedding. -/
inductive fault where
  | null_deref
  | dangling
  | out_of_fuel
  deriving DecidableEq, Repr

/-- Modelled from the spec: `dnode_t` of `dl_list.h`, which is not among the sources; the
fields are the ones `dl_list.c` uses (`data`, `next`, `prev`). -/
structure dnode_t (α : Type) where
  data : α
  next : Option Nat
  prev : Option Nat
  deriving DecidableEq, Repr

/-- The manager structure `dlist_t`, together with the memory its nodes live in and the next
fresh address `brk`.  The fields `iter_list`, `is_iter_mgr` and `compare_func` are left out:
the lists here have no live iterator. -/
structure dlist_t (α : Type) where
  head : Option Nat
  tail : Option Nat
  length : Nat
  mem : Nat → Option (dnode_t α)
  brk : Nat

/-- The enumeration `dlist_settings_t`. -/
inductive dlist_settings_t where
  | FREE_NODES
  | NO_FREE_NODES
  | APPEND
  | PREPEND
  | INSERT_AT
  deriving DecidableEq, Repr

/-- Modelled from the spec: `dlist_result_t` of `dl_list.h`, which is not among the sources;
`dl_list.c` uses the enumerators `DLIST_SUCC` and `DLIST_FAIL`. -/
inductive dlist_result_t where
  | DLIST_SUCC
  | DLIST_FAIL
  deriving DecidableEq, Repr

/-- Modelled from the spec: `dlist_compare_t` of `dl_list.h`, which is not among the
sources; `do_swap` names `DLIST_LT` and `DLIST_GT`, and its comment names the third answer
`EQ`. -/
inductive dlist_compare_t where
  | DLIST_LT
  | DLIST_GT
  | DLIST_EQ
  deriving DecidableEq, Repr

/-- Modelled from the spec: `sort_direction_t` of `dl_list.h`, which is not among the
sources; `do_swap` names `DESCENDING` and its comment `ASCENDING`. -/
inductive sort_direction_t where
  | ASCENDING
  | DESCENDING
  deriving DecidableEq, Repr

open dlist_settings_t dlist_result_t dlist_compare_t sort_direction_t

variable {α : Type}

/-- A read through a node pointer. -/
def load (m : Nat → Option (dnode_t α)) (p : Option Nat) : Except fault (dnode_t α) :=
  match p with
  | none => Except.error fault.null_deref
  | some a =>
    match m a with
    | none => Except.error fault.dangling
    | some n => Except.ok n

/-- The assignment `p->next = v`. -/
def store_next (m : Nat → Option (dnode_t α)) (p v : Option Nat) :
    Except fault (Nat → Option (dnode_t α)) :=
  match p with
  | none => Except.error fault.null_deref
  | some a =>
    match m a with
    | none => Except.error fault.dangling
    | some n => Except.ok (Function.update m a (some { n with next := v }))

/-- The assignment `p->prev = v`. -/
def store_prev (m : Nat → Option (dnode_t α)) (p v : Option Nat) :
    Except fault (Nat → Option (dnode_t α)) :=
  match p with
  | none => Except.error fault.null_deref
  | some a =>
    match m a with
    | none => Except.error fault.dangling
    | some n => Except.ok (Function.update m a (some { n with prev := v }))

/-- The assignment `p->data = v`. -/
def store_data (m : Nat → Option (dnode_t α)) (p : Option Nat) (v : α) :
    Except fault (Nat → Option (dnode_t α)) :=
  match p with
  | none => Except.error fault.null_deref
  | some a =>
    match m a with
    | none => Except.error fault.dangling
    | some n => Except.ok (Function.update m a (some { n with data := v }))

/-- The function `dlist_init`: `calloc` zeroes `head`, `tail` and `length`. -/
def dlist_init : dlist_t α :=
  { head := none, tail := none, length := 0, mem := fun _ => none, brk := 0 }

/-- The function `dlist_is_empty`. -/
def dlist_is_empty (dlist : dlist_t α) : Bool :=
  dlist.length == 0

/-- The function `dlist_get_length`. -/
def dlist_get_length (dlist : dlist_t α) : Nat :=
  dlist.length

/-- The function `remove_node`; `length` is a `size_t`, so `length--` wraps at 0. -/
def remove_node (dlist : dlist_t α) (node : Option Nat) : Except fault (α × dlist_t α) :=
  match load dlist.mem node with
  | Except.error e => Except.error e
  | Except.ok n =>
    let node_data := n.data
    let length := if dlist.length = 0 then 2 ^ 64 - 1 else dlist.length - 1
    match (if dlist.head = node then
        (if n.next ≠ none then
          match store_prev dlist.mem n.next none with
          | Except.error e => Except.error e
          | Except.ok m => Except.ok (n.next, m)
        else Except.ok (n.next, dlist.mem))
      else Except.ok (dlist.head, dlist.mem)) with
    | Except.error e => Except.error e
    | Except.ok (head, m1) =>
      match (if dlist.tail = node then
          match load m1 node with
          | Except.error e => Except.error e
          | Except.ok n1 =>
            if n1.prev ≠ none then
              match store_next m1 n1.prev none with
              | Except.error e => Except.error e
              | Except.ok m => Except.ok (n1.prev, m)
            else Except.ok (n1.prev, m1)
        else Except.ok (dlist.tail, m1)) with
      | Except.error e => Except.error e
      | Except.ok (tail, m2) =>
        match load m2 node with
        | Except.error e => Except.error e
        | Except.ok n2 =>
          match (if n2.prev ≠ none then store_next m2 n2.prev n2.next
            else Except.ok m2) with
          | Except.error e => Except.error e
          | Except.ok m3 =>
            match load m3 node with
            | Except.error e => Except.error e
            | Except.ok n3 =>
              match (if n3.next ≠ none then store_prev m3 n3.next n3.prev
                else Except.ok m3) with
              | Except.error e => Except.error e
              | Except.ok m4 =>
                match node with
                | none => Except.error fault.null_deref
                | some a =>
                  Except.ok (node_data,
                    { head := head, tail := tail, length := length,
                      mem := Function.update m4 a none, brk := dlist.brk })

/-- The function `dlist_pop_tail`; `none` is the `NULL` result. -/
def dlist_pop_tail (dlist : dlist_t α) : Except fault (Option α × dlist_t α) :=
  if dlist_is_empty dlist then Except.ok (none, dlist)
  else
    match remove_node dlist dlist.tail with
    | Except.error e => Except.error e
    | Except.ok (v, d) => Except.ok (some v, d)

/-- The function `dlist_pop_head`; `none` is the `NULL` result. -/
def dlist_pop_head (dlist : dlist_t α) : Except fault (Option α × dlist_t α) :=
  if dlist_is_empty dlist then Except.ok (none, dlist)
  else
    match remove_node dlist dlist.head with
    | Except.error e => Except.error e
    | Except.ok (v, d) => Except.ok (some v, d)

/-- The node reached from `p` after `k` steps along `next`, `NULL` when the chain ends
before. -/
def nth_next (m : Nat → Option (dnode_t α)) : Option Nat → Nat → Option Nat
  | p, 0 => p
  | none, _ + 1 => none
  | some a, k + 1 =>
    match m a with
    | none => none
    | some n => nth_next m n.next k

/-- The node reached from `p` after `k` steps along `prev`, `NULL` when the chain ends
before. -/
def nth_prev (m : Nat → Option (dnode_t α)) : Option Nat → Nat → Option Nat
  | p, 0 => p
  | none, _ + 1 => none
  | some a, k + 1 =>
    match m a with
    | none => none
    | some n => nth_prev m n.prev k

/-- Modelled from the spec: `get_by_index`, whose body calls `iter_search_by_index` of
`dl_iter.c`, which is not among the sources.  Following the documentation of `dlist_insert`
and the test `TestFetchByIndex`: an index from `0` to `length - 1` counts from the head, an
index from `-length` to `-1` counts from the tail (`-1` is the tail, `-length` the head), and
any other index gives `NULL`. -/
def get_by_index (dlist : dlist_t α) (index : Int) : Option Nat :=
  if 0 ≤ index ∧ index < dlist.length then nth_next dlist.mem dlist.head index.toNat
  else if index < 0 ∧ -(dlist.length : Int) ≤ index then
    nth_prev dlist.mem dlist.tail (-index - 1).toNat
  else none

/-- The function `add_node`: `init_node` takes the fresh address `brk`.  Without a live
iterator the loop of the empty-list branch over the iterators has nothing to update. -/
def add_node (dlist : dlist_t α) (data : α) (add_mode : dlist_settings_t) (at_index : Int) :
    Except fault (dlist_result_t × dlist_t α) :=
  let node : Option Nat := some dlist.brk
  let m0 := Function.update dlist.mem dlist.brk
    (some { data := data, next := none, prev := none })
  let brk := dlist.brk + 1
  if dlist.length = 0 then
    Except.ok (DLIST_SUCC,
      { head := node, tail := node, length := dlist.length + 1, mem := m0, brk := brk })
  else if add_mode = PREPEND then
    match store_next m0 node dlist.head with
    | Except.error e => Except.error e
    | Except.ok m1 =>
      match load m1 node with
      | Except.error e => Except.error e
      | Except.ok n =>
        match store_prev m1 n.next node with
        | Except.error e => Except.error e
        | Except.ok m2 =>
          Except.ok (DLIST_SUCC,
            { head := node, tail := dlist.tail, length := dlist.length + 1, mem := m2,
              brk := brk })
  else if add_mode = INSERT_AT then
    match get_by_index { dlist with mem := m0, brk := brk } at_index with
    | none => Except.ok (DLIST_FAIL, { dlist with mem := m0, brk := brk })
    | some c =>
      let child_node : Option Nat := some c
      match load m0 child_node with
      | Except.error e => Except.error e
      | Except.ok cn =>
        let parent_node := cn.prev
        match store_prev m0 child_node node with
        | Except.error e => Except.error e
        | Except.ok m1 =>
          match store_prev m1 node parent_node with
          | Except.error e => Except.error e
          | Except.ok m2 =>
            match store_next m2 node child_node with
            | Except.error e => Except.error e
            | Except.ok m3 =>
              match store_next m3 parent_node node with
              | Except.error e => Except.error e
              | Except.ok m4 =>
                Except.ok (DLIST_SUCC,
                  { head := dlist.head, tail := dlist.tail, length := dlist.length + 1,
                    mem := m4, brk := brk })
  else
    match store_prev m0 node dlist.tail with
    | Except.error e => Except.error e
    | Except.ok m1 =>
      match load m1 node with
      | Except.error e => Except.error e
      | Except.ok n =>
        match store_next m1 n.prev node with
        | Except.error e => Except.error e
        | Except.ok m2 =>
          Except.ok (DLIST_SUCC,
            { head := dlist.head, tail := node, length := dlist.length + 1, mem := m2,
              brk := brk })

/-- The function `dlist_prepend`; the result of `add_node` is dropped. -/
def dlist_prepend (dlist : dlist_t α) (data : α) : Except fault (dlist_t α) :=
  match add_node dlist data PREPEND 0 with
  | Except.error e => Except.error e
  | Except.ok (_, d) => Except.ok d

/-- The function `dlist_append`; the result of `add_node` is dropped. -/
def dlist_append (dlist : dlist_t α) (data : α) : Except fault (dlist_t α) :=
  match add_node dlist data APPEND 0 with
  | Except.error e => Except.error e
  | Except.ok (_, d) => Except.ok d

/-- The function `dlist_insert`. -/
def dlist_insert (dlist : dlist_t α) (data : α) (index : Int) :
    Except fault (dlist_result_t × dlist_t α) :=
  add_node dlist data INSERT_AT index

/-- The function `dlist_get_by_index`; `none` is the `NULL` result. -/
def dlist_get_by_index (dlist : dlist_t α) (index : Int) : Option α :=
  match get_by_index dlist index with
  | none => none
  | some a =>
    match dlist.mem a with
    | none => none
    | some n => some n.data

/-- The data met from `p` along `next`, at most `fuel` nodes. -/
def collect_next (m : Nat → Option (dnode_t α)) : Option Nat → Nat → List α
  | _, 0 => []
  | none, _ + 1 => []
  | some a, k + 1 =>
    match m a with
    | none => []
    | some n => n.data :: collect_next m n.next k

/-- The data met from `p` along `prev`, at most `fuel` nodes. -/
def collect_prev (m : Nat → Option (dnode_t α)) : Option Nat → Nat → List α
  | _, 0 => []
  | none, _ + 1 => []
  | some a, k + 1 =>
    match m a with
    | none => []
    | some n => n.data :: collect_prev m n.prev k

/-- The head-to-tail data sequence: what an iteration from `head` along `next` meets (no more
nodes than were ever allocated). -/
def forward (dlist : dlist_t α) : List α :=
  collect_next dlist.mem dlist.head dlist.brk

/-- The tail-to-head data sequence: what an iteration from `tail` along `prev` meets. -/
def backward (dlist : dlist_t α) : List α :=
  collect_prev dlist.mem dlist.tail dlist.brk

/-- The loop of the tests: `dlist_append(dlist, payload)` for each payload in turn. -/
def append_all (dlist : dlist_t α) : List α → Except fault (dlist_t α)
  | [] => Except.ok dlist
  | x :: xs =>
    match dlist_append dlist x with
    | Except.error e => Except.error e
    | Except.ok d => append_all d xs

/-- The first address of `as`, or `nx` when `as` is empty. -/
def first_or (as : List Nat) (nx : Option Nat) : Option Nat :=
  match as with
  | [] => nx
  | a :: _ => some a

/-- The last address of `as`, or `p` when `as` is empty. -/
def last_or (p : Option Nat) (as : List Nat) : Option Nat :=
  match as.getLast? with
  | none => p
  | some a => some a

/-- The nodes at the addresses `as` are linked into a chain: the `prev` of the first is `p`,
the `next` of the last is `nx`, and neighbours point at each other. -/
def Links (m : Nat → Option (dnode_t α)) : Option Nat → List Nat → Option Nat → Prop
  | _, [], _ => True
  | p, a :: as, nx =>
    (∃ n, m a = some n ∧ n.prev = p ∧ n.next = first_or as nx) ∧ Links m (some a) as nx

/-- The nodes at the addresses `as` hold the data `xs`, in that order. -/
def Data (m : Nat → Option (dnode_t α)) : List Nat → List α → Prop
  | [], [] => True
  | a :: as, x :: xs => (∃ n, m a = some n ∧ n.data = x) ∧ Data m as xs
  | _, _ => False

/-- A well-formed list: its nodes are the different addresses `as`, all below `brk`, linked
from `head` to `tail` with `NULL` at both ends, holding the data `xs`, and `length` is their
number. -/
def WF (dlist : dlist_t α) (as : List Nat) (xs : List α) : Prop :=
  dlist.head = as.head? ∧ dlist.tail = as.getLast? ∧ dlist.length = as.length ∧
    as.Nodup ∧ (∀ a ∈ as, a < dlist.brk) ∧ Links dlist.mem none as none ∧
    Data dlist.mem as xs

/-- A well-formed list with the head-to-tail data sequence `xs`. -/
def Valid (dlist : dlist_t α) (xs : List α) : Prop :=
  ∃ as, WF dlist as xs

/-- The list the tests build: `dlist_init` followed by `dlist_append` of each payload in
turn. -/
def build (vs : List α) : dlist_t α :=
  match append_all dlist_init vs with
  | Except.ok d => d
  | Except.error _ => dlist_init

/-- The structure `quick_sort_t`. -/
structure quick_sort_t (α : Type) where
  direction : sort_direction_t
  compare_func : α → α → dlist_compare_t

/-- The function `do_swap`. -/
def do_swap (sort : quick_sort_t α) (m : Nat → Option (dnode_t α)) (left right : Option Nat) :
    Except fault Bool :=
  match load m left with
  | Except.error e => Except.error e
  | Except.ok l =>
    match load m right with
    | Except.error e => Except.error e
    | Except.ok r =>
      let compare := sort.compare_func l.data r.data
      if sort.direction = DESCENDING then
        Except.ok (if compare = DLIST_LT then false else true)
      else
        Except.ok (if compare = DLIST_GT then false else true)

/-- The function `swap_dnodes`. -/
def swap_dnodes (m : Nat → Option (dnode_t α)) (left right : Option Nat) :
    Except fault (Nat → Option (dnode_t α)) :=
  match load m left with
  | Except.error e => Except.error e
  | Except.ok l =>
    let left_data := l.data
    match load m right with
    | Except.error e => Except.error e
    | Except.ok r =>
      match store_data m left r.data with
      | Except.error e => Except.error e
      | Except.ok m1 => store_data m1 right left_data

/-- The `for` loop of `partition`, from the node `index` on; each pass of the body takes one
unit of fuel. -/
def partition_loop (sort : quick_sort_t α) (left pivot : Option Nat) :
    Nat → (Nat → Option (dnode_t α)) → Option Nat → Option Nat →
      Except fault ((Nat → Option (dnode_t α)) × Option Nat)
  | fuel, m, index, partition_node =>
    if index = pivot then Except.ok (m, partition_node)
    else
      match fuel with
      | 0 => Except.error fault.out_of_fuel
      | fuel + 1 =>
        match do_swap sort m index pivot with
        | Except.error e => Except.error e
        | Except.ok b =>
          match (if b then
              match (if partition_node = none then Except.ok left
                else
                  match load m partition_node with
                  | Except.error e => Except.error e
                  | Except.ok n => Except.ok n.next) with
              | Except.error e => Except.error e
              | Except.ok pn =>
                match swap_dnodes m pn index with
                | Except.error e => Except.error e
                | Except.ok m1 => Except.ok (m1, pn)
            else Except.ok (m, partition_node)) with
          | Except.error e => Except.error e
          | Except.ok (m1, pn) =>
            match load m1 index with
            | Except.error e => Except.error e
            | Except.ok n => partition_loop sort left pivot fuel m1 n.next pn

/-- The function `partition`. -/
def partition (sort : quick_sort_t α) (fuel : Nat) (m : Nat → Option (dnode_t α))
    (left right : Option Nat) : Except fault ((Nat → Option (dnode_t α)) × Option Nat) :=
  let pivot := right
  match load m left with
  | Except.error e => Except.error e
  | Except.ok l =>
    match partition_loop sort left pivot fuel m left l.prev with
    | Except.error e => Except.error e
    | Except.ok (m1, partition_node) =>
      match (if partition_node = none then Except.ok left
        else
          match load m1 partition_node with
          | Except.error e => Except.error e
          | Except.ok n => Except.ok n.next) with
      | Except.error e => Except.error e
      | Except.ok pn =>
        match swap_dnodes m1 pn right with
        | Except.error e => Except.error e
        | Except.ok m2 => Except.ok (m2, pn)

/-- The function `quick_sort`; each level of the recursion that passes the guard takes one
unit of fuel. -/
def quick_sort (sort : quick_sort_t α) :
    Nat → (Nat → Option (dnode_t α)) → Option Nat → Option Nat →
      Except fault (Nat → Option (dnode_t α))
  | 0, m, left, right =>
    match right with
    | none => Except.ok m
    | some _ =>
      if left = right then Except.ok m
      else
        match load m right with
        | Except.error e => Except.error e
        | Except.ok r =>
          if left = r.next then Except.ok m
          else Except.error fault.out_of_fuel
  | fuel + 1, m, left, right =>
    match right with
    | none => Except.ok m
    | some _ =>
      if left = right then Except.ok m
      else
        match load m right with
        | Except.error e => Except.error e
        | Except.ok r =>
          if left = r.next then Except.ok m
          else
            match partition sort fuel m left right with
            | Except.error e => Except.error e
            | Except.ok (m1, partition_node) =>
              match load m1 partition_node with
              | Except.error e => Except.error e
              | Except.ok n1 =>
                match quick_sort sort fuel m1 left n1.prev with
                | Except.error e => Except.error e
                | Except.ok m2 =>
                  match load m2 partition_node with
                  | Except.error e => Except.error e
                  | Except.ok n2 => quick_sort sort fuel m2 n2.next right

/-- The function `dlist_quick_sort`; the allocation of the `quick_sort_t` succeeds. -/
def dlist_quick_sort (fuel : Nat) (dlist : dlist_t α) (direction : sort_direction_t)
    (compare_func : α → α → dlist_compare_t) : Except fault (dlist_t α) :=
  if 2 > dlist.length then Except.ok dlist
  else
    match quick_sort { direction := direction, compare_func := compare_func } fuel dlist.mem
        dlist.head dlist.tail with
    | Except.error e => Except.error e
    | Except.ok m => Except.ok { dlist with mem := m }


/-- A three-way comparator of integers. -/
def compare_int (a b : Int) : dlist_compare_t :=
  if a < b then DLIST_LT else if b < a then DLIST_GT else DLIST_EQ

/-- A three-way comparator that is a total preorder: `GT` one way is `LT` the other way, and
"not `GT`" is transitive. -/
def TotalPreorder (f : α → α → dlist_compare_t) : Prop :=
  (∀ a b, f a b = DLIST_GT ↔ f b a = DLIST_LT) ∧
    (∀ a b c, f a b ≠ DLIST_GT → f b c ≠ DLIST_GT → f a c ≠ DLIST_GT)

/-- The order a sort direction asks of an element and a later one: with `ASCENDING` the
first does not compare `GT` against the second, with `DESCENDING` it does not compare
`LT`. -/
def InOrder (direction : sort_direction_t) (f : α → α → dlist_compare_t) (a b : α) : Prop :=
  match direction with
  | ASCENDING => f a b ≠ DLIST_GT
  | DESCENDING => f a b ≠ DLIST_LT

/-- The answer of `do_swap` on the data of its two nodes. -/
def Swaps (sort : quick_sort_t α) (x y : α) : Bool :=
  if sort.direction = DESCENDING then
    (if sort.compare_func x y = DLIST_LT then false else true)
  else
    (if sort.compare_func x y = DLIST_GT then false else true)

/-- The nodes at the different addresses `as` are linked from `NULL` to `NULL` and hold the
data `xs`. -/
def Holds (m : Nat → Option (dnode_t α)) (as : List Nat) (xs : List α) : Prop :=
  as.Nodup ∧ Links m none as none ∧ Data m as xs

/-- The lists that a finite sequence of `dlist_append`, `dlist_prepend`, `dlist_pop_head` and
`dlist_pop_tail` calls produces from the empty list of `dlist_init`. -/
inductive Built : dlist_t α → Prop where
  | init : Built dlist_init
  | append (d d1 : dlist_t α) (data : α) :
      Built d → dlist_append d data = Except.ok d1 → Built d1
  | prepend (d d1 : dlist_t α) (data : α) :
      Built d → dlist_prepend d data = Except.ok d1 → Built d1
  | pop_head (d d1 : dlist_t α) (v : Option α) :
      Built d → dlist_pop_head d = Except.ok (v, d1) → Built d1
  | pop_tail (d d1 : dlist_t α) (v : Option α) :
      Built d → dlist_pop_tail d = Except.ok (v, d1) → Built d1

end Dlist

namespace Bst

open bst_compare_t bst_status_t

variable {α : Type}

/-! ## Heights and rebalancing -/

theorem height_ge (t : node α) : -1 ≤ height t := by
  induction t with
  | null => simp [height]
  | mk h l k r ihl ihr => simp only [height]; omega

theorem AVL_get_height {t : node α} (h : AVL t) : get_height t = height t := by
  cases t with
  | null => rfl
  | mk h l k r => simp only [AVL] at h; simp only [get_height, height]; omega

theorem AVL_iff (t : node α) : AVL t ↔ HeightInv t ∧ Balanced t := by
  induction t with
  | null => simp [AVL, HeightInv, Balanced]
  | mk h l k r ihl ihr =>
    simp only [AVL, HeightInv, Balanced]
    constructor
    · rintro ⟨al, ar, h1, h2, h3⟩
      have e1 := AVL_get_height al
      have e2 := AVL_get_height ar
      exact ⟨⟨(ihl.1 al).1, (ihr.1 ar).1, by omega⟩, (ihl.1 al).2, (ihr.1 ar).2, h2, h3⟩
    · rintro ⟨⟨hl1, hr1, h1⟩, hl2, hr2, h2, h3⟩
      have al := ihl.2 ⟨hl1, hl2⟩
      have ar := ihr.2 ⟨hr1, hr2⟩
      have e1 := AVL_get_height al
      have e2 := AVL_get_height ar
      exact ⟨al, ar, by omega, h2, h3⟩

theorem get_height_null : get_height (node.null : node α) = -1 := rfl

theorem get_height_mk (h : Int) (l r : node α) (k : α) : get_height (node.mk h l k r) = h := rfl

theorem set_height_mk (h : Int) (l r : node α) (k : α) :
    set_height (node.mk h l k r)
      = Except.ok (node.mk (node_max (get_height l) (get_height r) + 1) l k r) := rfl

theorem get_balance_factor_mk (h : Int) (l r : node α) (k : α) :
    get_balance_factor (node.mk h l k r) = get_height l - get_height r := rfl

theorem right_rotation_mk (h hl : Int) (a b c : node α) (x y : α) :
    right_rotation (node.mk h (node.mk hl a x b) y c)
      = Except.ok (node.mk (node_max (get_height a)
            (node_max (get_height b) (get_height c) + 1) + 1) a x
          (node.mk (node_max (get_height b) (get_height c) + 1) b y c)) := rfl

theorem left_rotation_mk (h hr : Int) (a b c : node α) (x y : α) :
    left_rotation (node.mk h a x (node.mk hr b y c))
      = Except.ok (node.mk (node_max (node_max (get_height a) (get_height b) + 1)
            (get_height c) + 1)
          (node.mk (node_max (get_height a) (get_height b) + 1) a x b) y c) := rfl

theorem node_max_eq (a b : Int) : node_max a b = max a b := by
  unfold node_max; split <;> omega

theorem balance_tree_mk (h : Int) (l r : node α) (k : α) :
    balance_tree (node.mk h l k r) =
      if get_height l - get_height r > 1 then
        if get_balance_factor l < 0 then
          match left_rotation l with
          | Except.error e => Except.error e
          | Except.ok l1 => right_rotation (node.mk h l1 k r)
        else right_rotation (node.mk h l k r)
      else if get_height l - get_height r < -1 then
        if get_balance_factor r > 0 then
          match right_rotation r with
          | Except.error e => Except.error e
          | Except.ok r1 => left_rotation (node.mk h l k r1)
        else left_rotation (node.mk h l k r)
      else Except.ok (node.mk h l k r) := by
  simp [balance_tree, is_left_heavy, is_right_heavy, get_balance_factor_mk]

theorem rebalance_mk (h : Int) (l r : node α) (k : α) :
    rebalance (node.mk h l k r)
      = balance_tree (node.mk (max (get_height l) (get_height r) + 1) l k r) := by
  simp [rebalance, set_height_mk, node_max_eq]

theorem rebalance_balanced (h : Int) (l r : node α) (k : α) (al : AVL l) (ar : AVL r)
    (h1 : height l - height r ≤ 1) (h2 : height r - height l ≤ 1) :
    rebalance (node.mk h l k r) = Except.ok (node.mk (1 + max (height l) (height r)) l k r) := by
  have e1 := AVL_get_height al
  have e2 := AVL_get_height ar
  have n1 : ¬ (height l - height r > 1) := by omega
  have n2 : ¬ (height l - height r < -1) := by omega
  rw [rebalance_mk, balance_tree_mk, e1, e2, if_neg n1, if_neg n2, add_comm]

theorem AVL_mk (h : Int) (l r : node α) (k : α) :
    AVL (node.mk h l k r) ↔ AVL l ∧ AVL r ∧ h = 1 + max (height l) (height r) ∧
      height l - height r ≤ 1 ∧ height r - height l ≤ 1 := Iff.rfl

theorem height_mk (h : Int) (l r : node α) (k : α) :
    height (node.mk h l k r) = 1 + max (height l) (height r) := rfl

theorem height_null : height (node.null : node α) = -1 := rfl

/-- What `rebalance` returns on a right-heavy node: a left rotation, after a right rotation
of the right child when that child leans left. -/
theorem rebalance_right_heavy (h : Int) (l r : node α) (k : α) (al : AVL l) (ar : AVL r)
    (h2 : height r - height l = 2) :
    ∃ t, rebalance (node.mk h l k r) = Except.ok t ∧ AVL t ∧
      inorder t = inorder l ++ k :: inorder r ∧ size t = size l + 1 + size r ∧
      (height t = 1 + height r ∨ height t = height r) := by
  have gl := height_ge l
  have el := AVL_get_height al
  cases r with
  | null => simp only [height_null] at h2; omega
  | mk hr b y c =>
    have er := AVL_get_height ar
    rw [AVL_mk] at ar
    obtain ⟨ab, ac, ehr, d1, d2⟩ := ar
    have eb := AVL_get_height ab
    have ec := AVL_get_height ac
    have gb := height_ge b
    have gc := height_ge c
    rw [height_mk] at h2
    rw [get_height_mk] at er
    have n1 : ¬ (get_height l - hr > 1) := by rw [el]; omega
    have p2 : get_height l - hr < -1 := by rw [el]; omega
    rw [rebalance_mk, balance_tree_mk, get_height_mk, if_neg n1, if_pos p2,
      get_balance_factor_mk]
    by_cases c3 : get_height b - get_height c > 0
    · rw [if_pos c3]
      rw [eb, ec] at c3
      cases b with
      | null => simp only [height_null] at c3; omega
      | mk hb b1 z b2 =>
        rw [AVL_mk] at ab
        obtain ⟨ab1, ab2, ehb, d3, d4⟩ := ab
        have eb1 := AVL_get_height ab1
        have eb2 := AVL_get_height ab2
        rw [height_mk] at c3 h2 d1 d2 ehr
        rw [right_rotation_mk]
        simp only [left_rotation_mk, get_height_mk, node_max_eq, el, eb1, eb2, ec]
        refine ⟨_, rfl, ?_, ?_, ?_, ?_⟩
        · simp only [AVL_mk, height_mk]
          refine ⟨⟨al, ab1, ?_, ?_, ?_⟩, ⟨ab2, ac, ?_, ?_, ?_⟩, ?_, ?_, ?_⟩ <;> omega
        · simp [inorder]
        · simp only [size]; omega
        · simp only [height_mk]; omega
    · rw [if_neg c3]
      rw [eb, ec] at c3
      simp only [left_rotation_mk, get_height_mk, node_max_eq, el, eb, ec]
      refine ⟨_, rfl, ?_, ?_, ?_, ?_⟩
      · simp only [AVL_mk, height_mk]
        refine ⟨⟨al, ab, ?_, ?_, ?_⟩, ac, ?_, ?_, ?_⟩ <;> omega
      · simp [inorder]
      · simp only [size]; omega
      · simp only [height_mk]; omega

/-- What `rebalance` returns on a left-heavy node: a right rotation, after a left rotation
of the left child when that child leans right. -/
theorem rebalance_left_heavy (h : Int) (l r : node α) (k : α) (al : AVL l) (ar : AVL r)
    (h2 : height l - height r = 2) :
    ∃ t, rebalance (node.mk h l k r) = Except.ok t ∧ AVL t ∧
      inorder t = inorder l ++ k :: inorder r ∧ size t = size l + 1 + size r ∧
      (height t = 1 + height l ∨ height t = height l) := by
  have gr := height_ge r
  have er := AVL_get_height ar
  cases l with
  | null => simp only [height_null] at h2; omega
  | mk hl a x b =>
    have el := AVL_get_height al
    rw [AVL_mk] at al
    obtain ⟨aa, ab, ehl, d1, d2⟩ := al
    have ea := AVL_get_height aa
    have eb := AVL_get_height ab
    have ga := height_ge a
    have gb := height_ge b
    rw [height_mk] at h2
    rw [get_height_mk] at el
    have p1 : hl - get_height r > 1 := by rw [er]; omega
    rw [rebalance_mk, balance_tree_mk, get_height_mk, if_pos p1, get_balance_factor_mk]
    by_cases c3 : get_height a - get_height b < 0
    · rw [if_pos c3]
      rw [ea, eb] at c3
      cases b with
      | null => simp only [height_null] at c3; omega
      | mk hb b1 z b2 =>
        rw [AVL_mk] at ab
        obtain ⟨ab1, ab2, ehb, d3, d4⟩ := ab
        have eb1 := AVL_get_height ab1
        have eb2 := AVL_get_height ab2
        rw [height_mk] at c3 h2 d1 d2 ehl
        rw [left_rotation_mk]
        simp only [right_rotation_mk, get_height_mk, node_max_eq, er, eb1, eb2, ea]
        refine ⟨_, rfl, ?_, ?_, ?_, ?_⟩
        · simp only [AVL_mk, height_mk]
          refine ⟨⟨aa, ab1, ?_, ?_, ?_⟩, ⟨ab2, ar, ?_, ?_, ?_⟩, ?_, ?_, ?_⟩ <;> omega
        · simp [inorder]
        · simp only [size]; omega
        · simp only [height_mk]; omega
    · rw [if_neg c3]
      rw [ea, eb] at c3
      simp only [right_rotation_mk, get_height_mk, node_max_eq, er, ea, eb]
      refine ⟨_, rfl, ?_, ?_, ?_, ?_⟩
      · simp only [AVL_mk, height_mk]
        refine ⟨aa, ⟨ab, ar, ?_, ?_, ?_⟩, ?_, ?_, ?_⟩ <;> omega
      · simp [inorder]
      · simp only [size]; omega
      · simp only [height_mk]; omega

/-- What `rebalance` returns on a node whose subtrees are AVL trees of heights at most 2
apart: an AVL tree with the same in-order sequence, of height `1 + max` or, after a rotation,
possibly one less. -/
theorem rebalance_spec (h : Int) (l r : node α) (k : α) (al : AVL l) (ar : AVL r)
    (h1 : height l - height r ≤ 2) (h2 : height r - height l ≤ 2) :
    ∃ t, rebalance (node.mk h l k r) = Except.ok t ∧ AVL t ∧
      inorder t = inorder l ++ k :: inorder r ∧ size t = size l + 1 + size r ∧
      (height t = 1 + max (height l) (height r) ∨
        (height t = max (height l) (height r) ∧
          (height l - height r = 2 ∨ height r - height l = 2))) := by
  by_cases c1 : height l - height r ≤ 1
  · by_cases c2 : height r - height l ≤ 1
    · refine ⟨_, rebalance_balanced h l r k al ar c1 c2, ?_, ?_, ?_, ?_⟩
      · exact (AVL_mk _ _ _ _).2 ⟨al, ar, rfl, c1, c2⟩
      · simp [inorder]
      · simp [size]
      · left; simp [height]
    · obtain ⟨t, e, at1, i, sz, hh⟩ := rebalance_right_heavy h l r k al ar (by omega)
      refine ⟨t, e, at1, i, sz, ?_⟩
      omega
  · obtain ⟨t, e, at1, i, sz, hh⟩ := rebalance_left_heavy h l r k al ar (by omega)
    refine ⟨t, e, at1, i, sz, ?_⟩
    omega

/-- The function `insert_node` returns on every AVL tree, with an AVL tree that is as high as
the old one or one higher. -/
theorem insert_node_AVL (cmp : α → α → bst_compare_t) (x : α) (rep : bst_status_t)
    (t : node α) (ht : AVL t) :
    ∃ t1 ev, insert_node cmp t x rep = Except.ok (t1, ev) ∧ AVL t1 ∧
      (height t1 = height t ∨ height t1 = height t + 1) := by
  induction t with
  | null =>
    refine ⟨create_node x, [], rfl, ?_, ?_⟩
    · simp [create_node, AVL_mk, AVL, height]
    · right; simp [create_node, height]
  | mk h l k r ihl ihr =>
    rw [AVL_mk] at ht
    obtain ⟨al, ar, eh, d1, d2⟩ := ht
    rw [insert_node]
    cases hc : cmp k x with
    | BST_LT =>
      obtain ⟨l1, ev, e, al1, hh⟩ := ihl al
      obtain ⟨t, e2, at1, -, -, hh2⟩ := rebalance_spec h l1 r k al1 ar (by omega) (by omega)
      simp only [e, e2]
      refine ⟨t, ev, rfl, at1, ?_⟩
      rw [height_mk]; omega
    | BST_GT =>
      obtain ⟨r1, ev, e, ar1, hh⟩ := ihr ar
      obtain ⟨t, e2, at1, -, -, hh2⟩ := rebalance_spec h l r1 k al ar1 (by omega) (by omega)
      simp only [e, e2]
      refine ⟨t, ev, rfl, at1, ?_⟩
      rw [height_mk]; omega
    | BST_EQ =>
      by_cases hr : rep = BST_REPLACE_TRUE
      · simp only [hr, if_true, rebalance_balanced h l r x al ar d1 d2]
        refine ⟨_, _, rfl, (AVL_mk _ _ _ _).2 ⟨al, ar, rfl, d1, d2⟩, ?_⟩
        left; simp [height_mk]
      · simp only [hr, if_false, rebalance_balanced h l r k al ar d1 d2]
        refine ⟨_, _, rfl, (AVL_mk _ _ _ _).2 ⟨al, ar, rfl, d1, d2⟩, ?_⟩
        left; simp [height_mk]

/-- The function `find_max_payload` returns, on a non-`NULL` node, the node without right
child that holds the last payload of the in-order sequence. -/
theorem find_max_payload_mk (r : node α) : ∀ (h : Int) (l : node α) (k : α),
    ∃ h1 a q ini, find_max_payload (node.mk h l k r) = Except.ok (node.mk h1 a q node.null) ∧
      inorder (node.mk h l k r) = ini ++ [q] := by
  induction r with
  | null => intro h l k; exact ⟨h, l, k, inorder l, rfl, by simp [inorder]⟩
  | mk hr rl rk rr _ ihr =>
    intro h l k
    obtain ⟨h1, a, q, ini, e, i⟩ := ihr hr rl rk
    refine ⟨h1, a, q, inorder l ++ k :: ini, ?_, ?_⟩
    · rw [find_max_payload, e]
    · rw [inorder, i]; simp

/-- The function `find_min_payload` returns, on a non-`NULL` node, the node without left
child that holds the first payload of the in-order sequence. -/
theorem find_min_payload_mk (l : node α) : ∀ (h : Int) (k : α) (r : node α),
    ∃ h1 q b rest, find_min_payload (node.mk h l k r) = Except.ok (node.mk h1 node.null q b) ∧
      inorder (node.mk h l k r) = q :: rest := by
  induction l with
  | null => intro h k r; exact ⟨h, k, r, inorder r, rfl, by simp [inorder]⟩
  | mk hl ll lk lr ihl _ =>
    intro h k r
    obtain ⟨h1, q, b, rest, e, i⟩ := ihl hl lk lr
    refine ⟨h1, q, b, rest ++ k :: inorder r, ?_, ?_⟩
    · rw [find_min_payload, e]
    · rw [inorder, i]; simp

/-- The function `remove_node` returns on every AVL tree, with an AVL tree that is as high as
the old one or one lower. -/
theorem remove_node_AVL (cmp : α → α → bst_compare_t) (t : node α) : ∀ (x : α), AVL t →
    ∃ t1 ev, remove_node cmp t x = Except.ok (t1, ev) ∧ AVL t1 ∧
      (height t1 = height t ∨ height t1 = height t - 1) := by
  induction t with
  | null =>
    intro x _
    exact ⟨node.null, [], rfl, trivial, Or.inl rfl⟩
  | mk h l k r ihl ihr =>
    intro x ht
    have ht0 := ht
    rw [AVL_mk] at ht
    obtain ⟨al, ar, eh, d1, d2⟩ := ht
    have gl := height_ge l
    have gr := height_ge r
    rw [remove_node]
    cases hc : cmp k x with
    | BST_LT =>
      obtain ⟨l1, ev, e, al1, hh⟩ := ihl x al
      obtain ⟨t, e2, at1, -, -, hh2⟩ := rebalance_spec h l1 r k al1 ar (by omega) (by omega)
      simp only [e, e2]
      refine ⟨t, ev, rfl, at1, ?_⟩
      rw [height_mk]; omega
    | BST_GT =>
      obtain ⟨r1, ev, e, ar1, hh⟩ := ihr x ar
      obtain ⟨t, e2, at1, -, -, hh2⟩ := rebalance_spec h l r1 k al ar1 (by omega) (by omega)
      simp only [e, e2]
      refine ⟨t, ev, rfl, at1, ?_⟩
      rw [height_mk]; omega
    | BST_EQ =>
      cases r with
      | null =>
        simp only [is_null, Bool.or_true, if_true]
        refine ⟨l, _, rfl, al, ?_⟩
        rw [height_mk, height_null] at *; omega
      | mk hr rl rk rr =>
        cases l with
        | null =>
          simp only [is_null, Bool.or_false, if_true, Bool.false_eq_true, if_false]
          refine ⟨_, _, rfl, ar, ?_⟩
          rw [height_mk (l := node.null), height_null] at *; omega
        | mk hl ll lk lr =>
          simp only [is_null, Bool.or_false, Bool.false_eq_true, if_false]
          by_cases c : get_height (node.mk hl ll lk lr) > get_height (node.mk hr rl rk rr)
          · rw [if_pos c]
            obtain ⟨h1, a, q, ini, e, -⟩ := find_max_payload_mk lr hl ll lk
            obtain ⟨l1, ev, e1, al1, hh⟩ := ihl q al
            obtain ⟨t, e2, at1, -, -, hh2⟩ :=
              rebalance_spec h l1 (node.mk hr rl rk rr) q al1 ar (by omega) (by omega)
            simp only [e, node_key, e1, e2]
            refine ⟨t, ev, rfl, at1, ?_⟩
            rw [height_mk h]; omega
          · rw [if_neg c]
            obtain ⟨h1, q, b, rest, e, -⟩ := find_min_payload_mk rl hr rk rr
            obtain ⟨r1, ev, e1, ar1, hh⟩ := ihr q ar
            obtain ⟨t, e2, at1, -, -, hh2⟩ :=
              rebalance_spec h (node.mk hl ll lk lr) r1 q al ar1 (by omega) (by omega)
            simp only [e, node_key, e1, e2]
            refine ⟨t, ev, rfl, at1, ?_⟩
            rw [height_mk h]; omega

/-! ## The comparator -/

theorem StrictTotalOrder.gt_iff {cmp : α → α → bst_compare_t} (o : StrictTotalOrder cmp)
    (a b : α) : cmp a b = BST_GT ↔ cmp b a = BST_LT :=
  (o.antisymm b a).symm

theorem StrictTotalOrder.eq_symm {cmp : α → α → bst_compare_t} (o : StrictTotalOrder cmp)
    {a b : α} (h : cmp a b = BST_EQ) : cmp b a = BST_EQ := by
  cases e : cmp b a with
  | BST_LT => rw [(o.antisymm b a).1 e] at h; cases h
  | BST_GT => rw [(o.antisymm a b).2 e] at h; cases h
  | BST_EQ => rfl

theorem StrictTotalOrder.congr_right {cmp : α → α → bst_compare_t} (o : StrictTotalOrder cmp)
    {a b : α} (h : cmp a b = BST_EQ) (c : α) : cmp c a = cmp c b := by
  have e := o.eq_congr a b c h
  cases e1 : cmp c a with
  | BST_LT =>
    have := (o.antisymm c a).1 e1
    rw [e] at this
    exact ((o.antisymm c b).2 this).symm
  | BST_GT =>
    have := (o.antisymm a c).2 e1
    rw [e] at this
    exact ((o.antisymm b c).1 this).symm
  | BST_EQ =>
    have := o.eq_symm e1
    rw [e] at this
    exact (o.eq_symm this).symm

theorem StrictTotalOrder.trans_lt {cmp : α → α → bst_compare_t} (o : StrictTotalOrder cmp)
    {a b c : α} (h1 : cmp a b = BST_LT) (h2 : cmp b c = BST_LT) : cmp a c = BST_LT := by
  rw [o.antisymm] at h1 h2 ⊢
  exact o.trans c b a h2 h1

/-- The comparator of the test suite is induced by the order of the `value` fields. -/
theorem compare_strict : StrictTotalOrder compare where
  refl := by intro a; simp [compare]
  antisymm := by
    intro a b
    simp only [compare]
    split_ifs
    all_goals simp
    all_goals omega
  trans := by
    intro a b c
    simp only [compare]
    split_ifs
    all_goals simp
    all_goals omega
  eq_congr := by
    intro a b c
    simp only [compare]
    split_ifs
    all_goals simp
    all_goals omega

/-! ## In-order sequence and order invariant -/

theorem right_rotation_inorder {n n1 : node α} (e : right_rotation n = Except.ok n1) :
    inorder n1 = inorder n ∧ size n1 = size n := by
  cases n with
  | null => cases e
  | mk h l k r =>
    cases l with
    | null => cases e
    | mk hl a x b =>
      rw [right_rotation_mk] at e
      cases e
      simp [inorder, size]; omega

theorem left_rotation_inorder {n n1 : node α} (e : left_rotation n = Except.ok n1) :
    inorder n1 = inorder n ∧ size n1 = size n := by
  cases n with
  | null => cases e
  | mk h l k r =>
    cases r with
    | null => cases e
    | mk hr b y c =>
      rw [left_rotation_mk] at e
      cases e
      simp [inorder, size]; omega

theorem balance_tree_inorder {n n1 : node α} (e : balance_tree n = Except.ok n1) :
    inorder n1 = inorder n ∧ size n1 = size n := by
  cases n with
  | null => cases e; exact ⟨rfl, rfl⟩
  | mk h l k r =>
    rw [balance_tree_mk] at e
    split_ifs at e
    · cases e1 : left_rotation l with
      | error f => rw [e1] at e; cases e
      | ok l1 =>
        rw [e1] at e
        have i1 := left_rotation_inorder e1
        have i2 := right_rotation_inorder e
        simp only [inorder, size] at i2 ⊢
        rw [i2.1, i2.2, i1.1, i1.2]; exact ⟨rfl, rfl⟩
    · exact right_rotation_inorder e
    · cases e1 : right_rotation r with
      | error f => rw [e1] at e; cases e
      | ok r1 =>
        rw [e1] at e
        have i1 := right_rotation_inorder e1
        have i2 := left_rotation_inorder e
        simp only [inorder, size] at i2 ⊢
        rw [i2.1, i2.2, i1.1, i1.2]; exact ⟨rfl, rfl⟩
    · exact left_rotation_inorder e
    · cases e; exact ⟨rfl, rfl⟩

/-- Rebalancing keeps the in-order sequence and the number of nodes, whenever it returns. -/
theorem rebalance_inorder {n n1 : node α} (e : rebalance n = Except.ok n1) :
    inorder n1 = inorder n ∧ size n1 = size n := by
  cases n with
  | null => cases e
  | mk h l k r =>
    rw [rebalance_mk] at e
    have := balance_tree_inorder e
    simpa [inorder, size] using this

/-- Under a strict total order the order invariant says that the in-order sequence is
strictly ascending. -/
theorem ordered_iff_ascending {cmp : α → α → bst_compare_t} (o : StrictTotalOrder cmp)
    (t : node α) : Ordered cmp t ↔ Ascending cmp (inorder t) := by
  induction t with
  | null => simp [Ordered, Ascending, inorder]
  | mk h l k r ihl ihr =>
    simp only [Ordered, Ascending, inorder, List.pairwise_append, List.pairwise_cons,
      List.mem_cons] at *
    rw [ihl, ihr]
    constructor
    · rintro ⟨pl, pr, hl, hr⟩
      refine ⟨pl, ⟨hr, pr⟩, ?_⟩
      intro a ha b hb
      have hak : cmp a k = BST_GT := (o.antisymm k a).1 (hl a ha)
      rcases hb with rfl | hb
      · exact hak
      · exact o.trans a k b hak (hr b hb)
    · rintro ⟨pl, ⟨hr, pr⟩, hx⟩
      refine ⟨pl, pr, ?_, hr⟩
      intro a ha
      exact (o.antisymm k a).2 (hx a ha k (Or.inl rfl))

theorem rebalance_ordered {cmp : α → α → bst_compare_t} (o : StrictTotalOrder cmp)
    {n n1 : node α} (e : rebalance n = Except.ok n1) (hn : Ordered cmp n) : Ordered cmp n1 := by
  rw [ordered_iff_ascending o] at hn ⊢
  rw [(rebalance_inorder e).1]
  exact hn

/-- Where a payload that compares `BST_EQ` to the probe sits, relative to the root of a tree
with the order invariant. -/
theorem locate {cmp : α → α → bst_compare_t} (o : StrictTotalOrder cmp)
    {h : Int} {l r : node α} {k x p : α} (ho : Ordered cmp (node.mk h l k r))
    (hp : p ∈ inorder (node.mk h l k r)) (hx : cmp p x = BST_EQ) :
    (cmp k x = BST_LT ∧ p ∈ inorder l) ∨ (cmp k x = BST_EQ ∧ p = k) ∨
      (cmp k x = BST_GT ∧ p ∈ inorder r) := by
  have e : cmp k p = cmp k x := o.congr_right hx k
  obtain ⟨-, -, hl, hr⟩ := ho
  simp only [inorder, List.mem_append, List.mem_cons] at hp
  rcases hp with hp | rfl | hp
  · left; exact ⟨by rw [← e]; exact hl p hp, hp⟩
  · right; left; exact ⟨by rw [← e]; exact o.refl p, rfl⟩
  · right; right; exact ⟨by rw [← e]; exact hr p hp, hp⟩

/-- In a strictly ascending sequence two payloads that compare `BST_EQ` are the same
reference. -/
theorem ascending_unique {cmp : α → α → bst_compare_t} (o : StrictTotalOrder cmp)
    {l : List α} (hl : Ascending cmp l) {a b : α} (ha : a ∈ l) (hb : b ∈ l)
    (e : cmp a b = BST_EQ) : a = b := by
  induction l with
  | nil => cases ha
  | cons c l ih =>
    simp only [Ascending, List.pairwise_cons] at hl
    simp only [List.mem_cons] at ha hb
    rcases ha with rfl | ha <;> rcases hb with rfl | hb
    · rfl
    · have := hl.1 b hb; rw [e] at this; cases this
    · have := hl.1 a ha; rw [o.eq_symm e] at this; cases this
    · exact ih hl.2 ha hb

theorem search_node_sound (cmp : α → α → bst_compare_t) (x : α) (t : node α) :
    ∀ (h : Int) (a b : node α) (p : α), search_node cmp t x = node.mk h a p b →
      p ∈ inorder t ∧ cmp p x = BST_EQ := by
  induction t with
  | null => intro h a b p e; cases e
  | mk h0 l k r ihl ihr =>
    intro h a b p e
    rw [search_node] at e
    cases hc : cmp k x with
    | BST_LT =>
      simp only [hc] at e
      have := ihl h a b p e
      exact ⟨by simp [inorder, this.1], this.2⟩
    | BST_GT =>
      simp only [hc] at e
      have := ihr h a b p e
      exact ⟨by simp [inorder, this.1], this.2⟩
    | BST_EQ =>
      simp only [hc] at e
      cases e
      exact ⟨by simp [inorder], hc⟩

theorem search_node_complete {cmp : α → α → bst_compare_t} (o : StrictTotalOrder cmp)
    (x p : α) (t : node α) (ho : Ordered cmp t) (hp : p ∈ inorder t)
    (hx : cmp p x = BST_EQ) : ∃ h a b, search_node cmp t x = node.mk h a p b := by
  induction t with
  | null => cases hp
  | mk h0 l k r ihl ihr =>
    rw [search_node]
    rcases locate o ho hp hx with ⟨hc, hm⟩ | ⟨hc, hm⟩ | ⟨hc, hm⟩
    · simp only [hc]; exact ihl ho.1 hm
    · simp only [hc]; subst hm; exact ⟨_, _, _, rfl⟩
    · simp only [hc]; exact ihr ho.2.1 hm

/-- Search on a tree with the order invariant: `bst_get_node` returns `p` exactly when `p`
is stored and compares `BST_EQ` to the probe. -/
theorem bst_get_node_iff (b : bst_t α) (o : StrictTotalOrder b.compare)
    (ho : Ordered b.compare b.root) (x p : α) :
    bst_get_node b x = some p ↔ p ∈ inorder b.root ∧ b.compare p x = BST_EQ := by
  unfold bst_get_node
  constructor
  · intro e
    cases hs : search_node b.compare b.root x with
    | null => rw [hs] at e; cases e
    | mk h a k c =>
      rw [hs] at e
      cases e
      exact search_node_sound _ _ _ _ _ _ _ hs
  · rintro ⟨hp, hx⟩
    obtain ⟨h, a, c, e⟩ := search_node_complete o x p b.root ho hp hx
    rw [e]

theorem bst_get_node_none_iff (b : bst_t α) (o : StrictTotalOrder b.compare)
    (ho : Ordered b.compare b.root) (x : α) :
    bst_get_node b x = none ↔ ∀ p ∈ inorder b.root, b.compare p x ≠ BST_EQ := by
  constructor
  · intro e p hp hx
    have := (bst_get_node_iff b o ho x p).2 ⟨hp, hx⟩
    rw [e] at this; cases this
  · intro hn
    cases e : bst_get_node b x with
    | none => rfl
    | some p =>
      have := (bst_get_node_iff b o ho x p).1 e
      exact absurd this.2 (hn p this.1)

/-! ## Insertion -/

theorem ok_pair_inj {β γ : Type} {a b : β} {u v : γ}
    (e : (Except.ok (a, u) : Except fault (β × γ)) = Except.ok (b, v)) : a = b ∧ u = v := by
  cases e; exact ⟨rfl, rfl⟩

/-- The payloads of the tree `insert_node` returns are the new payload and old ones. -/
theorem insert_node_mem (cmp : α → α → bst_compare_t) (x : α) (rep : bst_status_t)
    (t : node α) : ∀ (t1 : node α) (ev : List (event α)),
    insert_node cmp t x rep = Except.ok (t1, ev) →
      ∀ a ∈ inorder t1, a = x ∨ a ∈ inorder t := by
  induction t with
  | null =>
    intro t1 ev e a ha
    cases e
    simp only [create_node, inorder, List.nil_append, List.mem_singleton] at ha
    exact Or.inl ha
  | mk h l k r ihl ihr =>
    intro t1 ev e a ha
    rw [insert_node] at e
    cases hc : cmp k x with
    | BST_LT =>
      simp only [hc] at e
      cases e1 : insert_node cmp l x rep with
      | error f => rw [e1] at e; cases e
      | ok v =>
        obtain ⟨l1, ev1⟩ := v
        rw [e1] at e
        cases e2 : rebalance (node.mk h l1 k r) with
        | error f => simp only [e2] at e; cases e
        | ok n =>
          simp only [e2] at e
          obtain ⟨rfl, rfl⟩ := ok_pair_inj e
          rw [(rebalance_inorder e2).1] at ha
          simp only [inorder, List.mem_append, List.mem_cons] at ha ⊢
          rcases ha with ha | ha | ha
          · rcases ihl l1 ev1 e1 a ha with h1 | h1
            · exact Or.inl h1
            · exact Or.inr (Or.inl h1)
          · exact Or.inr (Or.inr (Or.inl ha))
          · exact Or.inr (Or.inr (Or.inr ha))
    | BST_GT =>
      simp only [hc] at e
      cases e1 : insert_node cmp r x rep with
      | error f => rw [e1] at e; cases e
      | ok v =>
        obtain ⟨r1, ev1⟩ := v
        rw [e1] at e
        cases e2 : rebalance (node.mk h l k r1) with
        | error f => simp only [e2] at e; cases e
        | ok n =>
          simp only [e2] at e
          obtain ⟨rfl, rfl⟩ := ok_pair_inj e
          rw [(rebalance_inorder e2).1] at ha
          simp only [inorder, List.mem_append, List.mem_cons] at ha ⊢
          rcases ha with ha | ha | ha
          · exact Or.inr (Or.inl ha)
          · exact Or.inr (Or.inr (Or.inl ha))
          · rcases ihr r1 ev1 e1 a ha with h1 | h1
            · exact Or.inl h1
            · exact Or.inr (Or.inr (Or.inr h1))
    | BST_EQ =>
      simp only [hc] at e
      split_ifs at e
      · cases e2 : rebalance (node.mk h l x r) with
        | error f => simp only [e2] at e; cases e
        | ok n =>
          simp only [e2] at e
          obtain ⟨rfl, rfl⟩ := ok_pair_inj e
          rw [(rebalance_inorder e2).1] at ha
          simp only [inorder, List.mem_append, List.mem_cons] at ha ⊢
          rcases ha with ha | ha | ha
          · exact Or.inr (Or.inl ha)
          · exact Or.inl ha
          · exact Or.inr (Or.inr (Or.inr ha))
      · cases e2 : rebalance (node.mk h l k r) with
        | error f => simp only [e2] at e; cases e
        | ok n =>
          simp only [e2] at e
          obtain ⟨rfl, rfl⟩ := ok_pair_inj e
          rw [(rebalance_inorder e2).1] at ha
          exact Or.inr ha

/-- The function `insert_node` keeps the order invariant. -/
theorem insert_node_ordered {cmp : α → α → bst_compare_t} (o : StrictTotalOrder cmp) (x : α)
    (rep : bst_status_t) (t : node α) : ∀ (t1 : node α) (ev : List (event α)),
    Ordered cmp t → insert_node cmp t x rep = Except.ok (t1, ev) → Ordered cmp t1 := by
  induction t with
  | null =>
    intro t1 ev _ e
    cases e
    simp [create_node, Ordered, inorder]
  | mk h l k r ihl ihr =>
    intro t1 ev ho e
    obtain ⟨ol, or1, hl, hr⟩ := ho
    rw [insert_node] at e
    cases hc : cmp k x with
    | BST_LT =>
      simp only [hc] at e
      cases e1 : insert_node cmp l x rep with
      | error f => rw [e1] at e; cases e
      | ok v =>
        obtain ⟨l1, ev1⟩ := v
        rw [e1] at e
        cases e2 : rebalance (node.mk h l1 k r) with
        | error f => simp only [e2] at e; cases e
        | ok n =>
          simp only [e2] at e
          obtain ⟨rfl, rfl⟩ := ok_pair_inj e
          refine rebalance_ordered o e2 ⟨ihl l1 ev1 ol e1, or1, ?_, hr⟩
          intro a ha
          rcases insert_node_mem cmp x rep l l1 ev1 e1 a ha with h1 | h1
          · rw [h1]; exact hc
          · exact hl a h1
    | BST_GT =>
      simp only [hc] at e
      cases e1 : insert_node cmp r x rep with
      | error f => rw [e1] at e; cases e
      | ok v =>
        obtain ⟨r1, ev1⟩ := v
        rw [e1] at e
        cases e2 : rebalance (node.mk h l k r1) with
        | error f => simp only [e2] at e; cases e
        | ok n =>
          simp only [e2] at e
          obtain ⟨rfl, rfl⟩ := ok_pair_inj e
          refine rebalance_ordered o e2 ⟨ol, ihr r1 ev1 or1 e1, hl, ?_⟩
          intro a ha
          rcases insert_node_mem cmp x rep r r1 ev1 e1 a ha with h1 | h1
          · rw [h1]; exact hc
          · exact hr a h1
    | BST_EQ =>
      simp only [hc] at e
      split_ifs at e
      · cases e2 : rebalance (node.mk h l x r) with
        | error f => simp only [e2] at e; cases e
        | ok n =>
          simp only [e2] at e
          obtain ⟨rfl, rfl⟩ := ok_pair_inj e
          refine rebalance_ordered o e2 ⟨ol, or1, ?_, ?_⟩
          · intro a ha; rw [← o.eq_congr k x a hc]; exact hl a ha
          · intro a ha; rw [← o.eq_congr k x a hc]; exact hr a ha
      · cases e2 : rebalance (node.mk h l k r) with
        | error f => simp only [e2] at e; cases e
        | ok n =>
          simp only [e2] at e
          obtain ⟨rfl, rfl⟩ := ok_pair_inj e
          exact rebalance_ordered o e2 ⟨ol, or1, hl, hr⟩

/-- Insertion of a payload whose key is not stored: the in-order sequence gets the new
payload at its sorted position, one node is added and nothing is freed. -/
theorem insert_node_absent {cmp : α → α → bst_compare_t} (o : StrictTotalOrder cmp) (x : α)
    (rep : bst_status_t) (t : node α) : ∀ (t1 : node α) (ev : List (event α)),
    Ordered cmp t → (∀ a ∈ inorder t, cmp a x ≠ BST_EQ) →
    insert_node cmp t x rep = Except.ok (t1, ev) →
      ev = [] ∧ size t1 = size t + 1 ∧
      ∃ l1 l2, inorder t = l1 ++ l2 ∧ inorder t1 = l1 ++ x :: l2 ∧
        (∀ a ∈ l1, cmp a x = BST_GT) ∧ (∀ b ∈ l2, cmp b x = BST_LT) := by
  induction t with
  | null =>
    intro t1 ev _ _ e
    cases e
    exact ⟨rfl, rfl, [], [], rfl, rfl, by simp, by simp⟩
  | mk h l k r ihl ihr =>
    intro t1 ev ho hab e
    obtain ⟨ol, or1, hl, hr⟩ := ho
    rw [insert_node] at e
    cases hc : cmp k x with
    | BST_LT =>
      simp only [hc] at e
      cases e1 : insert_node cmp l x rep with
      | error f => rw [e1] at e; cases e
      | ok v =>
        obtain ⟨l1, ev1⟩ := v
        rw [e1] at e
        cases e2 : rebalance (node.mk h l1 k r) with
        | error f => simp only [e2] at e; cases e
        | ok n =>
          simp only [e2] at e
          obtain ⟨rfl, rfl⟩ := ok_pair_inj e
          obtain ⟨he, hs, a1, a2, i1, i2, g1, g2⟩ :=
            ihl l1 ev1 ol (fun a ha => hab a (by simp [inorder, ha])) e1
          refine ⟨he, ?_, a1, a2 ++ k :: inorder r, ?_, ?_, g1, ?_⟩
          · rw [(rebalance_inorder e2).2]; simp only [size]; omega
          · simp [inorder, i1]
          · rw [(rebalance_inorder e2).1]; simp [inorder, i2]
          · intro b hb
            simp only [List.mem_append, List.mem_cons] at hb
            rcases hb with hb | rfl | hb
            · exact g2 b hb
            · exact hc
            · exact o.trans_lt ((o.gt_iff _ _).1 (hr b hb)) hc
    | BST_GT =>
      simp only [hc] at e
      cases e1 : insert_node cmp r x rep with
      | error f => rw [e1] at e; cases e
      | ok v =>
        obtain ⟨r1, ev1⟩ := v
        rw [e1] at e
        cases e2 : rebalance (node.mk h l k r1) with
        | error f => simp only [e2] at e; cases e
        | ok n =>
          simp only [e2] at e
          obtain ⟨rfl, rfl⟩ := ok_pair_inj e
          obtain ⟨he, hs, a1, a2, i1, i2, g1, g2⟩ :=
            ihr r1 ev1 or1 (fun a ha => hab a (by simp [inorder, ha])) e1
          refine ⟨he, ?_, inorder l ++ k :: a1, a2, ?_, ?_, ?_, g2⟩
          · rw [(rebalance_inorder e2).2]; simp only [size]; omega
          · simp [inorder, i1]
          · rw [(rebalance_inorder e2).1]; simp [inorder, i2]
          · intro b hb
            simp only [List.mem_append, List.mem_cons] at hb
            rcases hb with hb | rfl | hb
            · exact o.trans _ _ _ ((o.antisymm _ _).1 (hl b hb)) hc
            · exact hc
            · exact g1 b hb
    | BST_EQ =>
      exact absurd hc (hab k (by simp [inorder]))

/-! ## Removal -/

/-- On a tree with the order invariant, searching for the payload of the node that
`find_max_payload` returns leads to that very node. -/
theorem find_max_payload_search {cmp : α → α → bst_compare_t} (o : StrictTotalOrder cmp)
    (r : node α) : ∀ (h : Int) (l : node α) (k : α), Ordered cmp (node.mk h l k r) →
    ∀ (h1 : Int) (a c : node α) (q : α),
      find_max_payload (node.mk h l k r) = Except.ok (node.mk h1 a q c) →
      search_node cmp (node.mk h l k r) q = node.mk h1 a q c ∧
        q ∈ inorder (node.mk h l k r) := by
  induction r with
  | null =>
    intro h l k _ h1 a c q e
    rw [find_max_payload] at e
    cases e
    exact ⟨by rw [search_node]; simp only [o.refl], by simp [inorder]⟩
  | mk hr rl rk rr _ ihr =>
    intro h l k ho h1 a c q e
    rw [find_max_payload] at e
    obtain ⟨e1, hq⟩ := ihr hr rl rk ho.2.1 h1 a c q e
    have hc : cmp k q = BST_GT := ho.2.2.2 q hq
    refine ⟨?_, by simp only [inorder, List.mem_append, List.mem_cons] at hq ⊢; tauto⟩
    rw [search_node]; simp only [hc]; exact e1

/-- On a tree with the order invariant, searching for the payload of the node that
`find_min_payload` returns leads to that very node. -/
theorem find_min_payload_search {cmp : α → α → bst_compare_t} (o : StrictTotalOrder cmp)
    (l : node α) : ∀ (h : Int) (k : α) (r : node α), Ordered cmp (node.mk h l k r) →
    ∀ (h1 : Int) (a c : node α) (q : α),
      find_min_payload (node.mk h l k r) = Except.ok (node.mk h1 a q c) →
      search_node cmp (node.mk h l k r) q = node.mk h1 a q c ∧
        q ∈ inorder (node.mk h l k r) := by
  induction l with
  | null =>
    intro h k r _ h1 a c q e
    rw [find_min_payload] at e
    cases e
    exact ⟨by rw [search_node]; simp only [o.refl], by simp [inorder]⟩
  | mk hl ll lk lr ihl _ =>
    intro h k r ho h1 a c q e
    rw [find_min_payload] at e
    obtain ⟨e1, hq⟩ := ihl hl lk lr ho.1 h1 a c q e
    have hc : cmp k q = BST_LT := ho.2.2.1 q hq
    refine ⟨?_, by simp only [inorder, List.mem_append, List.mem_cons] at hq ⊢; tauto⟩
    rw [search_node]; simp only [hc]; exact e1

/-- In a strictly ascending sequence that ends in `q`, nothing follows an occurrence of `q`. -/
theorem ascending_last_split {cmp : α → α → bst_compare_t} (o : StrictTotalOrder cmp)
    {l1 l2 ini : List α} {q : α} (ha : Ascending cmp (l1 ++ q :: l2))
    (e : l1 ++ q :: l2 = ini ++ [q]) : l2 = [] ∧ l1 = ini := by
  have hq : ∀ b ∈ l2, cmp q b = BST_GT := by
    simp only [Ascending, List.pairwise_append, List.pairwise_cons] at ha
    exact ha.2.1.1
  have e2 := congrArg List.reverse e
  simp only [List.reverse_append, List.reverse_cons, List.reverse_nil, List.nil_append,
    List.append_assoc, List.singleton_append] at e2
  cases h2 : l2.reverse with
  | nil =>
    rw [h2] at e2
    simp only [List.nil_append, List.cons.injEq, true_and, List.reverse_inj] at e2
    exact ⟨by simpa using h2, e2⟩
  | cons c rest =>
    rw [h2] at e2
    simp only [List.cons_append, List.cons.injEq] at e2
    have hc : c ∈ l2 := by
      have : c ∈ l2.reverse := by rw [h2]; simp
      simpa using this
    have := hq c hc
    rw [e2.1, o.refl] at this
    cases this

/-- In a strictly ascending sequence that starts with `q`, nothing precedes an occurrence of
`q`. -/
theorem ascending_first_split {cmp : α → α → bst_compare_t} (o : StrictTotalOrder cmp)
    {l1 l2 rest : List α} {q : α} (ha : Ascending cmp (l1 ++ q :: l2))
    (e : l1 ++ q :: l2 = q :: rest) : l1 = [] ∧ l2 = rest := by
  cases l1 with
  | nil => simp only [List.nil_append, List.cons.injEq, true_and] at e; exact ⟨rfl, e⟩
  | cons c l1 =>
    simp only [List.cons_append, List.cons.injEq] at e
    simp only [Ascending, List.cons_append, List.pairwise_cons] at ha
    have := ha.1 q (by simp)
    rw [e.1, o.refl] at this
    cases this

/-- Removal of a stored key from a tree with the order invariant: the in-order sequence
loses exactly the payload `p` that compares `BST_EQ` to the probe, one node is freed, and the
freed node is the one `search_node` finds when that node has at most one child, otherwise a
descendant whose payload `q` has been moved into it. -/
theorem remove_node_spec {cmp : α → α → bst_compare_t} (o : StrictTotalOrder cmp)
    (t : node α) : ∀ (x p : α) (t1 : node α) (ev : List (event α)),
    Ordered cmp t → p ∈ inorder t → cmp p x = BST_EQ →
    remove_node cmp t x = Except.ok (t1, ev) →
      (∃ l1 l2, inorder t = l1 ++ p :: l2 ∧ inorder t1 = l1 ++ l2) ∧
      size t = size t1 + 1 ∧
      ∃ q h a b, ev = [event.free_node q] ∧ search_node cmp t x = node.mk h a p b ∧
        ((is_null a || is_null b) = true → q = p) ∧
        ((is_null a || is_null b) = false → q ≠ p ∧ q ∈ inorder t1) := by
  induction t with
  | null => intro x p t1 ev _ hp; cases hp
  | mk h l k r ihl ihr =>
    intro x p t1 ev ho hp hx e
    have ho0 := ho
    obtain ⟨ol, or1, hl, hr⟩ := ho
    rw [remove_node] at e
    rw [search_node]
    rcases locate o ho0 hp hx with ⟨hc, hm⟩ | ⟨hc, hm⟩ | ⟨hc, hm⟩
    · simp only [hc] at e ⊢
      cases e1 : remove_node cmp l x with
      | error f => rw [e1] at e; cases e
      | ok v =>
        obtain ⟨l1, ev1⟩ := v
        rw [e1] at e
        cases e2 : rebalance (node.mk h l1 k r) with
        | error f => simp only [e2] at e; cases e
        | ok n =>
          simp only [e2] at e
          obtain ⟨rfl, rfl⟩ := ok_pair_inj e
          obtain ⟨⟨a1, a2, i1, i2⟩, hs, q, h1, a, b, he, hsn, c1, c2⟩ :=
            ihl x p l1 ev1 ol hm hx e1
          have hi := (rebalance_inorder e2).1
          refine ⟨⟨a1, a2 ++ k :: inorder r, ?_, ?_⟩, ?_, q, h1, a, b, he, hsn, c1, ?_⟩
          · simp [inorder, i1]
          · rw [hi]; simp [inorder, i2]
          · rw [(rebalance_inorder e2).2]; simp only [size]; omega
          · intro hb
            refine ⟨(c2 hb).1, ?_⟩
            rw [hi]; simp [inorder, (c2 hb).2]
    · subst hm
      simp only [hc] at e ⊢
      cases r with
      | null =>
        simp only [is_null, Bool.or_true, if_true] at e
        obtain ⟨rfl, rfl⟩ := ok_pair_inj e
        refine ⟨⟨inorder l, [], by simp [inorder], by simp⟩, by simp [size],
          p, h, l, node.null, rfl, rfl, fun _ => rfl, ?_⟩
        intro hb; simp [is_null] at hb
      | mk hr' rl rk rr =>
        cases l with
        | null =>
          simp only [is_null, Bool.or_false, if_true, Bool.false_eq_true, if_false] at e
          obtain ⟨rfl, rfl⟩ := ok_pair_inj e
          refine ⟨⟨[], inorder (node.mk hr' rl rk rr), by simp [inorder], by simp⟩,
            by simp only [size]; omega,
            p, h, node.null, _, rfl, rfl, fun _ => rfl, ?_⟩
          intro hb; simp [is_null] at hb
        | mk hl' ll lk lr =>
          simp only [is_null, Bool.or_false, Bool.false_eq_true, if_false] at e
          split_ifs at e with c
          · obtain ⟨h1, a, q, ini, ef, ei⟩ := find_max_payload_mk lr hl' ll lk
            obtain ⟨es, hq⟩ := find_max_payload_search o lr hl' ll lk ol h1 a node.null q ef
            simp only [ef, node_key] at e
            cases e1 : remove_node cmp (node.mk hl' ll lk lr) q with
            | error f => rw [e1] at e; cases e
            | ok v =>
              obtain ⟨l1, ev1⟩ := v
              rw [e1] at e
              cases e2 : rebalance (node.mk h l1 q (node.mk hr' rl rk rr)) with
              | error f => simp only [e2] at e; cases e
              | ok n =>
                simp only [e2] at e
                obtain ⟨rfl, rfl⟩ := ok_pair_inj e
                obtain ⟨⟨a1, a2, i1, i2⟩, hs, q1, h2, a3, b3, he, hsn, c1, -⟩ :=
                  ihl q q l1 ev1 ol hq (o.refl q) e1
                have hasc : Ascending cmp (a1 ++ q :: a2) := by
                  rw [← i1]; exact (ordered_iff_ascending o _).1 ol
                obtain ⟨z2, z1⟩ := ascending_last_split o hasc (by rw [← i1, ei])
                subst z2
                rw [es] at hsn
                cases hsn
                have hq1 : q1 = q := c1 (by simp [is_null])
                subst hq1
                have hi := (rebalance_inorder e2).1
                have hne : q1 ≠ p := by
                  intro hqp
                  have := hl q1 hq
                  rw [hqp, o.refl] at this
                  cases this
                refine ⟨⟨a1 ++ [q1], inorder (node.mk hr' rl rk rr), ?_, ?_⟩, ?_,
                  q1, h, _, _, he, rfl, ?_, ?_⟩
                · rw [inorder, i1]
                · rw [hi, inorder, i2]; simp
                · rw [(rebalance_inorder e2).2]; simp only [size] at hs ⊢; omega
                · intro hb; simp [is_null] at hb
                · intro _
                  exact ⟨hne, by rw [hi]; simp [inorder]⟩
          · obtain ⟨h1, q, b, rest, ef, ei⟩ := find_min_payload_mk rl hr' rk rr
            obtain ⟨es, hq⟩ := find_min_payload_search o rl hr' rk rr or1 h1 node.null b q ef
            simp only [ef, node_key] at e
            cases e1 : remove_node cmp (node.mk hr' rl rk rr) q with
            | error f => rw [e1] at e; cases e
            | ok v =>
              obtain ⟨r1, ev1⟩ := v
              rw [e1] at e
              cases e2 : rebalance (node.mk h (node.mk hl' ll lk lr) q r1) with
              | error f => simp only [e2] at e; cases e
              | ok n =>
                simp only [e2] at e
                obtain ⟨rfl, rfl⟩ := ok_pair_inj e
                obtain ⟨⟨a1, a2, i1, i2⟩, hs, q1, h2, a3, b3, he, hsn, c1, -⟩ :=
                  ihr q q r1 ev1 or1 hq (o.refl q) e1
                have hasc : Ascending cmp (a1 ++ q :: a2) := by
                  rw [← i1]; exact (ordered_iff_ascending o _).1 or1
                obtain ⟨z1, z2⟩ := ascending_first_split o hasc (by rw [← i1, ei])
                subst z1
                rw [es] at hsn
                cases hsn
                have hq1 : q1 = q := c1 (by simp [is_null])
                subst hq1
                have hi := (rebalance_inorder e2).1
                have hne : q1 ≠ p := by
                  intro hqp
                  have := hr q1 hq
                  rw [hqp, o.refl] at this
                  cases this
                refine ⟨⟨inorder (node.mk hl' ll lk lr), q1 :: a2, ?_, ?_⟩, ?_,
                  q1, h, _, _, he, rfl, ?_, ?_⟩
                · rw [inorder, i1]; simp
                · rw [hi, inorder, i2]; simp
                · rw [(rebalance_inorder e2).2]; simp only [size] at hs ⊢; omega
                · intro hb; simp [is_null] at hb
                · intro _
                  exact ⟨hne, by rw [hi]; simp [inorder]⟩
    · simp only [hc] at e ⊢
      cases e1 : remove_node cmp r x with
      | error f => rw [e1] at e; cases e
      | ok v =>
        obtain ⟨r1, ev1⟩ := v
        rw [e1] at e
        cases e2 : rebalance (node.mk h l k r1) with
        | error f => simp only [e2] at e; cases e
        | ok n =>
          simp only [e2] at e
          obtain ⟨rfl, rfl⟩ := ok_pair_inj e
          obtain ⟨⟨a1, a2, i1, i2⟩, hs, q, h1, a, b, he, hsn, c1, c2⟩ :=
            ihr x p r1 ev1 or1 hm hx e1
          have hi := (rebalance_inorder e2).1
          refine ⟨⟨inorder l ++ k :: a1, a2, ?_, ?_⟩, ?_, q, h1, a, b, he, hsn, c1, ?_⟩
          · simp [inorder, i1]
          · rw [hi]; simp [inorder, i2]
          · rw [(rebalance_inorder e2).2]; simp only [size]; omega
          · intro hb
            refine ⟨(c2 hb).1, ?_⟩
            rw [hi]; simp [inorder, (c2 hb).2]

/-! ## Insertion of a key that is already stored -/

theorem height_map_key (f : α → α) (t : node α) : height (map_key f t) = height t := by
  induction t with
  | null => rfl
  | mk h l k r ihl ihr => simp only [map_key, height, ihl, ihr]

theorem AVL_map_key (f : α → α) (t : node α) (ht : AVL t) : AVL (map_key f t) := by
  induction t with
  | null => exact ht
  | mk h l k r ihl ihr =>
    rw [AVL_mk] at ht
    obtain ⟨al, ar, eh, d1, d2⟩ := ht
    rw [map_key, AVL_mk, height_map_key, height_map_key]
    exact ⟨ihl al, ihr ar, eh, d1, d2⟩

theorem shape_map_key (f : α → α) (t : node α) : shape (map_key f t) = shape t := by
  induction t with
  | null => rfl
  | mk h l k r ihl ihr => simp only [map_key, shape, ihl, ihr]

theorem inorder_map_key (f : α → α) (t : node α) :
    inorder (map_key f t) = (inorder t).map f := by
  induction t with
  | null => rfl
  | mk h l k r ihl ihr => simp [map_key, inorder, ihl, ihr]

theorem preorder_map_key (f : α → α) (t : node α) :
    preorder (map_key f t) = (preorder t).map f := by
  induction t with
  | null => rfl
  | mk h l k r ihl ihr => simp [map_key, preorder, ihl, ihr]

theorem postorder_map_key (f : α → α) (t : node α) :
    postorder (map_key f t) = (postorder t).map f := by
  induction t with
  | null => rfl
  | mk h l k r ihl ihr => simp [map_key, postorder, ihl, ihr]

theorem map_key_id (f : α → α) (t : node α) (hf : ∀ a ∈ inorder t, f a = a) :
    map_key f t = t := by
  induction t with
  | null => rfl
  | mk h l k r ihl ihr =>
    rw [map_key, ihl (fun a ha => hf a (by simp [inorder, ha])),
      ihr (fun a ha => hf a (by simp [inorder, ha])), hf k (by simp [inorder])]

theorem sameKeys_replace_with {cmp : α → α → bst_compare_t} (o : StrictTotalOrder cmp)
    (x : α) (l : List α) : SameKeys cmp l (l.map (replace_with cmp x)) := by
  induction l with
  | nil => exact List.Forall₂.nil
  | cons a l ih =>
    refine List.Forall₂.cons ?_ ih
    unfold replace_with
    split_ifs with h
    · exact h
    · exact o.refl a

/-- A payload off the search path of `x` does not have the key of `x`. -/
theorem replace_with_of_ne {cmp : α → α → bst_compare_t} (o : StrictTotalOrder cmp)
    {k x a : α} (h1 : cmp k a ≠ cmp k x) : replace_with cmp x a = a := by
  unfold replace_with
  rw [if_neg]
  intro h
  exact h1 (o.congr_right h k)

/-- With replacement requested, inserting a payload whose key is stored puts the new
reference in the place of the old one, frees the old one, and changes nothing else. -/
theorem insert_node_replace {cmp : α → α → bst_compare_t} (o : StrictTotalOrder cmp)
    (x p : α) (t : node α) (ht : AVL t) (ho : Ordered cmp t) (hp : p ∈ inorder t)
    (hx : cmp p x = BST_EQ) :
    insert_node cmp t x BST_REPLACE_TRUE
      = Except.ok (map_key (replace_with cmp x) t, [event.free_key p]) := by
  induction t with
  | null => cases hp
  | mk h l k r ihl ihr =>
    have ho0 := ho
    obtain ⟨ol, or1, hl, hr⟩ := ho
    rw [AVL_mk] at ht
    obtain ⟨al, ar, eh, d1, d2⟩ := ht
    have idl : cmp k x ≠ BST_LT → map_key (replace_with cmp x) l = l := fun hne =>
      map_key_id _ _ (fun a ha => replace_with_of_ne o (by rw [hl a ha]; exact Ne.symm hne))
    have idr : cmp k x ≠ BST_GT → map_key (replace_with cmp x) r = r := fun hne =>
      map_key_id _ _ (fun a ha => replace_with_of_ne o (by rw [hr a ha]; exact Ne.symm hne))
    have idk : cmp k x ≠ BST_EQ → replace_with cmp x k = k := fun hne =>
      replace_with_of_ne o (by rw [o.refl]; exact Ne.symm hne)
    rw [insert_node, map_key]
    rcases locate o ho0 hp hx with ⟨hc, hm⟩ | ⟨hc, hm⟩ | ⟨hc, hm⟩
    · simp only [hc, ihl al ol hm]
      rw [rebalance_balanced h _ r k (AVL_map_key _ _ al) ar
        (by rw [height_map_key]; exact d1) (by rw [height_map_key]; exact d2),
        height_map_key, ← eh, idr (by rw [hc]; decide), idk (by rw [hc]; decide)]
    · subst hm
      simp only [hc, if_true, rebalance_balanced h l r x al ar d1 d2]
      rw [← eh, idl (by rw [hc]; decide), idr (by rw [hc]; decide)]
      simp [replace_with, hc]
    · simp only [hc, ihr ar or1 hm]
      rw [rebalance_balanced h l _ k al (AVL_map_key _ _ ar)
        (by rw [height_map_key]; exact d1) (by rw [height_map_key]; exact d2),
        height_map_key, ← eh, idl (by rw [hc]; decide), idk (by rw [hc]; decide)]

/-- Without replacement requested, inserting a payload whose key is stored returns the tree
as it was and frees nothing. -/
theorem insert_node_duplicate {cmp : α → α → bst_compare_t} (o : StrictTotalOrder cmp)
    (x p : α) (rep : bst_status_t) (hrep : rep ≠ BST_REPLACE_TRUE) (t : node α) (ht : AVL t)
    (ho : Ordered cmp t) (hp : p ∈ inorder t) (hx : cmp p x = BST_EQ) :
    insert_node cmp t x rep = Except.ok (t, []) := by
  induction t with
  | null => cases hp
  | mk h l k r ihl ihr =>
    have ho0 := ho
    obtain ⟨ol, or1, hl, hr⟩ := ho
    rw [AVL_mk] at ht
    obtain ⟨al, ar, eh, d1, d2⟩ := ht
    rw [insert_node]
    rcases locate o ho0 hp hx with ⟨hc, hm⟩ | ⟨hc, hm⟩ | ⟨hc, hm⟩
    · simp only [hc, ihl al ol hm, rebalance_balanced h l r k al ar d1 d2, ← eh]
    · simp only [hc, hrep, if_false, rebalance_balanced h l r k al ar d1 d2, ← eh]
    · simp only [hc, ihr ar or1 hm, rebalance_balanced h l r k al ar d1 d2, ← eh]

/-! ## Traversals -/

theorem in_order_traversal_save (t : node α) : ∀ s : List α,
    in_order_traversal_node t save_nodes s = s ++ inorder t := by
  induction t with
  | null => intro s; simp [in_order_traversal_node, inorder]
  | mk h l k r ihl ihr =>
    intro s
    simp [in_order_traversal_node, inorder, ihl, ihr, save_nodes]

theorem pre_order_traversal_save (t : node α) : ∀ s : List α,
    pre_order_traversal_node t save_nodes s = s ++ preorder t := by
  induction t with
  | null => intro s; simp [pre_order_traversal_node, preorder]
  | mk h l k r ihl ihr =>
    intro s
    simp [pre_order_traversal_node, preorder, ihl, ihr, save_nodes]

theorem post_order_traversal_save (t : node α) : ∀ s : List α,
    post_order_traversal_node t save_nodes s = s ++ postorder t := by
  induction t with
  | null => intro s; simp [post_order_traversal_node, postorder]
  | mk h l k r ihl ihr =>
    intro s
    simp [post_order_traversal_node, postorder, ihl, ihr, save_nodes]

/-- The payloads an in-order `bst_traversal` hands to `save_nodes` are the in-order
sequence of the root. -/
theorem bst_traversal_in_order (b : bst_t α) :
    bst_traversal b BST_IN_ORDER save_nodes [] = inorder b.root := by
  simp [bst_traversal, in_order_traversal_save]

theorem bst_traversal_pre_order (b : bst_t α) :
    bst_traversal b BST_PRE_ORDER save_nodes [] = preorder b.root := by
  simp [bst_traversal, pre_order_traversal_save, BST_PRE_ORDER, BST_IN_ORDER, BST_POST_ORDER]

theorem bst_traversal_post_order (b : bst_t α) :
    bst_traversal b BST_POST_ORDER save_nodes [] = postorder b.root := by
  simp [bst_traversal, post_order_traversal_save, BST_IN_ORDER, BST_POST_ORDER]

/-! ## The public operations -/

/-- The function `bst_insert` on a handle whose tree is an AVL tree: it returns, and its
result is what `insert_node` returns on the root. -/
theorem bst_insert_ok (b : bst_t α) (x : α) (rep : bst_status_t) (ht : AVL b.root) :
    ∃ n ev, insert_node b.compare b.root x rep = Except.ok (n, ev) ∧
      bst_insert b x rep = Except.ok (BST_ROTATION_SUCCESS, { b with root := n }, ev) ∧
      AVL n := by
  obtain ⟨n, ev, e, an, -⟩ := insert_node_AVL b.compare x rep b.root ht
  exact ⟨n, ev, e, by simp only [bst_insert, e], an⟩

theorem bst_insert_inv {b b1 : bst_t α} {x : α} {rep st : bst_status_t} {ev : List (event α)}
    (e : bst_insert b x rep = Except.ok (st, b1, ev)) :
    ∃ n, insert_node b.compare b.root x rep = Except.ok (n, ev) ∧
      b1 = { b with root := n } ∧ st = BST_ROTATION_SUCCESS := by
  unfold bst_insert at e
  cases e1 : insert_node b.compare b.root x rep with
  | error f => rw [e1] at e; cases e
  | ok v =>
    obtain ⟨n, ev1⟩ := v
    rw [e1] at e
    cases e
    exact ⟨n, rfl, rfl, rfl⟩

theorem bst_remove_inv {b b1 : bst_t α} {x : α} {st : bst_status_t} {ev : List (event α)}
    (e : bst_remove b x = Except.ok (st, b1, ev)) :
    (bst_get_node b x = none ∧ st = BST_NODE_NOT_FOUND ∧ b1 = b ∧ ev = []) ∨
    (∃ p n ev1, bst_get_node b x = some p ∧
      remove_node b.compare b.root x = Except.ok (n, ev1) ∧ b.free_payload = true ∧
      st = BST_INSERT_SUCCESS ∧ b1 = { b with root := n } ∧
      ev = ev1 ++ [event.free_payload p]) := by
  unfold bst_remove at e
  cases hg : bst_get_node b x with
  | none =>
    rw [hg] at e
    cases e
    exact Or.inl ⟨rfl, rfl, rfl, rfl⟩
  | some p =>
    rw [hg] at e
    cases e1 : remove_node b.compare b.root x with
    | error f => simp only [e1] at e; cases e
    | ok v =>
      obtain ⟨n, ev1⟩ := v
      simp only [e1] at e
      split_ifs at e with hf
      cases e
      exact Or.inr ⟨p, n, ev1, rfl, rfl, hf, rfl, rfl, rfl⟩

/-- A sequence with one payload taken out of a strictly ascending one is strictly
ascending. -/
theorem ascending_remove {cmp : α → α → bst_compare_t} {l1 l2 : List α} {p : α}
    (h : Ascending cmp (l1 ++ p :: l2)) : Ascending cmp (l1 ++ l2) := by
  unfold Ascending at *
  exact h.sublist (List.Sublist.append_left (List.sublist_cons_self p l2) l1)

/-- Every reachable handle keeps its callbacks, and its tree satisfies the balance, height
and (under a strict total order) order invariants. -/
theorem reachable_inv {cmp : α → α → bst_compare_t} {fp : Bool} {b : bst_t α}
    (hr : Reachable cmp fp b) :
    b.compare = cmp ∧ b.free_payload = fp ∧ AVL b.root ∧
      (StrictTotalOrder cmp → Ordered cmp b.root) := by
  induction hr with
  | init => exact ⟨rfl, rfl, trivial, fun _ => trivial⟩
  | insert b b1 x rep st ev _ e ih =>
    obtain ⟨hc, hf, ha, ho⟩ := ih
    obtain ⟨n, e1, rfl, -⟩ := bst_insert_inv e
    obtain ⟨n2, ev2, e2, -, an⟩ := bst_insert_ok b x rep ha
    rw [e1] at e2
    obtain ⟨rfl, rfl⟩ := ok_pair_inj e2
    refine ⟨hc, hf, an, fun o => ?_⟩
    rw [hc] at e1
    exact insert_node_ordered o x rep b.root n ev (ho o) e1
  | remove b b1 x st ev _ e ih =>
    obtain ⟨hc, hf, ha, ho⟩ := ih
    rcases bst_remove_inv e with ⟨-, -, rfl, -⟩ | ⟨p, n, ev1, hg, e1, -, -, rfl, -⟩
    · exact ⟨hc, hf, ha, ho⟩
    · obtain ⟨n2, ev2, e2, an, -⟩ := remove_node_AVL b.compare b.root x ha
      rw [e1] at e2
      obtain ⟨rfl, rfl⟩ := ok_pair_inj e2
      refine ⟨hc, hf, an, fun o => ?_⟩
      have ob : StrictTotalOrder b.compare := by rw [hc]; exact o
      have hob : Ordered b.compare b.root := by rw [hc]; exact ho o
      have hp := (bst_get_node_iff b ob hob x p).1 hg
      obtain ⟨⟨l1, l2, i1, i2⟩, -⟩ := remove_node_spec ob b.root x p n ev1 hob hp.1 hp.2 e1
      rw [← hc]
      rw [ordered_iff_ascending ob, i2]
      have := (ordered_iff_ascending ob _).1 hob
      rw [i1] at this
      exact ascending_remove this

/-! ## The test fixture -/

theorem insert_all_reachable {cmp : α → α → bst_compare_t} {fp : Bool} (rep : bst_status_t)
    (xs : List α) : ∀ (b b1 : bst_t α), Reachable cmp fp b →
    insert_all b rep xs = Except.ok b1 → Reachable cmp fp b1 := by
  induction xs with
  | nil => intro b b1 hb e; cases e; exact hb
  | cons x xs ih =>
    intro b b1 hb e
    rw [insert_all] at e
    cases e1 : bst_insert b x rep with
    | error f => rw [e1] at e; cases e
    | ok v =>
      obtain ⟨st, b2, ev⟩ := v
      rw [e1] at e
      exact ih b2 b1 (Reachable.insert b b2 x rep st ev hb e1) e

theorem create_test_eq : create_test_30_10_28_50_29_55 = Except.ok tree_30_10_28_50_29_55 :=
  rfl

/-- The fixture tree is reachable: six `bst_insert` calls on the empty tree. -/
theorem tree_reachable : Reachable compare true tree_30_10_28_50_29_55 :=
  insert_all_reachable BST_REPLACE_FALSE _ _ _ Reachable.init create_test_eq

theorem tree_without_destructor_reachable : Reachable compare false tree_without_destructor :=
  insert_all_reachable BST_REPLACE_FALSE
    [create_payload 30 1, create_payload 10 2, create_payload 28 3, create_payload 50 4,
     create_payload 29 5, create_payload 55 5] (bst_init compare false) _ Reachable.init rfl

theorem single_without_destructor_reachable :
    Reachable compare false single_without_destructor :=
  insert_all_reachable BST_REPLACE_FALSE [create_payload 30 1] (bst_init compare false) _
    Reachable.init rfl

/-! ## Shared consequences for the public operations -/

/-- A payload occurs once in a strictly ascending sequence. -/
theorem ascending_not_mem {cmp : α → α → bst_compare_t} (o : StrictTotalOrder cmp)
    {l1 l2 : List α} {p : α} (h : Ascending cmp (l1 ++ p :: l2)) : p ∉ l1 ++ l2 := by
  simp only [Ascending, List.pairwise_append, List.pairwise_cons, List.mem_cons] at h
  obtain ⟨-, ⟨h2, -⟩, h3⟩ := h
  intro hm
  rcases List.mem_append.1 hm with hm | hm
  · have := h3 p hm p (Or.inl rfl)
    rw [o.refl] at this; cases this
  · have := h2 p hm
    rw [o.refl] at this; cases this

/-- What `bst_insert` does on a reachable handle when the key of `x` is not stored. -/
theorem bst_insert_absent {cmp : α → α → bst_compare_t} {fp : Bool} {b : bst_t α}
    (hr : Reachable cmp fp b) (o : StrictTotalOrder cmp) (x : α) (rep : bst_status_t)
    (habs : ∀ a ∈ inorder b.root, cmp a x ≠ BST_EQ) :
    ∃ n, bst_insert b x rep = Except.ok (BST_ROTATION_SUCCESS, { b with root := n }, []) ∧
      Ordered cmp n ∧ size n = size b.root + 1 ∧
      ∃ l1 l2, inorder b.root = l1 ++ l2 ∧ inorder n = l1 ++ x :: l2 ∧
        (∀ a ∈ l1, cmp a x = BST_GT) ∧ (∀ c ∈ l2, cmp c x = BST_LT) := by
  obtain ⟨hc, -, ha, ho⟩ := reachable_inv hr
  obtain ⟨n, ev, e, e2, -⟩ := bst_insert_ok b x rep ha
  rw [hc] at e
  obtain ⟨rfl, hs, hsplit⟩ := insert_node_absent o x rep b.root n ev (ho o) habs e
  exact ⟨n, e2, insert_node_ordered o x rep b.root n [] (ho o) e, hs, hsplit⟩

/-- What `bst_remove` does on a reachable handle with a destructor when a payload `p` with
the key of the probe is stored. -/
theorem bst_remove_stored {cmp : α → α → bst_compare_t} {b : bst_t α}
    (hr : Reachable cmp true b) (o : StrictTotalOrder cmp) (probe p : α)
    (hp : p ∈ inorder b.root) (hx : cmp p probe = BST_EQ) :
    bst_get_node b probe = some p ∧
    ∃ n q, bst_remove b probe = Except.ok (BST_INSERT_SUCCESS, { b with root := n },
        [event.free_node q, event.free_payload p]) ∧
      (∃ l1 l2, inorder b.root = l1 ++ p :: l2 ∧ inorder n = l1 ++ l2) ∧
      p ∉ inorder n ∧ Ordered cmp n ∧ size b.root = size n + 1 ∧
      ∃ h l r, search_node cmp b.root probe = node.mk h l p r ∧
        ((is_null l || is_null r) = true → q = p) ∧
        ((is_null l || is_null r) = false → q ≠ p ∧ q ∈ inorder n) := by
  obtain ⟨hc, hf, ha, ho⟩ := reachable_inv hr
  have ob : StrictTotalOrder b.compare := by rw [hc]; exact o
  have hob : Ordered b.compare b.root := by rw [hc]; exact ho o
  have hg : bst_get_node b probe = some p :=
    (bst_get_node_iff b ob hob probe p).2 ⟨hp, by rw [hc]; exact hx⟩
  obtain ⟨n, ev, e, -, -⟩ := remove_node_AVL b.compare b.root probe ha
  have e0 := e
  rw [hc] at e
  obtain ⟨⟨l1, l2, i1, i2⟩, hs, q, h, l, r, rfl, hsn, c1, c2⟩ :=
    remove_node_spec o b.root probe p n ev (ho o) hp hx e
  have hasc : Ascending cmp (l1 ++ p :: l2) := by
    rw [← i1]; exact (ordered_iff_ascending o _).1 (ho o)
  refine ⟨hg, n, q, ?_, ⟨l1, l2, i1, i2⟩, ?_, ?_, hs, h, l, r, hsn, c1, c2⟩
  · simp only [bst_remove, hg, e0, hf, if_true, List.singleton_append]
  · rw [i2]; exact ascending_not_mem o hasc
  · rw [ordered_iff_ascending o, i2]; exact ascending_remove hasc

/-! ## The claims -/

/-- C1 (balance invariant): in every tree that a finite sequence of `bst_insert` and
`bst_remove` calls produces from the empty tree, the true heights of the two subtrees of
every node differ by at most 1.  It holds for every comparator. -/
theorem balance_invariant (cmp : α → α → bst_compare_t) (fp : Bool) (b : bst_t α)
    (hr : Reachable cmp fp b) : Balanced b.root :=
  ((AVL_iff b.root).1 (reachable_inv hr).2.2.1).2

theorem balance_invariant_witness :
    Reachable compare true tree_30_10_28_50_29_55 ∧ Balanced tree_30_10_28_50_29_55.root :=
  ⟨tree_reachable, balance_invariant compare true tree_30_10_28_50_29_55 tree_reachable⟩

/-- C2 (order invariant, sortedness): under a comparator induced by a strict total order,
the in-order traversal of every reachable tree is strictly ascending (each visited payload
orders after the one visited before it, `compare a b = BST_GT`), and at every node the left
subtree's payloads compare `BST_LT` and the right subtree's `BST_GT` against the node. -/
theorem order_invariant (cmp : α → α → bst_compare_t) (fp : Bool) (b : bst_t α)
    (o : StrictTotalOrder cmp) (hr : Reachable cmp fp b) :
    List.Chain' (fun x y => cmp x y = BST_GT) (bst_traversal b BST_IN_ORDER save_nodes []) ∧
      Ordered cmp b.root := by
  have ho := (reachable_inv hr).2.2.2 o
  refine ⟨?_, ho⟩
  rw [bst_traversal_in_order]
  exact List.Pairwise.chain' ((ordered_iff_ascending o _).1 ho)

theorem order_invariant_witness :
    StrictTotalOrder compare ∧ Reachable compare true tree_30_10_28_50_29_55 ∧
      List.Chain' (fun x y => compare x y = BST_GT)
        (bst_traversal tree_30_10_28_50_29_55 BST_IN_ORDER save_nodes []) ∧
      Ordered compare tree_30_10_28_50_29_55.root :=
  ⟨compare_strict, tree_reachable,
    order_invariant compare true tree_30_10_28_50_29_55 compare_strict tree_reachable⟩

/-- C3 (search correctness): on a tree with the order invariant, under a comparator induced
by a strict total order, `bst_get_node` returns the stored payload that compares `BST_EQ` to
the probe when there is one, it returns only such a payload, it returns `NULL` exactly when
no stored payload compares `BST_EQ` to the probe, and it returns `NULL` on the empty tree. -/
theorem search_correctness (b : bst_t α) (o : StrictTotalOrder b.compare)
    (ho : Ordered b.compare b.root) (probe : α) :
    (∀ p, p ∈ inorder b.root → b.compare p probe = BST_EQ → bst_get_node b probe = some p) ∧
    (∀ p, bst_get_node b probe = some p → p ∈ inorder b.root ∧ b.compare p probe = BST_EQ) ∧
    (bst_get_node b probe = none ↔ ∀ p ∈ inorder b.root, b.compare p probe ≠ BST_EQ) ∧
    bst_get_node (bst_init b.compare b.free_payload) probe = none :=
  ⟨fun p hp hx => (bst_get_node_iff b o ho probe p).2 ⟨hp, hx⟩,
    fun p hg => (bst_get_node_iff b o ho probe p).1 hg,
    bst_get_node_none_iff b o ho probe, rfl⟩

theorem search_correctness_witness :
    StrictTotalOrder tree_30_10_28_50_29_55.compare ∧
    Ordered tree_30_10_28_50_29_55.compare tree_30_10_28_50_29_55.root ∧
    bst_get_node tree_30_10_28_50_29_55 (create_payload 28 0) = some (create_payload 28 3) :=
  ⟨compare_strict, (reachable_inv tree_reachable).2.2.2 compare_strict,
    (search_correctness tree_30_10_28_50_29_55 compare_strict
      ((reachable_inv tree_reachable).2.2.2 compare_strict) (create_payload 28 0)).1
      (create_payload 28 3) (by decide) (by decide)⟩

/-- C4 (insert of a new key): on a reachable tree, under a comparator induced by a strict
total order, `bst_insert` of a payload `x` whose key compares `BST_EQ` to no stored payload
returns, under either replace policy, frees nothing, adds exactly one node, and the new
in-order sequence is the old one with `x` put at its sorted position: the payloads before `x`
order before it, those after `x` order after it, and they keep their order. -/
theorem insert_new_key (cmp : α → α → bst_compare_t) (fp : Bool) (b : bst_t α)
    (hr : Reachable cmp fp b) (o : StrictTotalOrder cmp) (x : α) (rep : bst_status_t)
    (habs : ∀ a ∈ inorder b.root, cmp a x ≠ BST_EQ) :
    ∃ st b1, bst_insert b x rep = Except.ok (st, b1, []) ∧
      size b1.root = size b.root + 1 ∧
      ∃ l1 l2, inorder b.root = l1 ++ l2 ∧ inorder b1.root = l1 ++ x :: l2 ∧
        (∀ a ∈ l1, cmp a x = BST_GT) ∧ (∀ c ∈ l2, cmp c x = BST_LT) := by
  obtain ⟨n, e, -, hs, hsplit⟩ := bst_insert_absent hr o x rep habs
  exact ⟨_, _, e, hs, hsplit⟩

theorem insert_new_key_witness :
    Reachable compare true tree_30_10_28_50_29_55 ∧ StrictTotalOrder compare ∧
    (∀ a ∈ inorder tree_30_10_28_50_29_55.root, compare a (create_payload 40 0) ≠ BST_EQ) ∧
    ∃ st b1, bst_insert tree_30_10_28_50_29_55 (create_payload 40 0) BST_REPLACE_TRUE
        = Except.ok (st, b1, []) ∧
      size b1.root = size tree_30_10_28_50_29_55.root + 1 ∧
      ∃ l1 l2, inorder tree_30_10_28_50_29_55.root = l1 ++ l2 ∧
        inorder b1.root = l1 ++ create_payload 40 0 :: l2 ∧
        (∀ a ∈ l1, compare a (create_payload 40 0) = BST_GT) ∧
        (∀ c ∈ l2, compare c (create_payload 40 0) = BST_LT) :=
  ⟨tree_reachable, compare_strict, by decide,
    insert_new_key compare true tree_30_10_28_50_29_55 tree_reachable compare_strict
      (create_payload 40 0) BST_REPLACE_TRUE (by decide)⟩

/-- C5 (insert then find): on a reachable tree, under a comparator induced by a strict total
order, after `bst_insert` of a payload `x` whose key is not stored, `bst_get_node` returns
the reference `x` for every probe that compares `BST_EQ` to `x`, and for every other probe
it returns what it returned before the insertion. -/
theorem insert_then_find (cmp : α → α → bst_compare_t) (fp : Bool) (b : bst_t α)
    (hr : Reachable cmp fp b) (o : StrictTotalOrder cmp) (x : α) (rep : bst_status_t)
    (habs : ∀ a ∈ inorder b.root, cmp a x ≠ BST_EQ) :
    ∃ st b1 ev, bst_insert b x rep = Except.ok (st, b1, ev) ∧
      (∀ probe, cmp x probe = BST_EQ → bst_get_node b1 probe = some x) ∧
      (∀ probe, cmp x probe ≠ BST_EQ → bst_get_node b1 probe = bst_get_node b probe) := by
  obtain ⟨hc, -, -, ho⟩ := reachable_inv hr
  obtain ⟨n, e, hon, -, l1, l2, i1, i2, -, -⟩ := bst_insert_absent hr o x rep habs
  have ob : StrictTotalOrder b.compare := by rw [hc]; exact o
  have hob : Ordered b.compare b.root := by rw [hc]; exact ho o
  have hon1 : Ordered b.compare n := by rw [hc]; exact hon
  have key : ∀ probe p, bst_get_node { b with root := n } probe = some p ↔
      p ∈ inorder n ∧ b.compare p probe = BST_EQ :=
    fun probe p => bst_get_node_iff { b with root := n } ob hon1 probe p
  refine ⟨_, _, _, e, ?_, ?_⟩
  · intro probe hx
    rw [key]
    exact ⟨by rw [i2]; simp, by rw [hc]; exact hx⟩
  · intro probe hx
    apply Option.ext
    intro p
    rw [Option.mem_def, Option.mem_def, key, bst_get_node_iff b ob hob, i1, i2]
    simp only [List.mem_append, List.mem_cons]
    constructor
    · rintro ⟨h1 | rfl | h1, h2⟩
      · exact ⟨Or.inl h1, h2⟩
      · rw [hc] at h2; exact absurd h2 hx
      · exact ⟨Or.inr h1, h2⟩
    · rintro ⟨h1 | h1, h2⟩
      · exact ⟨Or.inl h1, h2⟩
      · exact ⟨Or.inr (Or.inr h1), h2⟩

theorem insert_then_find_witness :
    Reachable compare true tree_30_10_28_50_29_55 ∧ StrictTotalOrder compare ∧
    (∀ a ∈ inorder tree_30_10_28_50_29_55.root, compare a (create_payload 40 7) ≠ BST_EQ) ∧
    ∃ st b1 ev, bst_insert tree_30_10_28_50_29_55 (create_payload 40 7) BST_REPLACE_FALSE
        = Except.ok (st, b1, ev) ∧
      (∀ probe, compare (create_payload 40 7) probe = BST_EQ →
        bst_get_node b1 probe = some (create_payload 40 7)) ∧
      (∀ probe, compare (create_payload 40 7) probe ≠ BST_EQ →
        bst_get_node b1 probe = bst_get_node tree_30_10_28_50_29_55 probe) :=
  ⟨tree_reachable, compare_strict, by decide,
    insert_then_find compare true tree_30_10_28_50_29_55 tree_reachable compare_strict
      (create_payload 40 7) BST_REPLACE_FALSE (by decide)⟩

/-- C6, as amended (remove of a present key): on a reachable tree whose handle was created
with a payload destructor, under a comparator induced by a strict total order, `bst_remove`
of a probe that compares `BST_EQ` to the stored payload `p` returns its success status, the
new in-order sequence is the old one with exactly `p` taken out (all other references kept,
in the same order), and `bst_get_node` of the probe then returns `NULL`. -/
theorem remove_present (cmp : α → α → bst_compare_t) (b : bst_t α)
    (hr : Reachable cmp true b) (o : StrictTotalOrder cmp) (probe p : α)
    (hp : p ∈ inorder b.root) (hx : cmp p probe = BST_EQ) :
    ∃ b1 ev, bst_remove b probe = Except.ok (BST_INSERT_SUCCESS, b1, ev) ∧
      (∃ l1 l2, inorder b.root = l1 ++ p :: l2 ∧ inorder b1.root = l1 ++ l2) ∧
      bst_get_node b1 probe = none := by
  obtain ⟨hc, -, -, -⟩ := reachable_inv hr
  obtain ⟨-, n, q, e, ⟨l1, l2, i1, i2⟩, hnm, hon, -⟩ := bst_remove_stored hr o probe p hp hx
  have ho0 := (reachable_inv hr).2.2.2 o
  have ob : StrictTotalOrder b.compare := by rw [hc]; exact o
  have hon1 : Ordered b.compare n := by rw [hc]; exact hon
  refine ⟨_, _, e, ⟨l1, l2, i1, i2⟩, ?_⟩
  rw [bst_get_node_none_iff { b with root := n } ob hon1]
  intro a ha hax
  have hax1 : cmp a probe = BST_EQ := by rw [← hc]; exact hax
  have hap : cmp a p = BST_EQ := by rw [o.congr_right hx a]; exact hax1
  have hasc : Ascending cmp (l1 ++ p :: l2) := by
    rw [← i1]; exact (ordered_iff_ascending o _).1 ho0
  have ha1 : a ∈ l1 ++ p :: l2 := by
    have ha2 : a ∈ l1 ++ l2 := by rw [← i2]; exact ha
    simp only [List.mem_append, List.mem_cons] at ha2 ⊢
    tauto
  have hp1 : p ∈ l1 ++ p :: l2 := by simp
  have := ascending_unique o hasc ha1 hp1 hap
  rw [this] at ha
  exact hnm ha

theorem remove_present_witness :
    Reachable compare true tree_30_10_28_50_29_55 ∧ StrictTotalOrder compare ∧
    create_payload 30 1 ∈ inorder tree_30_10_28_50_29_55.root ∧
    compare (create_payload 30 1) (create_payload 30 0) = BST_EQ ∧
    ∃ b1 ev, bst_remove tree_30_10_28_50_29_55 (create_payload 30 0)
        = Except.ok (BST_INSERT_SUCCESS, b1, ev) ∧
      (∃ l1 l2, inorder tree_30_10_28_50_29_55.root = l1 ++ create_payload 30 1 :: l2 ∧
        inorder b1.root = l1 ++ l2) ∧
      bst_get_node b1 (create_payload 30 0) = none :=
  ⟨tree_reachable, compare_strict, by decide, by decide,
    remove_present compare tree_30_10_28_50_29_55 tree_reachable compare_strict
      (create_payload 30 0) (create_payload 30 1) (by decide) (by decide)⟩

/-- C6, counterexample: the fixture tree is reachable on a handle created without a
destructor, key 28 is stored in it, and `bst_remove` of that key does not return: it calls
the `NULL` callback `bst->free_payload`. -/
theorem remove_present_counterexample :
    Reachable compare false tree_without_destructor ∧
    create_payload 28 3 ∈ inorder tree_without_destructor.root ∧
    compare (create_payload 28 3) (create_payload 28 0) = BST_EQ ∧
    bst_remove tree_without_destructor (create_payload 28 0) = Except.error fault.null_call ∧
    ¬ ∃ st b1 ev, bst_remove tree_without_destructor (create_payload 28 0)
        = Except.ok (st, b1, ev) :=
  ⟨tree_without_destructor_reachable, by decide, by decide, rfl,
    fun ⟨_, _, _, h⟩ => by
      have e : bst_remove tree_without_destructor (create_payload 28 0)
          = Except.error fault.null_call := rfl
      rw [e] at h
      cases h⟩

/-- C7, as amended (remove of an absent key): on a reachable tree, when `bst_get_node` of
the probe returns `NULL`, `bst_remove` returns `BST_NODE_NOT_FOUND`, leaves the handle (shape,
cached heights, payload references) as it was and calls neither `free` nor the destructor;
when the key is present and the handle was created with a payload destructor it returns
`BST_INSERT_SUCCESS`, which is a different status; and whenever `bst_remove` returns, it
returns not-found exactly when `bst_get_node` returns `NULL`. -/
theorem remove_absent (cmp : α → α → bst_compare_t) (fp : Bool) (b : bst_t α)
    (hr : Reachable cmp fp b) (probe : α) :
    (bst_get_node b probe = none →
      bst_remove b probe = Except.ok (BST_NODE_NOT_FOUND, b, [])) ∧
    (bst_get_node b probe ≠ none → fp = true →
      ∃ b1 ev, bst_remove b probe = Except.ok (BST_INSERT_SUCCESS, b1, ev)) ∧
    (∀ st b1 ev, bst_remove b probe = Except.ok (st, b1, ev) →
      (st = BST_NODE_NOT_FOUND ↔ bst_get_node b probe = none)) ∧
    BST_INSERT_SUCCESS ≠ BST_NODE_NOT_FOUND := by
  obtain ⟨-, hf, ha, -⟩ := reachable_inv hr
  refine ⟨?_, ?_, ?_, by decide⟩
  · intro hg
    simp only [bst_remove, hg]
  · intro hg hfp
    obtain ⟨n, ev, e, -, -⟩ := remove_node_AVL b.compare b.root probe ha
    cases hg1 : bst_get_node b probe with
    | none => exact absurd hg1 hg
    | some p =>
      refine ⟨{ b with root := n }, ev ++ [event.free_payload p], ?_⟩
      simp only [bst_remove, hg1, e, hf, hfp, if_true]
  · intro st b1 ev e
    rcases bst_remove_inv e with ⟨hg, hst, -, -⟩ | ⟨p, n, ev1, hg, -, -, hst, -, -⟩
    · exact ⟨fun _ => hg, fun _ => hst⟩
    · rw [hg, hst]
      exact ⟨fun h => (by cases h), fun h => (by cases h)⟩

theorem remove_absent_witness :
    Reachable compare true tree_30_10_28_50_29_55 ∧
    bst_remove tree_30_10_28_50_29_55 (create_payload 7 0)
      = Except.ok (BST_NODE_NOT_FOUND, tree_30_10_28_50_29_55, []) ∧
    ∃ b1 ev, bst_remove tree_30_10_28_50_29_55 (create_payload 28 5)
      = Except.ok (BST_INSERT_SUCCESS, b1, ev) :=
  ⟨tree_reachable,
    (remove_absent compare true tree_30_10_28_50_29_55 tree_reachable (create_payload 7 0)).1
      (by decide),
    (remove_absent compare true tree_30_10_28_50_29_55 tree_reachable
      (create_payload 28 5)).2.1 (by decide) rfl⟩

/-- C7, counterexample: on the reachable one-node tree of a handle created without a
destructor the key 30 is present (`bst_get_node` finds it), yet `bst_remove` returns no
status at all, neither success nor not-found: it calls the `NULL` callback. -/
theorem remove_absent_counterexample :
    Reachable compare false single_without_destructor ∧
    bst_get_node single_without_destructor (create_payload 30 0)
      = some (create_payload 30 1) ∧
    bst_remove single_without_destructor (create_payload 30 0)
      = Except.error fault.null_call ∧
    ¬ ∃ st b1 ev, bst_remove single_without_destructor (create_payload 30 0)
        = Except.ok (st, b1, ev) :=
  ⟨single_without_destructor_reachable, rfl, rfl,
    fun ⟨_, _, _, h⟩ => by
      have e : bst_remove single_without_destructor (create_payload 30 0)
          = Except.error fault.null_call := rfl
      rw [e] at h
      cases h⟩

/-- C8 (remove destroys exactly the removed payload): on a reachable tree, under a
comparator induced by a strict total order, for a probe that compares `BST_EQ` to the stored
payload `p`: `bst_get_node` returns `p`; every `bst_remove` that returns has the success
status, has freed one node and then called the destructor exactly once, on `p`, and leaves
`p` held by no node; the freed node holds `p` when the node found has at most one child, and
when it has two children the freed node is a descendant whose payload `q` is another
reference that is still stored.  On a handle with a destructor `bst_remove` does return. -/
theorem remove_destroys (cmp : α → α → bst_compare_t) (fp : Bool) (b : bst_t α)
    (hr : Reachable cmp fp b) (o : StrictTotalOrder cmp) (probe p : α)
    (hp : p ∈ inorder b.root) (hx : cmp p probe = BST_EQ) :
    bst_get_node b probe = some p ∧
    (fp = true → ∃ st b1 ev, bst_remove b probe = Except.ok (st, b1, ev)) ∧
    ∀ st b1 ev, bst_remove b probe = Except.ok (st, b1, ev) →
      st = BST_INSERT_SUCCESS ∧
      ∃ q, ev = [event.free_node q, event.free_payload p] ∧
        p ∉ inorder b1.root ∧
        ∃ h l r, search_node cmp b.root probe = node.mk h l p r ∧
          ((is_null l || is_null r) = true → q = p) ∧
          ((is_null l || is_null r) = false → q ≠ p ∧ q ∈ inorder b1.root) := by
  obtain ⟨hc, hf, -, ho⟩ := reachable_inv hr
  have ob : StrictTotalOrder b.compare := by rw [hc]; exact o
  have hob : Ordered b.compare b.root := by rw [hc]; exact ho o
  have hg : bst_get_node b probe = some p :=
    (bst_get_node_iff b ob hob probe p).2 ⟨hp, by rw [hc]; exact hx⟩
  refine ⟨hg, ?_, ?_⟩
  · intro hfp
    subst hfp
    obtain ⟨-, n, q, e, -⟩ := bst_remove_stored hr o probe p hp hx
    exact ⟨_, _, _, e⟩
  · intro st b1 ev e
    have hfp : fp = true := by
      rcases bst_remove_inv e with ⟨hn, -⟩ | ⟨_, _, _, -, -, h1, -⟩
      · rw [hg] at hn; cases hn
      · rw [← hf]; exact h1
    subst hfp
    obtain ⟨-, n, q, e1, -, hnm, -, -, hq⟩ := bst_remove_stored hr o probe p hp hx
    rw [e1] at e
    cases e
    exact ⟨rfl, q, rfl, hnm, hq⟩

theorem remove_destroys_witness :
    Reachable compare true tree_30_10_28_50_29_55 ∧ StrictTotalOrder compare ∧
    create_payload 30 1 ∈ inorder tree_30_10_28_50_29_55.root ∧
    compare (create_payload 30 1) (create_payload 30 0) = BST_EQ ∧
    bst_get_node tree_30_10_28_50_29_55 (create_payload 30 0) = some (create_payload 30 1) ∧
    ∃ st b1 ev, bst_remove tree_30_10_28_50_29_55 (create_payload 30 0)
      = Except.ok (st, b1, ev) :=
  ⟨tree_reachable, compare_strict, by decide, by decide,
    (remove_destroys compare true tree_30_10_28_50_29_55 tree_reachable compare_strict
      (create_payload 30 0) (create_payload 30 1) (by decide) (by decide)).1,
    (remove_destroys compare true tree_30_10_28_50_29_55 tree_reachable compare_strict
      (create_payload 30 0) (create_payload 30 1) (by decide) (by decide)).2.1 rfl⟩

/-- C9 (replace semantics): on a reachable tree, under a comparator induced by a strict total
order, `bst_insert` with `BST_REPLACE_TRUE` of a payload `x` whose key compares `BST_EQ` to
the stored payload `p` frees `p`, keeps the shape of the tree (structure and cached heights),
keeps the key sequences of the pre-order, in-order and post-order traversals, and afterwards
`bst_get_node` for that key returns the reference `x`. -/
theorem replace_semantics (cmp : α → α → bst_compare_t) (fp : Bool) (b : bst_t α)
    (hr : Reachable cmp fp b) (o : StrictTotalOrder cmp) (x p : α)
    (hp : p ∈ inorder b.root) (hx : cmp p x = BST_EQ) :
    ∃ b1, bst_insert b x BST_REPLACE_TRUE
        = Except.ok (BST_ROTATION_SUCCESS, b1, [event.free_key p]) ∧
      shape b1.root = shape b.root ∧
      SameKeys cmp (bst_traversal b BST_PRE_ORDER save_nodes [])
        (bst_traversal b1 BST_PRE_ORDER save_nodes []) ∧
      SameKeys cmp (bst_traversal b BST_IN_ORDER save_nodes [])
        (bst_traversal b1 BST_IN_ORDER save_nodes []) ∧
      SameKeys cmp (bst_traversal b BST_POST_ORDER save_nodes [])
        (bst_traversal b1 BST_POST_ORDER save_nodes []) ∧
      ∀ probe, cmp x probe = BST_EQ → bst_get_node b1 probe = some x := by
  obtain ⟨hc, -, ha, ho⟩ := reachable_inv hr
  have e := insert_node_replace o x p b.root ha (ho o) hp hx
  have hon := insert_node_ordered o x BST_REPLACE_TRUE b.root _ _ (ho o) e
  have ob : StrictTotalOrder b.compare := by rw [hc]; exact o
  have e1 : bst_insert b x BST_REPLACE_TRUE = Except.ok (BST_ROTATION_SUCCESS,
      { b with root := map_key (replace_with cmp x) b.root }, [event.free_key p]) := by
    simp only [bst_insert, hc, e]
  refine ⟨_, e1, shape_map_key _ _, ?_, ?_, ?_, ?_⟩
  · rw [bst_traversal_pre_order, bst_traversal_pre_order, preorder_map_key]
    exact sameKeys_replace_with o x _
  · rw [bst_traversal_in_order, bst_traversal_in_order, inorder_map_key]
    exact sameKeys_replace_with o x _
  · rw [bst_traversal_post_order, bst_traversal_post_order, postorder_map_key]
    exact sameKeys_replace_with o x _
  · intro probe hxp
    have hon1 : Ordered b.compare (map_key (replace_with cmp x) b.root) := by
      rw [hc]; exact hon
    rw [bst_get_node_iff { b with root := map_key (replace_with cmp x) b.root } ob hon1]
    refine ⟨?_, by rw [hc]; exact hxp⟩
    show x ∈ inorder (map_key (replace_with cmp x) b.root)
    rw [inorder_map_key, List.mem_map]
    exact ⟨p, hp, by simp [replace_with, hx]⟩

theorem replace_semantics_witness :
    Reachable compare true tree_30_10_28_50_29_55 ∧ StrictTotalOrder compare ∧
    create_payload 28 3 ∈ inorder tree_30_10_28_50_29_55.root ∧
    compare (create_payload 28 3) (create_payload 28 0) = BST_EQ ∧
    ∃ b1, bst_insert tree_30_10_28_50_29_55 (create_payload 28 0) BST_REPLACE_TRUE
        = Except.ok (BST_ROTATION_SUCCESS, b1, [event.free_key (create_payload 28 3)]) ∧
      shape b1.root = shape tree_30_10_28_50_29_55.root ∧
      SameKeys compare (bst_traversal tree_30_10_28_50_29_55 BST_PRE_ORDER save_nodes [])
        (bst_traversal b1 BST_PRE_ORDER save_nodes []) ∧
      SameKeys compare (bst_traversal tree_30_10_28_50_29_55 BST_IN_ORDER save_nodes [])
        (bst_traversal b1 BST_IN_ORDER save_nodes []) ∧
      SameKeys compare (bst_traversal tree_30_10_28_50_29_55 BST_POST_ORDER save_nodes [])
        (bst_traversal b1 BST_POST_ORDER save_nodes []) ∧
      ∀ probe, compare (create_payload 28 0) probe = BST_EQ →
        bst_get_node b1 probe = some (create_payload 28 0) :=
  ⟨tree_reachable, compare_strict, by decide, by decide,
    replace_semantics compare true tree_30_10_28_50_29_55 tree_reachable compare_strict
      (create_payload 28 0) (create_payload 28 3) (by decide) (by decide)⟩

/-- C10 (duplicate insert without replace is a no-op): on a reachable tree, under a
comparator induced by a strict total order, `bst_insert` of a payload `x` whose key compares
`BST_EQ` to a stored payload, with a replace argument other than `BST_REPLACE_TRUE`, frees
nothing and leaves the handle identical: same structure, same cached heights, same payload
references. -/
theorem duplicate_insert_noop (cmp : α → α → bst_compare_t) (fp : Bool) (b : bst_t α)
    (hr : Reachable cmp fp b) (o : StrictTotalOrder cmp) (x p : α) (rep : bst_status_t)
    (hrep : rep ≠ BST_REPLACE_TRUE) (hp : p ∈ inorder b.root) (hx : cmp p x = BST_EQ) :
    bst_insert b x rep = Except.ok (BST_ROTATION_SUCCESS, b, []) := by
  obtain ⟨hc, -, ha, ho⟩ := reachable_inv hr
  have e := insert_node_duplicate o x p rep hrep b.root ha (ho o) hp hx
  rw [← hc] at e
  unfold bst_insert
  rw [e]

theorem duplicate_insert_noop_witness :
    Reachable compare true tree_30_10_28_50_29_55 ∧ StrictTotalOrder compare ∧
    BST_REPLACE_FALSE ≠ BST_REPLACE_TRUE ∧
    create_payload 28 3 ∈ inorder tree_30_10_28_50_29_55.root ∧
    compare (create_payload 28 3) (create_payload 28 0) = BST_EQ ∧
    bst_insert tree_30_10_28_50_29_55 (create_payload 28 0) BST_REPLACE_FALSE
      = Except.ok (BST_ROTATION_SUCCESS, tree_30_10_28_50_29_55, []) :=
  ⟨tree_reachable, compare_strict, by decide, by decide, by decide,
    duplicate_insert_noop compare true tree_30_10_28_50_29_55 tree_reachable compare_strict
      (create_payload 28 0) (create_payload 28 3) BST_REPLACE_FALSE (by decide) (by decide)
      (by decide)⟩

/-! ## Status, uniqueness, cached heights -/

/-- C11 (insert status), the code at the failing inputs: on the fixture tree, the insertion
of the new key 40, the replacing insertion of the stored key 28 and the rejected insertion of
the stored key 28 are three different outcomes (a node added; the payload replaced and the
old one freed; the handle untouched), and `bst_insert` returns the same status,
`BST_ROTATION_SUCCESS`, for all three. -/
theorem insert_status_constant :
    (∃ b1, bst_insert tree_30_10_28_50_29_55 (create_payload 40 0) BST_REPLACE_FALSE
        = Except.ok (BST_ROTATION_SUCCESS, b1, []) ∧
      size b1.root = size tree_30_10_28_50_29_55.root + 1) ∧
    (∃ b1, bst_insert tree_30_10_28_50_29_55 (create_payload 28 0) BST_REPLACE_TRUE
        = Except.ok (BST_ROTATION_SUCCESS, b1, [event.free_key (create_payload 28 3)]) ∧
      bst_get_node b1 (create_payload 28 0) = some (create_payload 28 0)) ∧
    bst_insert tree_30_10_28_50_29_55 (create_payload 28 0) BST_REPLACE_FALSE
      = Except.ok (BST_ROTATION_SUCCESS, tree_30_10_28_50_29_55, []) :=
  ⟨⟨_, rfl, rfl⟩, ⟨_, rfl, rfl⟩, rfl⟩

/-- Of two payloads of a strictly ascending sequence neither compares `BST_EQ` to the
other. -/
theorem ascending_no_eq {cmp : α → α → bst_compare_t} (o : StrictTotalOrder cmp)
    {l : List α} (h : Ascending cmp l) :
    l.Pairwise (fun a c => cmp a c ≠ BST_EQ ∧ cmp c a ≠ BST_EQ) := by
  unfold Ascending at h
  refine h.imp ?_
  intro a c hac
  constructor
  · rw [hac]; decide
  · rw [(o.gt_iff a c).1 hac]; decide

/-- C12 (uniqueness): in every tree that `bst_insert` (either replace policy) and
`bst_remove` calls produce from the empty tree, under a comparator induced by a strict total
order, no two different nodes hold payloads that compare `BST_EQ` to each other: for any two
positions of the in-order sequence (one position per node) the comparator answers something
other than `BST_EQ`, in both directions. -/
theorem uniqueness (cmp : α → α → bst_compare_t) (fp : Bool) (b : bst_t α)
    (o : StrictTotalOrder cmp) (hr : Reachable cmp fp b) :
    (inorder b.root).Pairwise (fun a c => cmp a c ≠ BST_EQ ∧ cmp c a ≠ BST_EQ) ∧
      (inorder b.root).length = size b.root := by
  refine ⟨ascending_no_eq o ((ordered_iff_ascending o _).1 ((reachable_inv hr).2.2.2 o)), ?_⟩
  generalize b.root = t
  induction t with
  | null => rfl
  | mk h l k r ihl ihr =>
    simp only [inorder, size, List.length_append, List.length_cons, ihl, ihr]
    omega

theorem uniqueness_witness :
    StrictTotalOrder compare ∧ Reachable compare true tree_30_10_28_50_29_55 ∧
    (inorder tree_30_10_28_50_29_55.root).Pairwise
      (fun a c => compare a c ≠ BST_EQ ∧ compare c a ≠ BST_EQ) ∧
    (inorder tree_30_10_28_50_29_55.root).length = size tree_30_10_28_50_29_55.root :=
  ⟨compare_strict, tree_reachable,
    uniqueness compare true tree_30_10_28_50_29_55 compare_strict tree_reachable⟩

theorem AVL_heightTrue (t : node α) (ht : AVL t) : HeightTrue t := by
  induction t with
  | null => trivial
  | mk h l k r ihl ihr =>
    rw [AVL_mk] at ht
    exact ⟨ihl ht.1, ihr ht.2.1, ht.2.2.1⟩

/-- C13 (height invariant): in every tree that `bst_insert` and `bst_remove` calls produce
from the empty tree, every node's cached height is `1 + max` of the cached heights of its
children, `-1` standing for an empty child (so a leaf caches `0`), and every cached height is
the true height of its subtree. -/
theorem height_invariant (cmp : α → α → bst_compare_t) (fp : Bool) (b : bst_t α)
    (hr : Reachable cmp fp b) :
    HeightInv b.root ∧ HeightTrue b.root ∧ get_height b.root = height b.root ∧
      ∀ (h : Int) (k : α), HeightInv (node.mk h node.null k node.null) ↔ h = 0 :=
  ⟨((AVL_iff b.root).1 (reachable_inv hr).2.2.1).1,
    AVL_heightTrue b.root (reachable_inv hr).2.2.1,
    AVL_get_height (reachable_inv hr).2.2.1,
    fun _ _ => ⟨fun hi => hi.2.2, fun e => ⟨trivial, trivial, e⟩⟩⟩

theorem height_invariant_witness :
    Reachable compare true tree_30_10_28_50_29_55 ∧
    HeightInv tree_30_10_28_50_29_55.root ∧ HeightTrue tree_30_10_28_50_29_55.root ∧
    get_height tree_30_10_28_50_29_55.root = height tree_30_10_28_50_29_55.root ∧
    ∀ (h : Int) (k : my_structure), HeightInv (node.mk h node.null k node.null) ↔ h = 0 :=
  ⟨tree_reachable, height_invariant compare true tree_30_10_28_50_29_55 tree_reachable⟩

/-! ## Round trip and height bound -/

/-- Two ways of splitting a sequence at a payload that occurs in neither front part are the
same split. -/
theorem split_unique {x : α} : ∀ (l1 a1 l2 a2 : List α), l1 ++ x :: l2 = a1 ++ x :: a2 →
    x ∉ l1 → x ∉ a1 → l1 = a1 ∧ l2 = a2 := by
  intro l1
  induction l1 with
  | nil =>
    intro a1 l2 a2 e _ h2
    cases a1 with
    | nil => simp only [List.nil_append, List.cons.injEq, true_and] at e; exact ⟨rfl, e⟩
    | cons c a1 =>
      simp only [List.nil_append, List.cons_append, List.cons.injEq] at e
      exact absurd (by rw [e.1]; simp) h2
  | cons c l1 ih =>
    intro a1 l2 a2 e h1 h2
    cases a1 with
    | nil =>
      simp only [List.nil_append, List.cons_append, List.cons.injEq] at e
      exact absurd (by rw [e.1]; simp) h1
    | cons d a1 =>
      simp only [List.cons_append, List.cons.injEq] at e
      obtain ⟨i1, i2⟩ := ih a1 l2 a2 e.2 (fun h => h1 (List.mem_cons_of_mem _ h))
        (fun h => h2 (List.mem_cons_of_mem _ h))
      exact ⟨by rw [e.1, i1], i2⟩

/-- C14, as amended (round trip): on a reachable tree whose handle was created with a
payload destructor, under a comparator induced by a strict total order, `bst_insert` of a
payload `x` whose key is not stored followed by `bst_remove` of `x` returns both times, and
the in-order sequence afterwards is the in-order sequence before the insertion. -/
theorem round_trip (cmp : α → α → bst_compare_t) (b : bst_t α)
    (hr : Reachable cmp true b) (o : StrictTotalOrder cmp) (x : α) (rep : bst_status_t)
    (habs : ∀ a ∈ inorder b.root, cmp a x ≠ BST_EQ) :
    ∃ st1 b1 ev1 st2 b2 ev2, bst_insert b x rep = Except.ok (st1, b1, ev1) ∧
      bst_remove b1 x = Except.ok (st2, b2, ev2) ∧
      inorder b2.root = inorder b.root := by
  obtain ⟨n, e, hon, -, l1, l2, i1, i2, -, -⟩ := bst_insert_absent hr o x rep habs
  have hr1 : Reachable cmp true { b with root := n } := Reachable.insert _ _ _ _ _ _ hr e
  have hx : x ∈ inorder n := by rw [i2]; simp
  obtain ⟨-, n2, q, e2, ⟨a1, a2, j1, j2⟩, -⟩ := bst_remove_stored hr1 o x x hx (o.refl x)
  refine ⟨_, _, _, _, _, _, e, e2, ?_⟩
  have hasc1 : Ascending cmp (l1 ++ x :: l2) := by
    rw [← i2]; exact (ordered_iff_ascending o _).1 hon
  have hasc2 : Ascending cmp (a1 ++ x :: a2) := by
    have : inorder n = a1 ++ x :: a2 := j1
    rw [← this]; exact (ordered_iff_ascending o _).1 hon
  have h1 : x ∉ l1 := fun h => ascending_not_mem o hasc1 (List.mem_append_left _ h)
  have h2 : x ∉ a1 := fun h => ascending_not_mem o hasc2 (List.mem_append_left _ h)
  have e3 : l1 ++ x :: l2 = a1 ++ x :: a2 := by rw [← i2]; exact j1
  obtain ⟨z1, z2⟩ := split_unique l1 a1 l2 a2 e3 h1 h2
  show inorder n2 = inorder b.root
  rw [j2, i1, z1, z2]

theorem round_trip_witness :
    Reachable compare true tree_30_10_28_50_29_55 ∧ StrictTotalOrder compare ∧
    (∀ a ∈ inorder tree_30_10_28_50_29_55.root, compare a (create_payload 40 0) ≠ BST_EQ) ∧
    ∃ st1 b1 ev1 st2 b2 ev2,
      bst_insert tree_30_10_28_50_29_55 (create_payload 40 0) BST_REPLACE_FALSE
        = Except.ok (st1, b1, ev1) ∧
      bst_remove b1 (create_payload 40 0) = Except.ok (st2, b2, ev2) ∧
      inorder b2.root = inorder tree_30_10_28_50_29_55.root :=
  ⟨tree_reachable, compare_strict, by decide,
    round_trip compare tree_30_10_28_50_29_55 tree_reachable compare_strict
      (create_payload 40 0) BST_REPLACE_FALSE (by decide)⟩

/-- C14, counterexample: on the empty tree of a handle created without a destructor, the
insertion of key 5 returns, and the removal of key 5 that follows does not return a tree: it
calls the `NULL` callback `bst->free_payload`. -/
theorem round_trip_counterexample :
    Reachable compare false empty_without_destructor ∧
    (∀ a ∈ inorder empty_without_destructor.root, compare a (create_payload 5 0) ≠ BST_EQ) ∧
    ∃ b1, bst_insert empty_without_destructor (create_payload 5 0) BST_REPLACE_FALSE
        = Except.ok (BST_ROTATION_SUCCESS, b1, []) ∧
      bst_remove b1 (create_payload 5 0) = Except.error fault.null_call :=
  ⟨Reachable.init, by decide, _, rfl, rfl⟩

/-- A balanced tree of height `m - 1` has at least `fib (m + 2) - 1` nodes. -/
theorem balanced_fib (t : node α) : ∀ (m : ℕ), Balanced t → (m : ℤ) = height t + 1 →
    Nat.fib (m + 2) ≤ size t + 1 := by
  induction t with
  | null =>
    intro m _ hm
    simp only [height] at hm
    have : m = 0 := by omega
    subst this
    simp [size]
  | mk h l k r ihl ihr =>
    intro m hb hm
    obtain ⟨bl, br, d1, d2⟩ := hb
    have gl := height_ge l
    have gr := height_ge r
    rw [height_mk] at hm
    have hl := ihl (height l + 1).toNat bl (by omega)
    have hr := ihr (height r + 1).toNat br (by omega)
    simp only [size]
    by_cases c : height r ≤ height l
    · have e1 : m = (height l + 1).toNat + 1 := by omega
      have hm1 : Nat.fib ((height l + 1).toNat + 1) ≤ Nat.fib ((height r + 1).toNat + 2) :=
        Nat.fib_mono (by omega)
      have key : Nat.fib (m + 2)
          = Nat.fib ((height l + 1).toNat + 1) + Nat.fib ((height l + 1).toNat + 2) := by
        rw [e1]; exact Nat.fib_add_two
      omega
    · have e1 : m = (height r + 1).toNat + 1 := by omega
      have hm1 : Nat.fib ((height r + 1).toNat + 1) ≤ Nat.fib ((height l + 1).toNat + 2) :=
        Nat.fib_mono (by omega)
      have key : Nat.fib (m + 2)
          = Nat.fib ((height r + 1).toNat + 1) + Nat.fib ((height r + 1).toNat + 2) := by
        rw [e1]; exact Nat.fib_add_two
      omega

/-- Inserting payloads with pairwise different keys, none of them stored, into a reachable
tree: every `bst_insert` returns and adds one node. -/
theorem insert_all_distinct {cmp : α → α → bst_compare_t} {fp : Bool}
    (o : StrictTotalOrder cmp) (rep : bst_status_t) (xs : List α) : ∀ (b : bst_t α),
    Reachable cmp fp b → (∀ x ∈ xs, ∀ a ∈ inorder b.root, cmp a x ≠ BST_EQ) →
    xs.Pairwise (fun a c => cmp a c ≠ BST_EQ) →
    ∃ b1, insert_all b rep xs = Except.ok b1 ∧ Reachable cmp fp b1 ∧
      size b1.root = size b.root + xs.length := by
  induction xs with
  | nil => intro b hr _ _; exact ⟨b, rfl, hr, rfl⟩
  | cons x xs ih =>
    intro b hr hab hp
    rw [List.pairwise_cons] at hp
    obtain ⟨n, e, -, hs, l1, l2, i1, i2, -, -⟩ :=
      bst_insert_absent hr o x rep (hab x (by simp))
    have hr1 : Reachable cmp fp { b with root := n } := Reachable.insert _ _ _ _ _ _ hr e
    obtain ⟨b1, e1, hr2, hs1⟩ := ih { b with root := n } hr1 (by
      intro y hy a ha
      have ha1 : a ∈ l1 ++ x :: l2 := by rw [← i2]; exact ha
      simp only [List.mem_append, List.mem_cons] at ha1
      have hold : a ∈ inorder b.root → cmp a y ≠ BST_EQ :=
        fun h => hab y (List.mem_cons_of_mem _ hy) a h
      rcases ha1 with h | rfl | h
      · exact hold (by rw [i1]; simp [h])
      · exact hp.1 y hy
      · exact hold (by rw [i1]; simp [h])) hp.2
    refine ⟨b1, ?_, hr2, ?_⟩
    · rw [insert_all, e]; exact e1
    · rw [hs1]
      show size n + xs.length = size b.root + (x :: xs).length
      rw [hs, List.length_cons]; omega

/-- C15 (height bound): under a comparator induced by a strict total order, inserting `n`
payloads with pairwise different keys into the empty tree returns a tree with `n` nodes whose
height `h` (leaf `0`, empty `-1`) obeys the AVL bound `Fib(h+3) ≤ n + 1`, that is, the tree
has at least `Fib(h+3) - 1` nodes, with `Fib(1) = Fib(2) = 1`. -/
theorem height_bound (cmp : α → α → bst_compare_t) (fp : Bool) (o : StrictTotalOrder cmp)
    (rep : bst_status_t) (xs : List α) (hd : xs.Pairwise (fun a c => cmp a c ≠ BST_EQ)) :
    ∃ b, insert_all (bst_init cmp fp) rep xs = Except.ok b ∧
      size b.root = xs.length ∧ -1 ≤ height b.root ∧
      Nat.fib (height b.root + 3).toNat ≤ xs.length + 1 ∧
      Nat.fib (height b.root + 3).toNat - 1 ≤ xs.length ∧
      Nat.fib 1 = 1 ∧ Nat.fib 2 = 1 := by
  obtain ⟨b, e, hr, hs⟩ := insert_all_distinct o rep xs (bst_init cmp fp) Reachable.init
    (by intro x _ a ha; cases ha) hd
  have hs1 : size b.root = xs.length := by
    rw [hs]; simp [bst_init, size]
  have hg := height_ge b.root
  have hb : Balanced b.root := ((AVL_iff b.root).1 (reachable_inv hr).2.2.1).2
  have hf := balanced_fib b.root (height b.root + 1).toNat hb (by omega)
  have e2 : (height b.root + 3).toNat = (height b.root + 1).toNat + 2 := by omega
  refine ⟨b, e, hs1, hg, ?_, ?_, rfl, rfl⟩
  · rw [e2, ← hs1]; exact hf
  · rw [e2, ← hs1]; omega

theorem height_bound_witness :
    StrictTotalOrder compare ∧
    [create_payload 5 1, create_payload 4 2, create_payload 3 3, create_payload 2 4,
      create_payload 1 5, create_payload 6 100, create_payload 7 5, create_payload 8 100,
      create_payload 9 5].Pairwise (fun a c => compare a c ≠ BST_EQ) ∧
    ∃ b, insert_all (bst_init compare true) BST_REPLACE_FALSE
        [create_payload 5 1, create_payload 4 2, create_payload 3 3, create_payload 2 4,
          create_payload 1 5, create_payload 6 100, create_payload 7 5, create_payload 8 100,
          create_payload 9 5] = Except.ok b ∧
      size b.root = 9 ∧ -1 ≤ height b.root ∧
      Nat.fib (height b.root + 3).toNat ≤ 9 + 1 ∧
      Nat.fib (height b.root + 3).toNat - 1 ≤ 9 ∧
      Nat.fib 1 = 1 ∧ Nat.fib 2 = 1 :=
  ⟨compare_strict, by decide,
    height_bound compare true compare_strict BST_REPLACE_FALSE
      [create_payload 5 1, create_payload 4 2, create_payload 3 3, create_payload 2 4,
        create_payload 1 5, create_payload 6 100, create_payload 7 5, create_payload 8 100,
        create_payload 9 5] (by decide)⟩

/-! ## Traversal completeness -/

theorem in_order_traversal_fold {σ : Type} (f : α → σ → σ) (t : node α) : ∀ s : σ,
    in_order_traversal_node t f s = (inorder t).foldl (fun s a => f a s) s := by
  induction t with
  | null => intro s; rfl
  | mk h l k r ihl ihr =>
    intro s
    simp only [in_order_traversal_node, inorder, List.foldl_append, List.foldl_cons, ihl, ihr]

theorem pre_order_traversal_fold {σ : Type} (f : α → σ → σ) (t : node α) : ∀ s : σ,
    pre_order_traversal_node t f s = (preorder t).foldl (fun s a => f a s) s := by
  induction t with
  | null => intro s; rfl
  | mk h l k r ihl ihr =>
    intro s
    simp only [pre_order_traversal_node, preorder, List.foldl_append, List.foldl_cons, ihl, ihr]

theorem post_order_traversal_fold {σ : Type} (f : α → σ → σ) (t : node α) : ∀ s : σ,
    post_order_traversal_node t f s = (postorder t).foldl (fun s a => f a s) s := by
  induction t with
  | null => intro s; rfl
  | mk h l k r ihl ihr =>
    intro s
    simp only [post_order_traversal_node, postorder, List.foldl_append, List.foldl_cons,
      List.foldl_nil, ihl, ihr]

theorem inorder_length (t : node α) : (inorder t).length = size t := by
  induction t with
  | null => rfl
  | mk h l k r ihl ihr =>
    simp only [inorder, size, List.length_append, List.length_cons, ihl, ihr]
    omega

theorem preorder_perm (t : node α) : (preorder t).Perm (inorder t) := by
  induction t with
  | null => exact List.Perm.refl _
  | mk h l k r ihl ihr =>
    simp only [preorder, inorder]
    exact (List.Perm.cons k (List.Perm.append ihl ihr)).trans List.perm_middle.symm

theorem postorder_perm (t : node α) : (postorder t).Perm (inorder t) := by
  induction t with
  | null => exact List.Perm.refl _
  | mk h l k r ihl ihr =>
    simp only [postorder, inorder]
    refine List.Perm.append ihl ?_
    exact (List.perm_append_comm).trans (List.Perm.cons k ihr)

/-- C16 (traversal completeness): for every tree and every callback, `bst_traversal` calls
the callback on the payloads of the in-order (left, node, right), pre-order (node, left,
right) resp. post-order (left, right, node) sequence, once each and in that order, passing
the caller's context along; each sequence has one entry per node and the three are
permutations of one another; for any other value of the order argument the callback is not
called and the context comes back as it was. -/
theorem traversal_completeness {σ : Type} (b : bst_t α) (callback : α → σ → σ)
    (void_ptr : σ) :
    bst_traversal b BST_IN_ORDER callback void_ptr
      = (inorder b.root).foldl (fun s a => callback a s) void_ptr ∧
    bst_traversal b BST_PRE_ORDER callback void_ptr
      = (preorder b.root).foldl (fun s a => callback a s) void_ptr ∧
    bst_traversal b BST_POST_ORDER callback void_ptr
      = (postorder b.root).foldl (fun s a => callback a s) void_ptr ∧
    (inorder b.root).length = size b.root ∧ (preorder b.root).length = size b.root ∧
    (postorder b.root).length = size b.root ∧
    (preorder b.root).Perm (inorder b.root) ∧ (postorder b.root).Perm (inorder b.root) ∧
    (preorder b.root).Perm (postorder b.root) ∧
    ∀ type : Int, type ≠ BST_IN_ORDER → type ≠ BST_POST_ORDER → type ≠ BST_PRE_ORDER →
      bst_traversal b type callback void_ptr = void_ptr := by
  refine ⟨?_, ?_, ?_, inorder_length _, ?_, ?_, preorder_perm _, postorder_perm _,
    (preorder_perm _).trans (postorder_perm _).symm, ?_⟩
  · simp only [bst_traversal, if_true, in_order_traversal_fold]
  · simp [bst_traversal, BST_PRE_ORDER, BST_IN_ORDER, BST_POST_ORDER, pre_order_traversal_fold]
  · simp [bst_traversal, BST_IN_ORDER, BST_POST_ORDER, post_order_traversal_fold]
  · rw [(preorder_perm _).length_eq]; exact inorder_length _
  · rw [(postorder_perm _).length_eq]; exact inorder_length _
  · intro type h1 h2 h3
    simp only [bst_traversal, if_neg h1, if_neg h2, if_neg h3]

theorem traversal_completeness_witness :
    bst_traversal tree_30_10_28_50_29_55 BST_POST_ORDER save_nodes []
      = (postorder tree_30_10_28_50_29_55.root).foldl (fun s a => save_nodes a s) [] ∧
    bst_traversal tree_30_10_28_50_29_55 7 save_nodes [] = [] :=
  ⟨(traversal_completeness tree_30_10_28_50_29_55 save_nodes []).2.2.1,
    (traversal_completeness tree_30_10_28_50_29_55 save_nodes []).2.2.2.2.2.2.2.2.2 7
      (by decide) (by decide) (by decide)⟩

/-! ## Teardown -/

theorem destroy_events_append (l1 l2 : List α) :
    destroy_events (l1 ++ l2) = destroy_events l1 ++ destroy_events l2 := by
  induction l1 with
  | nil => rfl
  | cons a l1 ih =>
    show event.free_payload a :: event.free_node a :: destroy_events (l1 ++ l2) = _
    rw [ih]; rfl

theorem destructor_calls_destroy_events (l : List α) :
    destructor_calls (destroy_events l) = l ∧ freed_nodes (destroy_events l) = l ∧
      event.free_bst ∉ destroy_events l := by
  induction l with
  | nil => exact ⟨rfl, rfl, by simp [destroy_events]⟩
  | cons a l ih =>
    refine ⟨?_, ?_, ?_⟩
    · simp only [destroy_events, destructor_calls, ih.1]
    · simp only [destroy_events, freed_nodes, ih.2.1]
    · intro h
      simp only [destroy_events, List.mem_cons] at h
      rcases h with h | h | h
      · cases h
      · cases h
      · exact ih.2.2 h

theorem destructor_calls_free_node (l : List α) :
    destructor_calls (l.map event.free_node) = [] ∧ freed_nodes (l.map event.free_node) = l ∧
      event.free_bst ∉ l.map event.free_node := by
  induction l with
  | nil => exact ⟨rfl, rfl, by simp⟩
  | cons a l ih =>
    refine ⟨?_, ?_, ?_⟩
    · simp only [List.map_cons, destructor_calls, ih.1]
    · simp only [List.map_cons, freed_nodes, ih.2.1]
    · intro h
      simp only [List.map_cons, List.mem_cons] at h
      rcases h with h | h
      · cases h
      · exact ih.2.2 h

/-- With `BST_FREE_PAYLOAD_TRUE` and a destructor, `traversal_free` destroys the payload and
frees the node of every node, in post-order. -/
theorem traversal_free_true (b : bst_t α) (hf : b.free_payload = true) (t : node α) :
    traversal_free b t BST_FREE_PAYLOAD_TRUE = Except.ok (destroy_events (postorder t)) := by
  induction t with
  | null => rfl
  | mk h l k r ihl ihr =>
    simp only [traversal_free, ihl, ihr, free_node, if_true, hf, postorder,
      destroy_events_append, destroy_events, List.append_assoc, List.append_nil]

/-- With `BST_FREE_PAYLOAD_FALSE`, `traversal_free` frees every node, in post-order, and
calls no destructor. -/
theorem traversal_free_false (b : bst_t α) (t : node α) :
    traversal_free b t BST_FREE_PAYLOAD_FALSE
      = Except.ok ((postorder t).map event.free_node) := by
  induction t with
  | null => rfl
  | mk h l k r ihl ihr =>
    have hne : BST_FREE_PAYLOAD_FALSE ≠ BST_FREE_PAYLOAD_TRUE := by decide
    simp only [traversal_free, ihl, ihr, free_node, if_neg hne, if_true, postorder,
      List.map_append, List.map_cons, List.map_nil, List.append_assoc]

/-- With `BST_FREE_PAYLOAD_TRUE` and no destructor, `traversal_free` of a non-empty tree
calls the `NULL` callback. -/
theorem traversal_free_null_call (b : bst_t α) (hf : b.free_payload = false) (t : node α)
    (hne : t ≠ node.null) :
    traversal_free b t BST_FREE_PAYLOAD_TRUE = Except.error fault.null_call := by
  induction t with
  | null => exact absurd rfl hne
  | mk h l k r ihl ihr =>
    rw [traversal_free]
    cases l with
    | mk hl ll lk lr => rw [ihl (by intro h; cases h)]
    | null =>
      cases r with
      | mk hr rl rk rr =>
        rw [ihr (by intro h; cases h)]
        simp only [traversal_free]
      | null =>
        simp only [traversal_free, free_node, if_true, hf]
        rfl

/-- C17 (teardown order): for every tree, `bst_destroy` with `BST_FREE_PAYLOAD_TRUE`, on a
handle that has a destructor, calls the destructor exactly once per stored payload, in
post-order (the destroyed payloads are the post-order traversal sequence), each call followed
by the release of that node; with `BST_FREE_PAYLOAD_FALSE` it calls the destructor on no
payload; in both cases every node is released exactly once and the handle is released
last. -/
theorem teardown_order (b : bst_t α) :
    (b.free_payload = true →
      ∃ ev, bst_destroy b BST_FREE_PAYLOAD_TRUE = Except.ok (ev ++ [event.free_bst]) ∧
        ev = destroy_events (postorder b.root) ∧
        destructor_calls ev = bst_traversal b BST_POST_ORDER save_nodes [] ∧
        freed_nodes ev = postorder b.root ∧ (freed_nodes ev).length = size b.root ∧
        event.free_bst ∉ ev) ∧
    ∃ ev, bst_destroy b BST_FREE_PAYLOAD_FALSE = Except.ok (ev ++ [event.free_bst]) ∧
      ev = (postorder b.root).map event.free_node ∧
      destructor_calls ev = [] ∧
      freed_nodes ev = postorder b.root ∧ (freed_nodes ev).length = size b.root ∧
      event.free_bst ∉ ev := by
  have hlen : (postorder b.root).length = size b.root := by
    rw [(postorder_perm _).length_eq]; exact inorder_length _
  constructor
  · intro hf
    obtain ⟨h1, h2, h3⟩ := destructor_calls_destroy_events (postorder b.root)
    refine ⟨_, ?_, rfl, ?_, h2, by rw [h2]; exact hlen, h3⟩
    · simp only [bst_destroy, traversal_free_true b hf]
    · rw [h1, bst_traversal_post_order]
  · obtain ⟨h1, h2, h3⟩ := destructor_calls_free_node (postorder b.root)
    refine ⟨_, ?_, rfl, h1, h2, by rw [h2]; exact hlen, h3⟩
    simp only [bst_destroy, traversal_free_false]

theorem teardown_order_witness :
    tree_30_10_28_50_29_55.free_payload = true ∧
    ∃ ev, bst_destroy tree_30_10_28_50_29_55 BST_FREE_PAYLOAD_TRUE
        = Except.ok (ev ++ [event.free_bst]) ∧
      ev = destroy_events (postorder tree_30_10_28_50_29_55.root) ∧
      destructor_calls ev
        = bst_traversal tree_30_10_28_50_29_55 BST_POST_ORDER save_nodes [] ∧
      freed_nodes ev = postorder tree_30_10_28_50_29_55.root ∧
      (freed_nodes ev).length = size tree_30_10_28_50_29_55.root ∧
      event.free_bst ∉ ev :=
  ⟨rfl, (teardown_order tree_30_10_28_50_29_55).1 rfl⟩

/-- C18, counterexample: on the reachable one-node tree of a handle created without a
destructor, `bst_destroy` with payload destruction requested does not complete: at the node
it calls the `NULL` callback `bst->free_payload`. -/
theorem teardown_without_destructor_counterexample :
    Reachable compare false single_without_destructor ∧
    single_without_destructor.free_payload = false ∧
    bst_destroy single_without_destructor BST_FREE_PAYLOAD_TRUE
      = Except.error fault.null_call :=
  ⟨single_without_destructor_reachable, rfl, rfl⟩

/-- C18, as amended (teardown without a destructor): for every tree created with no
payload-destructor callback, `bst_destroy` with `BST_FREE_PAYLOAD_FALSE` completes as a
structural-only free (every node released once, in post-order, no destructor call, the
handle last); with payload destruction requested it completes, releasing the handle only,
when the tree is empty, and on a non-empty tree it calls the `NULL` callback. -/
theorem teardown_without_destructor (b : bst_t α) (hf : b.free_payload = false) :
    bst_destroy b BST_FREE_PAYLOAD_FALSE
      = Except.ok ((postorder b.root).map event.free_node ++ [event.free_bst]) ∧
    destructor_calls ((postorder b.root).map event.free_node ++ [event.free_bst]) = [] ∧
    freed_nodes ((postorder b.root).map event.free_node ++ [event.free_bst])
      = postorder b.root ∧
    (b.root = node.null → bst_destroy b BST_FREE_PAYLOAD_TRUE = Except.ok [event.free_bst]) ∧
    (b.root ≠ node.null →
      bst_destroy b BST_FREE_PAYLOAD_TRUE = Except.error fault.null_call) := by
  refine ⟨by simp only [bst_destroy, traversal_free_false], ?_, ?_, ?_, ?_⟩
  · generalize postorder b.root = l
    induction l with
    | nil => rfl
    | cons a l ih => simpa [destructor_calls] using ih
  · generalize postorder b.root = l
    induction l with
    | nil => rfl
    | cons a l ih => simpa [freed_nodes] using ih
  · intro h0
    simp only [bst_destroy, h0, traversal_free, List.nil_append]
  · intro h0
    simp only [bst_destroy, traversal_free_null_call b hf b.root h0]

theorem teardown_without_destructor_witness :
    tree_without_destructor.free_payload = false ∧
    bst_destroy tree_without_destructor BST_FREE_PAYLOAD_FALSE
      = Except.ok ((postorder tree_without_destructor.root).map event.free_node
          ++ [event.free_bst]) ∧
    bst_destroy empty_without_destructor BST_FREE_PAYLOAD_TRUE = Except.ok [event.free_bst] :=
  ⟨rfl, (teardown_without_destructor tree_without_destructor rfl).1,
    (teardown_without_destructor empty_without_destructor rfl).2.2.2.1 rfl⟩

/-! ## Concrete scenarios -/

/-- C19 (scenario 1): inserting the keys 30, 10, 28, 50, 29, 55 in that order into an empty
tree, with the comparator of the test suite, gives the pre-order sequence
30, 28, 10, 29, 50, 55, the in-order sequence 10, 28, 29, 30, 50, 55 and the post-order
sequence 10, 29, 28, 55, 50, 30; inserting 5 afterwards gives the pre-order sequence
30, 28, 10, 5, 29, 50, 55. -/
theorem scenario_1 :
    ∃ b, create_test_30_10_28_50_29_55 = Except.ok b ∧
      (bst_traversal b BST_PRE_ORDER save_nodes []).map my_structure.value
        = [30, 28, 10, 29, 50, 55] ∧
      (bst_traversal b BST_IN_ORDER save_nodes []).map my_structure.value
        = [10, 28, 29, 30, 50, 55] ∧
      (bst_traversal b BST_POST_ORDER save_nodes []).map my_structure.value
        = [10, 29, 28, 55, 50, 30] ∧
      ∃ st b2 ev, bst_insert b (create_payload 5 0) BST_REPLACE_FALSE
          = Except.ok (st, b2, ev) ∧
        (bst_traversal b2 BST_PRE_ORDER save_nodes []).map my_structure.value
          = [30, 28, 10, 5, 29, 50, 55] :=
  ⟨_, rfl, by decide, by decide, by decide, _, _, _, rfl, by decide⟩

/-- C20 (scenario 5): inserting the keys 5, 4, 3, 2, 1, 6, 7, 8, 9 in that order into an
empty tree gives the pre-order sequence 4, 2, 1, 3, 6, 5, 8, 7, 9.  Rotations take place on
the way: after the first three insertions the root already holds 4 and not 5. -/
theorem scenario_5 :
    (∃ b, create_test_5_4_3_2_1_6_7_8_9_6 = Except.ok b ∧
      (bst_traversal b BST_PRE_ORDER save_nodes []).map my_structure.value
        = [4, 2, 1, 3, 6, 5, 8, 7, 9]) ∧
    ∃ b3, insert_all (bst_init compare true) BST_REPLACE_FALSE
        [create_payload 5 1, create_payload 4 2, create_payload 3 3] = Except.ok b3 ∧
      (bst_traversal b3 BST_PRE_ORDER save_nodes []).map my_structure.value = [4, 3, 5] :=
  ⟨⟨_, rfl, by decide⟩, _, rfl, by decide⟩

/-! ## Traversal and the stop signal -/

/-- Folding `stop_recurse` over a sequence, its answer dropped: the target stays, and the
recorded payload is the last payload of the sequence that matches, if any. -/
theorem stop_recurse_fold (l : List my_structure) (m : recursion_test_t) :
    (l.foldl (fun s a => (stop_recurse a s).1) m).target = m.target ∧
    (l.foldl (fun s a => (stop_recurse a s).1) m).payload
      = ((l.filter (fun p => p.other_value = m.target)).getLast?).or m.payload := by
  induction l using List.reverseRecOn with
  | nil => simp
  | append_singleton l a ih =>
    rw [List.foldl_append, List.foldl_cons, List.foldl_nil, List.filter_append]
    obtain ⟨i1, i2⟩ := ih
    generalize List.foldl (fun s a => (stop_recurse a s).1) m l = F at i1 i2 ⊢
    by_cases h : a.other_value = m.target
    · simp [stop_recurse, h, i1]
    · simp [stop_recurse, h, i1, i2]

/-- C21, counterexample: on the tree built from 5, 4, 3, 2, 1, 6, 7, 8, 9, where the
payloads of the keys 6 and 8 match the target 100, the in-order `bst_traversal` with
`stop_recurse` goes on after the first match: a callback that also logs its calls is called
on all nine nodes, 7, 8 and 9 included, and the payload recorded at the end has key 8, not
key 6. -/
theorem stoppable_traversal_counterexample :
    ∃ b, create_test_5_4_3_2_1_6_7_8_9_6 = Except.ok b ∧
      (bst_traversal b BST_IN_ORDER
          (fun p (s : recursion_test_t × List Int) =>
            ((stop_recurse p s.1).1, s.2 ++ [p.value]))
          ({ target := 100, payload := none }, []))
        = ({ target := 100, payload := some (create_payload 8 100) },
            [1, 2, 3, 4, 5, 6, 7, 8, 9]) ∧
      (bst_traversal b BST_IN_ORDER (as_void_callback stop_recurse)
          { target := 100, payload := none }).payload ≠ some (create_payload 6 100) :=
  ⟨_, rfl, by decide, by decide⟩

/-- C21, as amended (no stop signal): the callback type of `bst_traversal` returns nothing,
so what a callback such as `stop_recurse` answers is dropped and the in-order traversal calls
it on every node, in in-order; the payload it has recorded at the end is therefore the last
match of the in-order sequence (the context's own payload when nothing matches).  On the
tree built from 5, 4, 3, 2, 1, 6, 7, 8, 9, where keys 6 and 8 match, that is key 8. -/
theorem stoppable_traversal (b : bst_t my_structure) (m : recursion_test_t) :
    bst_traversal b BST_IN_ORDER (as_void_callback stop_recurse) m
      = (inorder b.root).foldl (fun s a => (stop_recurse a s).1) m ∧
    (bst_traversal b BST_IN_ORDER (as_void_callback stop_recurse) m).target = m.target ∧
    (bst_traversal b BST_IN_ORDER (as_void_callback stop_recurse) m).payload
      = (((inorder b.root).filter (fun p => p.other_value = m.target)).getLast?).or
          m.payload ∧
    ∃ b5, create_test_5_4_3_2_1_6_7_8_9_6 = Except.ok b5 ∧
      (bst_traversal b5 BST_IN_ORDER (as_void_callback stop_recurse)
          { target := 100, payload := none }).payload = some (create_payload 8 100) := by
  have e : bst_traversal b BST_IN_ORDER (as_void_callback stop_recurse) m
      = (inorder b.root).foldl (fun s a => (stop_recurse a s).1) m := by
    simp only [bst_traversal, if_true, in_order_traversal_fold, as_void_callback]
  refine ⟨e, ?_, ?_, _, rfl, by decide⟩
  · rw [e]; exact (stop_recurse_fold _ _).1
  · rw [e]; exact (stop_recurse_fold _ _).2

/-! ## The two-child case of `remove_node` -/

/-- The two-child case, left subtree higher: the payload `q` of the last node of the left
subtree replaces the root's payload, that node is freed, nothing is rotated at the root. -/
theorem remove_node_promote_left {cmp : α → α → bst_compare_t} (o : StrictTotalOrder cmp)
    (h hl hr : Int) (ll lr rl rr : node α) (k lk rk probe : α)
    (ha : AVL (node.mk h (node.mk hl ll lk lr) k (node.mk hr rl rk rr)))
    (ho : Ordered cmp (node.mk h (node.mk hl ll lk lr) k (node.mk hr rl rk rr)))
    (hk : cmp k probe = BST_EQ) (hh : hl > hr) :
    ∃ l1 q ini hq a,
      find_max_payload (node.mk hl ll lk lr) = Except.ok (node.mk hq a q node.null) ∧
      search_node cmp (node.mk hl ll lk lr) q = node.mk hq a q node.null ∧
      remove_node cmp (node.mk hl ll lk lr) q = Except.ok (l1, [event.free_node q]) ∧
      inorder (node.mk hl ll lk lr) = ini ++ [q] ∧ inorder l1 = ini ∧
      size (node.mk hl ll lk lr) = size l1 + 1 ∧
      remove_node cmp (node.mk h (node.mk hl ll lk lr) k (node.mk hr rl rk rr)) probe
        = Except.ok (node.mk (1 + max (height l1) (height (node.mk hr rl rk rr))) l1 q
            (node.mk hr rl rk rr), [event.free_node q]) := by
  obtain ⟨ol, -, -, -⟩ := ho
  rw [AVL_mk] at ha
  obtain ⟨al, ar, -, d1, d2⟩ := ha
  have el := AVL_get_height al
  have er := AVL_get_height ar
  rw [get_height_mk] at el er
  obtain ⟨hq, a, q, ini, ef, ei⟩ := find_max_payload_mk lr hl ll lk
  obtain ⟨es, hqm⟩ := find_max_payload_search o lr hl ll lk ol hq a node.null q ef
  obtain ⟨l1, ev, e1, al1, hh1⟩ := remove_node_AVL cmp (node.mk hl ll lk lr) q al
  obtain ⟨⟨a1, a2, i1, i2⟩, hs, q1, h2, a3, b3, he, hsn, c1, -⟩ :=
    remove_node_spec o (node.mk hl ll lk lr) q q l1 ev ol hqm (o.refl q) e1
  have hasc : Ascending cmp (a1 ++ q :: a2) := by
    rw [← i1]; exact (ordered_iff_ascending o _).1 ol
  obtain ⟨z2, z1⟩ := ascending_last_split o hasc (by rw [← i1, ei])
  subst z2
  rw [es] at hsn
  cases hsn
  have hq1 : q1 = q := c1 (by simp [is_null])
  subst hq1
  subst he
  refine ⟨l1, q1, ini, hq, a, ef, es, e1, ei, by rw [i2, z1]; simp, hs, ?_⟩
  have c : get_height (node.mk hl ll lk lr) > get_height (node.mk hr rl rk rr) := hh
  rw [remove_node]
  simp only [hk, is_null, Bool.or_false, Bool.false_eq_true, if_false, if_pos c, ef, node_key,
    e1]
  rw [rebalance_balanced h l1 _ q1 al1 ar (by omega) (by omega)]

/-- The two-child case, left subtree not higher: the payload `q` of the first node of the
right subtree replaces the root's payload, that node is freed, nothing is rotated at the
root. -/
theorem remove_node_promote_right {cmp : α → α → bst_compare_t} (o : StrictTotalOrder cmp)
    (h hl hr : Int) (ll lr rl rr : node α) (k lk rk probe : α)
    (ha : AVL (node.mk h (node.mk hl ll lk lr) k (node.mk hr rl rk rr)))
    (ho : Ordered cmp (node.mk h (node.mk hl ll lk lr) k (node.mk hr rl rk rr)))
    (hk : cmp k probe = BST_EQ) (hh : ¬ hl > hr) :
    ∃ r1 q rest hq c,
      find_min_payload (node.mk hr rl rk rr) = Except.ok (node.mk hq node.null q c) ∧
      search_node cmp (node.mk hr rl rk rr) q = node.mk hq node.null q c ∧
      remove_node cmp (node.mk hr rl rk rr) q = Except.ok (r1, [event.free_node q]) ∧
      inorder (node.mk hr rl rk rr) = q :: rest ∧ inorder r1 = rest ∧
      size (node.mk hr rl rk rr) = size r1 + 1 ∧
      remove_node cmp (node.mk h (node.mk hl ll lk lr) k (node.mk hr rl rk rr)) probe
        = Except.ok (node.mk (1 + max (height (node.mk hl ll lk lr)) (height r1))
            (node.mk hl ll lk lr) q r1, [event.free_node q]) := by
  obtain ⟨-, or1, -, -⟩ := ho
  rw [AVL_mk] at ha
  obtain ⟨al, ar, -, d1, d2⟩ := ha
  have el := AVL_get_height al
  have er := AVL_get_height ar
  rw [get_height_mk] at el er
  obtain ⟨hq, q, c0, rest, ef, ei⟩ := find_min_payload_mk rl hr rk rr
  obtain ⟨es, hqm⟩ := find_min_payload_search o rl hr rk rr or1 hq node.null c0 q ef
  obtain ⟨r1, ev, e1, ar1, hh1⟩ := remove_node_AVL cmp (node.mk hr rl rk rr) q ar
  obtain ⟨⟨a1, a2, i1, i2⟩, hs, q1, h2, a3, b3, he, hsn, c1, -⟩ :=
    remove_node_spec o (node.mk hr rl rk rr) q q r1 ev or1 hqm (o.refl q) e1
  have hasc : Ascending cmp (a1 ++ q :: a2) := by
    rw [← i1]; exact (ordered_iff_ascending o _).1 or1
  obtain ⟨z1, z2⟩ := ascending_first_split o hasc (by rw [← i1, ei])
  subst z1
  rw [es] at hsn
  cases hsn
  have hq1 : q1 = q := c1 (by simp [is_null])
  subst hq1
  subst he
  refine ⟨r1, q1, rest, hq, c0, ef, es, e1, ei, by rw [i2, z2]; simp, hs, ?_⟩
  have c : ¬ get_height (node.mk hl ll lk lr) > get_height (node.mk hr rl rk rr) := hh
  rw [remove_node]
  simp only [hk, is_null, Bool.or_false, Bool.false_eq_true, if_false, if_neg c, ef, node_key,
    e1]
  rw [rebalance_balanced h _ r1 q1 al ar1 (by omega) (by omega)]

/-- C29 (two-child promotion rule): for a subtree with the order, balance and cached-height
invariants whose root compares `BST_EQ` to the probe and has two children, `remove_node`
returns a subtree with the old right child untouched and the payload of the maximum (last
in-order) node of the old left subtree at the root when the left child's cached height is
strictly greater than the right child's, and otherwise (right higher, or a tie) with the old
left child untouched and the payload of the minimum (first in-order) node of the old right
subtree at the root; the promoted node is the one freed, and the root is not rotated. -/
theorem two_child_promotion (cmp : α → α → bst_compare_t) (o : StrictTotalOrder cmp)
    (h hl hr : Int) (ll lr rl rr : node α) (k lk rk probe : α)
    (ha : AVL (node.mk h (node.mk hl ll lk lr) k (node.mk hr rl rk rr)))
    (ho : Ordered cmp (node.mk h (node.mk hl ll lk lr) k (node.mk hr rl rk rr)))
    (hk : cmp k probe = BST_EQ) :
    (hl > hr → ∃ l1 q ini hq a,
      find_max_payload (node.mk hl ll lk lr) = Except.ok (node.mk hq a q node.null) ∧
      inorder (node.mk hl ll lk lr) = ini ++ [q] ∧ inorder l1 = ini ∧
      remove_node cmp (node.mk h (node.mk hl ll lk lr) k (node.mk hr rl rk rr)) probe
        = Except.ok (node.mk (1 + max (height l1) (height (node.mk hr rl rk rr))) l1 q
            (node.mk hr rl rk rr), [event.free_node q])) ∧
    (¬ hl > hr → ∃ r1 q rest hq c,
      find_min_payload (node.mk hr rl rk rr) = Except.ok (node.mk hq node.null q c) ∧
      inorder (node.mk hr rl rk rr) = q :: rest ∧ inorder r1 = rest ∧
      remove_node cmp (node.mk h (node.mk hl ll lk lr) k (node.mk hr rl rk rr)) probe
        = Except.ok (node.mk (1 + max (height (node.mk hl ll lk lr)) (height r1))
            (node.mk hl ll lk lr) q r1, [event.free_node q])) := by
  constructor
  · intro hh
    obtain ⟨l1, q, ini, hq, a, ef, -, -, ei, i1, -, e⟩ :=
      remove_node_promote_left o h hl hr ll lr rl rr k lk rk probe ha ho hk hh
    exact ⟨l1, q, ini, hq, a, ef, ei, i1, e⟩
  · intro hh
    obtain ⟨r1, q, rest, hq, c, ef, -, -, ei, i1, -, e⟩ :=
      remove_node_promote_right o h hl hr ll lr rl rr k lk rk probe ha ho hk hh
    exact ⟨r1, q, rest, hq, c, ef, ei, i1, e⟩

theorem two_child_promotion_witness :
    StrictTotalOrder compare ∧ AVL tree_30_10_28_50_29_55.root ∧
    Ordered compare tree_30_10_28_50_29_55.root ∧
    compare (create_payload 30 1) (create_payload 30 0) = BST_EQ ∧
    (∃ r1 q rest hq c,
      find_min_payload (node.mk 1 node.null (create_payload 50 4)
          (node.mk 0 node.null (create_payload 55 5) node.null))
        = Except.ok (node.mk hq node.null q c) ∧
      inorder (node.mk 1 node.null (create_payload 50 4)
          (node.mk 0 node.null (create_payload 55 5) node.null)) = q :: rest ∧
      inorder r1 = rest ∧
      remove_node compare tree_30_10_28_50_29_55.root (create_payload 30 0)
        = Except.ok (node.mk (1 + max (height (node.mk 1
              (node.mk 0 node.null (create_payload 10 2) node.null) (create_payload 28 3)
              (node.mk 0 node.null (create_payload 29 5) node.null))) (height r1))
            (node.mk 1 (node.mk 0 node.null (create_payload 10 2) node.null)
              (create_payload 28 3) (node.mk 0 node.null (create_payload 29 5) node.null))
            q r1, [event.free_node q])) ∧
    (∃ b1 ev, bst_remove tree_30_10_28_50_29_55 (create_payload 30 0)
        = Except.ok (BST_INSERT_SUCCESS, b1, ev) ∧
      (preorder b1.root).map my_structure.value = [50, 28, 10, 29, 55]) ∧
    (∃ b1 ev, bst_remove tree_30_10_28_50_29_55 (create_payload 28 5)
        = Except.ok (BST_INSERT_SUCCESS, b1, ev) ∧
      (preorder b1.root).map my_structure.value = [30, 29, 10, 50, 55]) :=
  ⟨compare_strict, (reachable_inv tree_reachable).2.2.1,
    (reachable_inv tree_reachable).2.2.2 compare_strict, by decide,
    (two_child_promotion compare compare_strict 2 1 1 _ _ _ _ (create_payload 30 1)
      (create_payload 28 3) (create_payload 50 4) (create_payload 30 0)
      (reachable_inv tree_reachable).2.2.1
      ((reachable_inv tree_reachable).2.2.2 compare_strict) (by decide)).2 (by decide),
    ⟨_, _, rfl, by decide⟩, ⟨_, _, rfl, by decide⟩⟩

/-- C30 (promotion never cascades): in a subtree with the order invariant, under a comparator
induced by a strict total order, the node `find_max_payload` returns has no right child and
is the node the search for its payload reaches, and every `remove_node` call for that payload
that returns has freed exactly that one node and leaves the in-order sequence without its
last element; the mirror statements hold for `find_min_payload` (no left child, the in-order
sequence loses its first element).  On an AVL subtree these calls do return. -/
theorem promotion_never_cascades (cmp : α → α → bst_compare_t) (o : StrictTotalOrder cmp)
    (h : Int) (l r : node α) (k : α) (ho : Ordered cmp (node.mk h l k r)) :
    (∃ hq a q ini,
      find_max_payload (node.mk h l k r) = Except.ok (node.mk hq a q node.null) ∧
      search_node cmp (node.mk h l k r) q = node.mk hq a q node.null ∧
      inorder (node.mk h l k r) = ini ++ [q] ∧
      (AVL (node.mk h l k r) → ∃ t1 ev, remove_node cmp (node.mk h l k r) q
        = Except.ok (t1, ev)) ∧
      ∀ t1 ev, remove_node cmp (node.mk h l k r) q = Except.ok (t1, ev) →
        ev = [event.free_node q] ∧ size (node.mk h l k r) = size t1 + 1 ∧
          inorder t1 = ini) ∧
    (∃ hq c q rest,
      find_min_payload (node.mk h l k r) = Except.ok (node.mk hq node.null q c) ∧
      search_node cmp (node.mk h l k r) q = node.mk hq node.null q c ∧
      inorder (node.mk h l k r) = q :: rest ∧
      (AVL (node.mk h l k r) → ∃ t1 ev, remove_node cmp (node.mk h l k r) q
        = Except.ok (t1, ev)) ∧
      ∀ t1 ev, remove_node cmp (node.mk h l k r) q = Except.ok (t1, ev) →
        ev = [event.free_node q] ∧ size (node.mk h l k r) = size t1 + 1 ∧
          inorder t1 = rest) := by
  constructor
  · obtain ⟨hq, a, q, ini, ef, ei⟩ := find_max_payload_mk r h l k
    obtain ⟨es, hqm⟩ := find_max_payload_search o r h l k ho hq a node.null q ef
    refine ⟨hq, a, q, ini, ef, es, ei, ?_, ?_⟩
    · intro ha
      obtain ⟨t1, ev, e, -⟩ := remove_node_AVL cmp (node.mk h l k r) q ha
      exact ⟨t1, ev, e⟩
    · intro t1 ev e1
      obtain ⟨⟨a1, a2, i1, i2⟩, hs, q1, h2, a3, b3, he, hsn, c1, -⟩ :=
        remove_node_spec o (node.mk h l k r) q q t1 ev ho hqm (o.refl q) e1
      have hasc : Ascending cmp (a1 ++ q :: a2) := by
        rw [← i1]; exact (ordered_iff_ascending o _).1 ho
      obtain ⟨z2, z1⟩ := ascending_last_split o hasc (by rw [← i1, ei])
      subst z2
      rw [es] at hsn
      cases hsn
      have hq1 : q1 = q := c1 (by simp [is_null])
      subst hq1
      exact ⟨he, hs, by rw [i2, z1]; simp⟩
  · obtain ⟨hq, q, c, rest, ef, ei⟩ := find_min_payload_mk l h k r
    obtain ⟨es, hqm⟩ := find_min_payload_search o l h k r ho hq node.null c q ef
    refine ⟨hq, c, q, rest, ef, es, ei, ?_, ?_⟩
    · intro ha
      obtain ⟨t1, ev, e, -⟩ := remove_node_AVL cmp (node.mk h l k r) q ha
      exact ⟨t1, ev, e⟩
    · intro t1 ev e1
      obtain ⟨⟨a1, a2, i1, i2⟩, hs, q1, h2, a3, b3, he, hsn, c1, -⟩ :=
        remove_node_spec o (node.mk h l k r) q q t1 ev ho hqm (o.refl q) e1
      have hasc : Ascending cmp (a1 ++ q :: a2) := by
        rw [← i1]; exact (ordered_iff_ascending o _).1 ho
      obtain ⟨z1, z2⟩ := ascending_first_split o hasc (by rw [← i1, ei])
      subst z1
      rw [es] at hsn
      cases hsn
      have hq1 : q1 = q := c1 (by simp [is_null])
      subst hq1
      exact ⟨he, hs, by rw [i2, z2]; simp⟩

theorem promotion_never_cascades_witness :
    StrictTotalOrder compare ∧ Ordered compare tree_30_10_28_50_29_55.root ∧
    ∃ hq a q ini,
      find_max_payload tree_30_10_28_50_29_55.root = Except.ok (node.mk hq a q node.null) ∧
      search_node compare tree_30_10_28_50_29_55.root q = node.mk hq a q node.null ∧
      inorder tree_30_10_28_50_29_55.root = ini ++ [q] ∧
      (AVL tree_30_10_28_50_29_55.root →
        ∃ t1 ev, remove_node compare tree_30_10_28_50_29_55.root q = Except.ok (t1, ev)) ∧
      ∀ t1 ev, remove_node compare tree_30_10_28_50_29_55.root q = Except.ok (t1, ev) →
        ev = [event.free_node q] ∧ size tree_30_10_28_50_29_55.root = size t1 + 1 ∧
          inorder t1 = ini :=
  ⟨compare_strict, (reachable_inv tree_reachable).2.2.2 compare_strict,
    (promotion_never_cascades compare compare_strict 2 _ _ (create_payload 30 1)
      ((reachable_inv tree_reachable).2.2.2 compare_strict)).1⟩

/-! ## Splice, rotations and rebalancing -/

/-- C31 (zero/one-child splice): when the root of a subtree compares `BST_EQ` to the probe and
has at most one child, `remove_node` frees that node and returns exactly the remaining child
subtree as it is: the left child when the right one is `NULL`, otherwise the right child, and
`NULL` when both are `NULL`. -/
theorem zero_one_child_splice (cmp : α → α → bst_compare_t) (h : Int) (l r : node α)
    (k probe : α) (hk : cmp k probe = BST_EQ) (hc : l = node.null ∨ r = node.null) :
    ∃ child, remove_node cmp (node.mk h l k r) probe
        = Except.ok (child, [event.free_node k]) ∧
      (r = node.null → child = l) ∧ (r ≠ node.null → child = r) ∧
      (l = node.null → r = node.null → child = node.null) := by
  rw [remove_node]
  simp only [hk]
  cases r with
  | null =>
    refine ⟨l, by simp [is_null], fun _ => rfl, fun hn => absurd rfl hn, fun hl _ => hl⟩
  | mk hr rl rk rr =>
    rcases hc with hl | hr0
    · subst hl
      refine ⟨node.mk hr rl rk rr, by simp [is_null], fun hn => (by cases hn), fun _ => rfl,
        fun _ hn => (by cases hn)⟩
    · cases hr0

theorem zero_one_child_splice_witness :
    compare (create_payload 29 5) (create_payload 29 0) = BST_EQ ∧
    ((node.null : node my_structure) = node.null ∨ (node.null : node my_structure) = node.null) ∧
    (∃ child, remove_node compare (node.mk 0 node.null (create_payload 29 5) node.null)
          (create_payload 29 0)
        = Except.ok (child, [event.free_node (create_payload 29 5)]) ∧
      ((node.null : node my_structure) = node.null → child = node.null) ∧
      ((node.null : node my_structure) ≠ node.null → child = node.null) ∧
      ((node.null : node my_structure) = node.null →
        (node.null : node my_structure) = node.null → child = node.null)) ∧
    (∃ b1 ev, bst_remove tree_30_10_28_50_29_55 (create_payload 29 0)
        = Except.ok (BST_INSERT_SUCCESS, b1, ev) ∧
      (preorder b1.root).map my_structure.value = [30, 28, 10, 50, 55]) :=
  ⟨by decide, Or.inl rfl,
    zero_one_child_splice compare 0 node.null node.null (create_payload 29 5)
      (create_payload 29 0) (by decide) (Or.inl rfl),
    _, _, rfl, by decide⟩

/-- C33 (single rotation shape): `right_rotation` maps `Node(Node(A, x, B), y, C)` to
`Node(A, x, Node(B, y, C))` and `left_rotation` maps `Node(A, x, Node(B, y, C))` to
`Node(Node(A, x, B), y, C)`; payloads and the subtrees `A`, `B`, `C` are the same, the
in-order sequence is the same, the cached height of the old root is recomputed from its new
children and then that of the new root, and both are the true heights whenever the cached
heights of `A`, `B` and `C` are. -/
theorem single_rotation_shape (h h0 : Int) (a b c : node α) (x y : α) :
    (∃ h1 h2, right_rotation (node.mk h (node.mk h0 a x b) y c)
        = Except.ok (node.mk h1 a x (node.mk h2 b y c)) ∧
      h2 = 1 + max (get_height b) (get_height c) ∧ h1 = 1 + max (get_height a) h2 ∧
      inorder (node.mk h1 a x (node.mk h2 b y c))
        = inorder (node.mk h (node.mk h0 a x b) y c) ∧
      (get_height a = height a → get_height b = height b → get_height c = height c →
        h2 = height (node.mk h2 b y c) ∧ h1 = height (node.mk h1 a x (node.mk h2 b y c)))) ∧
    (∃ h1 h2, left_rotation (node.mk h a x (node.mk h0 b y c))
        = Except.ok (node.mk h1 (node.mk h2 a x b) y c) ∧
      h2 = 1 + max (get_height a) (get_height b) ∧ h1 = 1 + max h2 (get_height c) ∧
      inorder (node.mk h1 (node.mk h2 a x b) y c)
        = inorder (node.mk h a x (node.mk h0 b y c)) ∧
      (get_height a = height a → get_height b = height b → get_height c = height c →
        h2 = height (node.mk h2 a x b) ∧ h1 = height (node.mk h1 (node.mk h2 a x b) y c))) := by
  constructor
  · refine ⟨_, _, right_rotation_mk h h0 a b c x y, ?_, ?_, ?_, ?_⟩
    · rw [node_max_eq]; omega
    · rw [node_max_eq, node_max_eq]; omega
    · simp [inorder]
    · intro ea eb ec
      simp only [height_mk, node_max_eq, ea, eb, ec]
      omega
  · refine ⟨_, _, left_rotation_mk h h0 a b c x y, ?_, ?_, ?_, ?_⟩
    · rw [node_max_eq]; omega
    · rw [node_max_eq, node_max_eq]; omega
    · simp [inorder]
    · intro ea eb ec
      simp only [height_mk, node_max_eq, ea, eb, ec]
      omega

theorem single_rotation_shape_witness :
    (∃ h1 h2, right_rotation tree_30_10_28_50_29_55.root
        = Except.ok (node.mk h1 (node.mk 0 node.null (create_payload 10 2) node.null)
            (create_payload 28 3)
            (node.mk h2 (node.mk 0 node.null (create_payload 29 5) node.null)
              (create_payload 30 1)
              (node.mk 1 node.null (create_payload 50 4)
                (node.mk 0 node.null (create_payload 55 5) node.null)))) ∧
      h2 = height (node.mk h2 (node.mk 0 node.null (create_payload 29 5) node.null)
              (create_payload 30 1)
              (node.mk 1 node.null (create_payload 50 4)
                (node.mk 0 node.null (create_payload 55 5) node.null))) ∧
      h1 = height (node.mk h1 (node.mk 0 node.null (create_payload 10 2) node.null)
            (create_payload 28 3)
            (node.mk h2 (node.mk 0 node.null (create_payload 29 5) node.null)
              (create_payload 30 1)
              (node.mk 1 node.null (create_payload 50 4)
                (node.mk 0 node.null (create_payload 55 5) node.null))))) ∧
    (∃ h1 h2, left_rotation tree_30_10_28_50_29_55.root
        = Except.ok (node.mk h1
            (node.mk h2
              (node.mk 1 (node.mk 0 node.null (create_payload 10 2) node.null)
                (create_payload 28 3) (node.mk 0 node.null (create_payload 29 5) node.null))
              (create_payload 30 1) node.null)
            (create_payload 50 4)
            (node.mk 0 node.null (create_payload 55 5) node.null)) ∧
      h2 = 2 ∧ h1 = 3) := by
  obtain ⟨⟨h1, h2, e, -, -, -, eh⟩, -⟩ :=
    single_rotation_shape 2 1 (node.mk 0 node.null (create_payload 10 2) node.null)
      (node.mk 0 node.null (create_payload 29 5) node.null)
      (node.mk 1 node.null (create_payload 50 4)
        (node.mk 0 node.null (create_payload 55 5) node.null))
      (create_payload 28 3) (create_payload 30 1)
  obtain ⟨-, h3, h4, e3, e4, e5, -, -⟩ :=
    single_rotation_shape 2 1
      (node.mk 1 (node.mk 0 node.null (create_payload 10 2) node.null)
        (create_payload 28 3) (node.mk 0 node.null (create_payload 29 5) node.null))
      (node.null : node my_structure)
      (node.mk 0 node.null (create_payload 55 5) node.null)
      (create_payload 30 1) (create_payload 50 4)
  refine ⟨⟨h1, h2, e, (eh (by decide) (by decide) (by decide)).1,
    (eh (by decide) (by decide) (by decide)).2⟩, h3, h4, e3, ?_, ?_⟩
  · rw [e4]; decide
  · rw [e5, e4]; decide

/-- C35 (rotations are mutually inverse): on a node with a left child, when the cached
heights of the node and of that child are what `set_height` computes from their children,
`left_rotation` of the result of `right_rotation` is the node itself, with the same shape,
payloads and cached heights; and the mirror statement for a node with a right child. -/
theorem rotations_inverse (h h0 : Int) (a b c : node α) (x y : α) :
    (h0 = 1 + max (get_height a) (get_height b) → h = 1 + max h0 (get_height c) →
      ∃ n, right_rotation (node.mk h (node.mk h0 a x b) y c) = Except.ok n ∧
        left_rotation n = Except.ok (node.mk h (node.mk h0 a x b) y c)) ∧
    (h0 = 1 + max (get_height b) (get_height c) → h = 1 + max (get_height a) h0 →
      ∃ n, left_rotation (node.mk h a x (node.mk h0 b y c)) = Except.ok n ∧
        right_rotation n = Except.ok (node.mk h a x (node.mk h0 b y c))) := by
  constructor
  · intro e0 e
    refine ⟨_, right_rotation_mk h h0 a b c x y, ?_⟩
    have k0 : max (get_height a) (get_height b) + 1 = h0 := by omega
    have k1 : max h0 (get_height c) + 1 = h := by omega
    simp only [left_rotation_mk, get_height_mk, node_max_eq, k0, k1]
  · intro e0 e
    refine ⟨_, left_rotation_mk h h0 a b c x y, ?_⟩
    have k0 : max (get_height b) (get_height c) + 1 = h0 := by omega
    have k1 : max (get_height a) h0 + 1 = h := by omega
    simp only [right_rotation_mk, get_height_mk, node_max_eq, k0, k1]

theorem rotations_inverse_witness :
    ((1 : Int) = 1 + max (get_height (node.mk 0 node.null (create_payload 10 2) node.null))
        (get_height (node.mk 0 node.null (create_payload 29 5) node.null)) ∧
      (2 : Int) = 1 + max 1 (get_height (node.mk 1 node.null (create_payload 50 4)
        (node.mk 0 node.null (create_payload 55 5) node.null)))) ∧
    (∃ n, right_rotation tree_30_10_28_50_29_55.root = Except.ok n ∧
      left_rotation n = Except.ok tree_30_10_28_50_29_55.root) ∧
    (∃ n, left_rotation tree_30_10_28_50_29_55.root = Except.ok n ∧
      right_rotation n = Except.ok tree_30_10_28_50_29_55.root) :=
  ⟨⟨by decide, by decide⟩,
    (rotations_inverse 2 1 (node.mk 0 node.null (create_payload 10 2) node.null)
      (node.mk 0 node.null (create_payload 29 5) node.null)
      (node.mk 1 node.null (create_payload 50 4)
        (node.mk 0 node.null (create_payload 55 5) node.null))
      (create_payload 28 3) (create_payload 30 1)).1 (by decide) (by decide),
    (rotations_inverse 2 1
      (node.mk 1 (node.mk 0 node.null (create_payload 10 2) node.null)
        (create_payload 28 3) (node.mk 0 node.null (create_payload 29 5) node.null))
      node.null (node.mk 0 node.null (create_payload 55 5) node.null)
      (create_payload 30 1) (create_payload 50 4)).2 (by decide) (by decide)⟩

/-- C37 (height changes by at most one per operation): on a subtree with the balance and
cached-height invariants, `insert_node` returns a subtree whose height is the old height or
one more, and `remove_node` returns a subtree whose height is the old height or one less. -/
theorem height_changes_by_one (cmp : α → α → bst_compare_t) (t : node α) (ht : AVL t) :
    (∀ (x : α) (replace : bst_status_t), ∃ t1 ev,
      insert_node cmp t x replace = Except.ok (t1, ev) ∧
      (height t1 = height t ∨ height t1 = height t + 1)) ∧
    (∀ p : α, ∃ t1 ev, remove_node cmp t p = Except.ok (t1, ev) ∧
      (height t1 = height t ∨ height t1 = height t - 1)) := by
  constructor
  · intro x replace
    obtain ⟨t1, ev, e, -, hh⟩ := insert_node_AVL cmp x replace t ht
    exact ⟨t1, ev, e, hh⟩
  · intro p
    obtain ⟨t1, ev, e, -, hh⟩ := remove_node_AVL cmp t p ht
    exact ⟨t1, ev, e, hh⟩

theorem height_changes_by_one_witness :
    AVL tree_30_10_28_50_29_55.root ∧ Ordered compare tree_30_10_28_50_29_55.root ∧
    height tree_30_10_28_50_29_55.root = 2 ∧
    (∃ t1 ev, insert_node compare tree_30_10_28_50_29_55.root (create_payload 60 0)
        BST_REPLACE_FALSE = Except.ok (t1, ev) ∧
      (height t1 = height tree_30_10_28_50_29_55.root ∨
        height t1 = height tree_30_10_28_50_29_55.root + 1)) ∧
    (∃ t1 ev, remove_node compare tree_30_10_28_50_29_55.root (create_payload 55 0)
        = Except.ok (t1, ev) ∧
      (height t1 = height tree_30_10_28_50_29_55.root ∨
        height t1 = height tree_30_10_28_50_29_55.root - 1)) :=
  ⟨(reachable_inv tree_reachable).2.2.1, (reachable_inv tree_reachable).2.2.2 compare_strict,
    by decide,
    (height_changes_by_one compare tree_30_10_28_50_29_55.root
      (reachable_inv tree_reachable).2.2.1).1 (create_payload 60 0) BST_REPLACE_FALSE,
    (height_changes_by_one compare tree_30_10_28_50_29_55.root
      (reachable_inv tree_reachable).2.2.1).2 (create_payload 55 0)⟩

/-- The value `balance_tree` returns when it returns: the node itself when its factor is
within `[-1, 1]`, and otherwise the result of the rotations it names. -/
theorem balance_tree_cases (h : Int) (l r : node α) (k : α) (t : node α)
    (e : balance_tree (node.mk h l k r) = Except.ok t) :
    (get_balance_factor (node.mk h l k r) ≤ 1 → -1 ≤ get_balance_factor (node.mk h l k r) →
      t = node.mk h l k r) ∧
    (get_balance_factor (node.mk h l k r) > 1 → get_balance_factor l < 0 →
      ∃ l1, left_rotation l = Except.ok l1 ∧
        right_rotation (node.mk h l1 k r) = Except.ok t) ∧
    (get_balance_factor (node.mk h l k r) > 1 → ¬ get_balance_factor l < 0 →
      right_rotation (node.mk h l k r) = Except.ok t) ∧
    (get_balance_factor (node.mk h l k r) < -1 → get_balance_factor r > 0 →
      ∃ r1, right_rotation r = Except.ok r1 ∧
        left_rotation (node.mk h l k r1) = Except.ok t) ∧
    (get_balance_factor (node.mk h l k r) < -1 → ¬ get_balance_factor r > 0 →
      left_rotation (node.mk h l k r) = Except.ok t) := by
  rw [balance_tree_mk] at e
  rw [get_balance_factor_mk]
  refine ⟨?_, ?_, ?_, ?_, ?_⟩
  · intro c1 c2
    rw [if_neg (by omega), if_neg (by omega)] at e
    cases e
    rfl
  · intro c1 c2
    rw [if_pos c1, if_pos c2] at e
    cases e1 : left_rotation l with
    | error f => rw [e1] at e; cases e
    | ok l1 => rw [e1] at e; exact ⟨l1, rfl, e⟩
  · intro c1 c2
    rw [if_pos c1, if_neg c2] at e
    exact e
  · intro c1 c2
    rw [if_neg (by omega), if_pos c1, if_pos c2] at e
    cases e1 : right_rotation r with
    | error f => rw [e1] at e; cases e
    | ok r1 => rw [e1] at e; exact ⟨r1, rfl, e⟩
  · intro c1 c2
    rw [if_neg (by omega), if_pos c1, if_neg c2] at e
    exact e

/-- C32 (rebalancing restores the invariants): on a node whose two subtrees satisfy the
balance and cached-height invariants and differ in height by at most 2, `set_height` followed
by `balance_tree` returns a subtree that satisfies both invariants and has the in-order
sequence of the node.  The node is returned as it is when its factor is within `[-1, 1]`; a
left-heavy node whose left child has a negative factor gets a left rotation of that child and
then a right rotation of the node, otherwise a right rotation alone; mirror for a right-heavy
node. -/
theorem rebalancing_restores (h : Int) (l r : node α) (k : α) (al : AVL l) (ar : AVL r)
    (h1 : height l - height r ≤ 2) (h2 : height r - height l ≤ 2) :
    set_height (node.mk h l k r)
      = Except.ok (node.mk (node_max (get_height l) (get_height r) + 1) l k r) ∧
    ∃ t, balance_tree (node.mk (node_max (get_height l) (get_height r) + 1) l k r)
        = Except.ok t ∧
      AVL t ∧ Balanced t ∧ HeightInv t ∧ inorder t = inorder (node.mk h l k r) ∧
      (get_height l - get_height r ≤ 1 → -1 ≤ get_height l - get_height r →
        t = node.mk (node_max (get_height l) (get_height r) + 1) l k r) ∧
      (get_height l - get_height r > 1 → get_balance_factor l < 0 →
        ∃ l1, left_rotation l = Except.ok l1 ∧
          right_rotation (node.mk (node_max (get_height l) (get_height r) + 1) l1 k r)
            = Except.ok t) ∧
      (get_height l - get_height r > 1 → ¬ get_balance_factor l < 0 →
        right_rotation (node.mk (node_max (get_height l) (get_height r) + 1) l k r)
          = Except.ok t) ∧
      (get_height l - get_height r < -1 → get_balance_factor r > 0 →
        ∃ r1, right_rotation r = Except.ok r1 ∧
          left_rotation (node.mk (node_max (get_height l) (get_height r) + 1) l k r1)
            = Except.ok t) ∧
      (get_height l - get_height r < -1 → ¬ get_balance_factor r > 0 →
        left_rotation (node.mk (node_max (get_height l) (get_height r) + 1) l k r)
          = Except.ok t) := by
  obtain ⟨t, e, at1, i, -, -⟩ := rebalance_spec h l r k al ar h1 h2
  have e1 : balance_tree (node.mk (node_max (get_height l) (get_height r) + 1) l k r)
      = Except.ok t := by
    rw [rebalance_mk] at e
    rw [node_max_eq]
    exact e
  have hc := balance_tree_cases _ l r k t e1
  rw [get_balance_factor_mk] at hc
  exact ⟨rfl, t, e1, at1, ((AVL_iff t).1 at1).2, ((AVL_iff t).1 at1).1, i, hc⟩

theorem rebalancing_restores_witness :
    AVL (node.mk 1 node.null (create_payload 2 0)
      (node.mk 0 node.null (create_payload 3 0) node.null)) ∧
    AVL (node.null : node my_structure) ∧
    height (node.mk 1 node.null (create_payload 2 0)
        (node.mk 0 node.null (create_payload 3 0) node.null))
      - height (node.null : node my_structure) ≤ 2 ∧
    height (node.null : node my_structure)
      - height (node.mk 1 node.null (create_payload 2 0)
        (node.mk 0 node.null (create_payload 3 0) node.null)) ≤ 2 ∧
    balance_tree (node.mk 2 (node.mk 1 node.null (create_payload 2 0)
        (node.mk 0 node.null (create_payload 3 0) node.null)) (create_payload 5 0) node.null)
      = Except.ok (node.mk 1 (node.mk 0 node.null (create_payload 2 0) node.null)
          (create_payload 3 0) (node.mk 0 node.null (create_payload 5 0) node.null)) ∧
    (set_height (node.mk 7 (node.mk 1 node.null (create_payload 2 0)
        (node.mk 0 node.null (create_payload 3 0) node.null)) (create_payload 5 0) node.null)
      = Except.ok (node.mk 2 (node.mk 1 node.null (create_payload 2 0)
        (node.mk 0 node.null (create_payload 3 0) node.null)) (create_payload 5 0)
        node.null) ∧
    ∃ t, balance_tree (node.mk 2 (node.mk 1 node.null (create_payload 2 0)
        (node.mk 0 node.null (create_payload 3 0) node.null)) (create_payload 5 0) node.null)
        = Except.ok t ∧
      AVL t ∧ Balanced t ∧ HeightInv t ∧
      inorder t = [create_payload 2 0, create_payload 3 0, create_payload 5 0]) := by
  have a1 : AVL (node.mk 1 node.null (create_payload 2 0)
      (node.mk 0 node.null (create_payload 3 0) node.null)) := by
    simp [AVL, height]
  have a2 : AVL (node.null : node my_structure) := trivial
  have d1 : height (node.mk 1 node.null (create_payload 2 0)
        (node.mk 0 node.null (create_payload 3 0) node.null))
      - height (node.null : node my_structure) ≤ 2 := by decide
  have d2 : height (node.null : node my_structure)
      - height (node.mk 1 node.null (create_payload 2 0)
        (node.mk 0 node.null (create_payload 3 0) node.null)) ≤ 2 := by decide
  obtain ⟨e0, t, e, at1, bt, ht, i, -⟩ :=
    rebalancing_restores 7 (node.mk 1 node.null (create_payload 2 0)
      (node.mk 0 node.null (create_payload 3 0) node.null)) node.null (create_payload 5 0)
      a1 a2 d1 d2
  exact ⟨a1, a2, d1, d2, rfl, e0, t, e, at1, bt, ht, i⟩

/-- A left-heavy node whose right child's cached height is its true height has a left
child. -/
theorem left_heavy_has_left (l r : node α)
    (er : get_height r = height r) (c : get_height l - get_height r > 1) :
    ∃ hl a x b, l = node.mk hl a x b := by
  have gr := height_ge r
  cases l with
  | null => rw [get_height_null] at c; omega
  | mk hl a x b => exact ⟨hl, a, x, b, rfl⟩

/-- A right-heavy node whose left child's cached height is its true height has a right
child. -/
theorem right_heavy_has_right (l r : node α)
    (el : get_height l = height l) (c : get_height l - get_height r < -1) :
    ∃ hr a x b, r = node.mk hr a x b := by
  have gl := height_ge l
  cases r with
  | null => rw [get_height_null] at c; omega
  | mk hr a x b => exact ⟨hr, a, x, b, rfl⟩

/-- C36 (rotation safety in `balance_tree`): on a node whose children and grandchildren have
their true heights cached, a left-heavy node has a left child, and that child has a right
child when its factor is negative; a right-heavy node has a right child, and that child has a
left child when its factor is positive; so `balance_tree` returns without reaching the
`NULL`-child case of a rotation.  On every subtree with the balance and cached-height
invariants `insert_node` and `remove_node` return. -/
theorem rotation_safety (n : node α)
    (hc : ∀ c ∈ children n, get_height c = height c ∧
      ∀ g ∈ children c, get_height g = height g) :
    (is_left_heavy n = true →
      ∃ h hl a x b k r, n = node.mk h (node.mk hl a x b) k r ∧
        (get_balance_factor (node.mk hl a x b) < 0 → ∃ hb b1 z b2, b = node.mk hb b1 z b2)) ∧
    (is_right_heavy n = true →
      ∃ h l k hr a x b, n = node.mk h l k (node.mk hr a x b) ∧
        (get_balance_factor (node.mk hr a x b) > 0 → ∃ ha a1 z a2, a = node.mk ha a1 z a2)) ∧
    (∃ t, balance_tree n = Except.ok t) ∧
    (∀ (cmp : α → α → bst_compare_t) (t : node α), AVL t →
      (∀ (x : α) (replace : bst_status_t), ∃ res, insert_node cmp t x replace = Except.ok res) ∧
      (∀ p : α, ∃ res, remove_node cmp t p = Except.ok res)) := by
  have last : ∀ (cmp : α → α → bst_compare_t) (t : node α), AVL t →
      (∀ (x : α) (replace : bst_status_t),
        ∃ res, insert_node cmp t x replace = Except.ok res) ∧
      (∀ p : α, ∃ res, remove_node cmp t p = Except.ok res) := by
    intro cmp t ht
    constructor
    · intro x replace
      obtain ⟨t1, ev, e, -, -⟩ := insert_node_AVL cmp x replace t ht
      exact ⟨_, e⟩
    · intro p
      obtain ⟨t1, ev, e, -, -⟩ := remove_node_AVL cmp t p ht
      exact ⟨_, e⟩
  cases n with
  | null =>
    refine ⟨fun c => ?_, fun c => ?_, ⟨node.null, rfl⟩, last⟩
    · simp [is_left_heavy, get_balance_factor] at c
    · simp [is_right_heavy, get_balance_factor] at c
  | mk h l k r =>
    obtain ⟨el, gl⟩ := hc l (by simp [children])
    obtain ⟨er, gr⟩ := hc r (by simp [children])
    have left_part : get_height l - get_height r > 1 →
        ∃ hl a x b, l = node.mk hl a x b ∧
          (get_balance_factor (node.mk hl a x b) < 0 →
            ∃ hb b1 z b2, b = node.mk hb b1 z b2) := by
      intro c
      obtain ⟨hl, a, x, b, rfl⟩ := left_heavy_has_left l r er c
      refine ⟨hl, a, x, b, rfl, fun c2 => ?_⟩
      rw [get_balance_factor_mk] at c2
      have ea := gl a (by simp [children])
      have ga := height_ge a
      cases b with
      | null => rw [get_height_null] at c2; omega
      | mk hb b1 z b2 => exact ⟨hb, b1, z, b2, rfl⟩
    have right_part : get_height l - get_height r < -1 →
        ∃ hr a x b, r = node.mk hr a x b ∧
          (get_balance_factor (node.mk hr a x b) > 0 →
            ∃ ha a1 z a2, a = node.mk ha a1 z a2) := by
      intro c
      obtain ⟨hr, a, x, b, rfl⟩ := right_heavy_has_right l r el c
      refine ⟨hr, a, x, b, rfl, fun c2 => ?_⟩
      rw [get_balance_factor_mk] at c2
      have eb := gr b (by simp [children])
      have gb := height_ge b
      cases a with
      | null => rw [get_height_null] at c2; omega
      | mk ha a1 z a2 => exact ⟨ha, a1, z, a2, rfl⟩
    refine ⟨fun c => ?_, fun c => ?_, ?_, last⟩
    · simp only [is_left_heavy, get_balance_factor_mk, decide_eq_true_eq] at c
      obtain ⟨hl, a, x, b, rfl, hb⟩ := left_part c
      exact ⟨h, hl, a, x, b, k, r, rfl, hb⟩
    · simp only [is_right_heavy, get_balance_factor_mk, decide_eq_true_eq] at c
      obtain ⟨hr, a, x, b, rfl, ha⟩ := right_part c
      exact ⟨h, l, k, hr, a, x, b, rfl, ha⟩
    · rw [balance_tree_mk]
      by_cases c1 : get_height l - get_height r > 1
      · obtain ⟨hl, a, x, b, rfl, hb⟩ := left_part c1
        rw [if_pos c1]
        by_cases c2 : get_balance_factor (node.mk hl a x b) < 0
        · obtain ⟨hb1, b1, z, b2, rfl⟩ := hb c2
          rw [if_pos c2, left_rotation_mk]
          exact ⟨_, right_rotation_mk _ _ _ _ _ _ _⟩
        · rw [if_neg c2]
          exact ⟨_, right_rotation_mk _ _ _ _ _ _ _⟩
      · rw [if_neg c1]
        by_cases c3 : get_height l - get_height r < -1
        · obtain ⟨hr, a, x, b, rfl, ha⟩ := right_part c3
          rw [if_pos c3]
          by_cases c4 : get_balance_factor (node.mk hr a x b) > 0
          · obtain ⟨ha1, a1, z, a2, rfl⟩ := ha c4
            rw [if_pos c4, right_rotation_mk]
            exact ⟨_, left_rotation_mk _ _ _ _ _ _ _⟩
          · rw [if_neg c4]
            exact ⟨_, left_rotation_mk _ _ _ _ _ _ _⟩
        · rw [if_neg c3]
          exact ⟨_, rfl⟩

theorem rotation_safety_witness :
    (∀ c ∈ children (node.mk 2 (node.mk 1 node.null (create_payload 2 0)
        (node.mk 0 node.null (create_payload 3 0) node.null)) (create_payload 5 0) node.null),
      get_height c = height c ∧ ∀ g ∈ children c, get_height g = height g) ∧
    is_left_heavy (node.mk 2 (node.mk 1 node.null (create_payload 2 0)
        (node.mk 0 node.null (create_payload 3 0) node.null)) (create_payload 5 0) node.null)
      = true ∧
    (∃ h hl a x b k r,
      node.mk 2 (node.mk 1 node.null (create_payload 2 0)
        (node.mk 0 node.null (create_payload 3 0) node.null)) (create_payload 5 0) node.null
        = node.mk h (node.mk hl a x b) k r ∧
      (get_balance_factor (node.mk hl a x b) < 0 → ∃ hb b1 z b2, b = node.mk hb b1 z b2)) ∧
    (∃ t, balance_tree (node.mk 2 (node.mk 1 node.null (create_payload 2 0)
        (node.mk 0 node.null (create_payload 3 0) node.null)) (create_payload 5 0) node.null)
      = Except.ok t) := by
  have hc : ∀ c ∈ children (node.mk 2 (node.mk 1 node.null (create_payload 2 0)
        (node.mk 0 node.null (create_payload 3 0) node.null)) (create_payload 5 0) node.null),
      get_height c = height c ∧ ∀ g ∈ children c, get_height g = height g := by
    intro c hc
    simp only [children, List.mem_cons, List.mem_singleton, List.not_mem_nil, or_false] at hc
    rcases hc with rfl | rfl
    · refine ⟨by decide, fun g hg => ?_⟩
      simp only [children, List.mem_cons, List.mem_singleton, List.not_mem_nil,
        or_false] at hg
      rcases hg with rfl | rfl <;> decide
    · exact ⟨by decide, fun g hg => by simp [children] at hg⟩
  have hl : is_left_heavy (node.mk 2 (node.mk 1 node.null (create_payload 2 0)
        (node.mk 0 node.null (create_payload 3 0) node.null)) (create_payload 5 0) node.null)
      = true := by decide
  have key := rotation_safety _ hc
  exact ⟨hc, hl, key.1 hl, key.2.2.1⟩

/-! ## The public `rotate` -/

/-- When no node compares `BST_EQ`, `rotate` returns `BST_SEARCH_FAILURE`, whatever the side,
and the handle is the same. -/
theorem rotate_search_failure (b : bst_t α) (x : α) (side : bst_status_t)
    (h : search_node b.compare b.root x = node.null) :
    rotate b x side = Except.ok (BST_SEARCH_FAILURE, b) := by
  simp [rotate, h, is_null]

/-- When a node compares `BST_EQ` and the side is neither rotation, `rotate` returns
`BST_ROTATE_FAILURE` and the handle is the same. -/
theorem rotate_side_failure (b : bst_t α) (x : α) (side : bst_status_t)
    (h : search_node b.compare b.root x ≠ node.null) (h1 : side ≠ BST_ROTATE_RIGHT)
    (h2 : side ≠ BST_ROTATE_LEFT) :
    rotate b x side = Except.ok (BST_ROTATE_FAILURE, b) := by
  have hn : is_null (search_node b.compare b.root x) = false := by
    cases e : search_node b.compare b.root x with
    | null => exact absurd e h
    | mk _ _ _ _ => rfl
  simp [rotate, hn, h1, h2]

/-- C34 (public rotate keeps the tree intact), the failing input: on the tree built from 30,
10, 28, 50, 29, 55, `rotate` of the payload with key 30 with `BST_ROTATE_RIGHT` returns
`BST_ROTATION_SUCCESS`, and the tree below the root then holds 29, 30, 50, 55 only: the node
of key 28, which `right_rotation` returned as the new root and `rotate` stored nowhere, and
its left subtree with key 10 are no longer reached.  With `BST_ROTATE_LEFT` the keys 50 and 55
are lost in the same way.  With a key that is not stored the call returns
`BST_SEARCH_FAILURE`, with a side that is neither rotation `BST_ROTATE_FAILURE`, and the
handle is the same. -/
theorem rotate_loses_nodes :
    (inorder tree_30_10_28_50_29_55.root).map my_structure.value = [10, 28, 29, 30, 50, 55] ∧
    (∃ b1, rotate tree_30_10_28_50_29_55 (create_payload 30 0) BST_ROTATE_RIGHT
        = Except.ok (BST_ROTATION_SUCCESS, b1) ∧
      (inorder b1.root).map my_structure.value = [29, 30, 50, 55]) ∧
    (∃ b1, rotate tree_30_10_28_50_29_55 (create_payload 30 0) BST_ROTATE_LEFT
        = Except.ok (BST_ROTATION_SUCCESS, b1) ∧
      (inorder b1.root).map my_structure.value = [10, 28, 29, 30]) ∧
    rotate tree_30_10_28_50_29_55 (create_payload 99 0) BST_ROTATE_RIGHT
      = Except.ok (BST_SEARCH_FAILURE, tree_30_10_28_50_29_55) ∧
    rotate tree_30_10_28_50_29_55 (create_payload 30 0) BST_REPLACE_TRUE
      = Except.ok (BST_ROTATE_FAILURE, tree_30_10_28_50_29_55) :=
  ⟨by decide, ⟨_, rfl, by decide⟩, ⟨_, rfl, by decide⟩, rfl, rfl⟩

end Bst

namespace Dlist

open dlist_settings_t dlist_result_t dlist_compare_t sort_direction_t

variable {α : Type}

/-! ## Chains of nodes in memory -/

theorem links_frame (m : Nat → Option (dnode_t α)) (a : Nat) (v : Option (dnode_t α))
    (nx : Option Nat) (as : List Nat) : ∀ (p : Option Nat), a ∉ as →
    (Links (Function.update m a v) p as nx ↔ Links m p as nx) := by
  induction as with
  | nil => intro p _; exact Iff.rfl
  | cons b as ih =>
    intro p ha
    have hb : b ≠ a := fun h => ha (by rw [h]; simp)
    have ha2 : a ∉ as := fun h => ha (List.mem_cons_of_mem _ h)
    simp only [Links, Function.update_noteq hb, ih (some b) ha2]

theorem data_frame (m : Nat → Option (dnode_t α)) (a : Nat) (v : Option (dnode_t α))
    (as : List Nat) : ∀ (xs : List α), a ∉ as →
    (Data (Function.update m a v) as xs ↔ Data m as xs) := by
  induction as with
  | nil => intro xs _; cases xs <;> exact Iff.rfl
  | cons b as ih =>
    intro xs ha
    have hb : b ≠ a := fun h => ha (by rw [h]; simp)
    have ha2 : a ∉ as := fun h => ha (List.mem_cons_of_mem _ h)
    cases xs with
    | nil => exact Iff.rfl
    | cons x xs => simp only [Data, Function.update_noteq hb, ih xs ha2]

/-- A write that keeps the two pointers of a node keeps every chain. -/
theorem links_same_pointers (m : Nat → Option (dnode_t α)) (a : Nat) (n n1 : dnode_t α)
    (hm : m a = some n) (h1 : n1.next = n.next) (h2 : n1.prev = n.prev) (nx : Option Nat)
    (as : List Nat) : ∀ (p : Option Nat), Links m p as nx →
    Links (Function.update m a (some n1)) p as nx := by
  induction as with
  | nil => intro p _; trivial
  | cons b as ih =>
    intro p hl
    obtain ⟨⟨nb, e, e1, e2⟩, hl2⟩ := hl
    refine ⟨?_, ih (some b) hl2⟩
    by_cases hb : b = a
    · subst hb
      rw [hm] at e
      cases e
      exact ⟨n1, by simp, by rw [h2, e1], by rw [h1, e2]⟩
    · exact ⟨nb, by rw [Function.update_noteq hb]; exact e, e1, e2⟩

/-- A write that keeps the data of a node keeps the data of every chain. -/
theorem data_same_data (m : Nat → Option (dnode_t α)) (a : Nat) (n n1 : dnode_t α)
    (hm : m a = some n) (h1 : n1.data = n.data) (as : List Nat) : ∀ (xs : List α),
    Data m as xs → Data (Function.update m a (some n1)) as xs := by
  induction as with
  | nil => intro xs h; cases xs <;> exact h
  | cons b as ih =>
    intro xs hd
    cases xs with
    | nil => exact hd
    | cons x xs =>
      obtain ⟨⟨nb, e, e1⟩, hd2⟩ := hd
      refine ⟨?_, ih xs hd2⟩
      by_cases hb : b = a
      · subst hb
        rw [hm] at e
        cases e
        exact ⟨n1, by simp, by rw [h1, e1]⟩
      · exact ⟨nb, by rw [Function.update_noteq hb]; exact e, e1⟩

theorem data_length (m : Nat → Option (dnode_t α)) (as : List Nat) : ∀ (xs : List α),
    Data m as xs → as.length = xs.length := by
  induction as with
  | nil => intro xs h; cases xs with
    | nil => rfl
    | cons x xs => exact absurd h (by simp [Data])
  | cons b as ih =>
    intro xs h
    cases xs with
    | nil => exact absurd h (by simp [Data])
    | cons x xs => simp only [List.length_cons, ih xs h.2]

theorem first_or_append (as bs : List Nat) (nx : Option Nat) :
    first_or (as ++ bs) nx = first_or as (first_or bs nx) := by
  cases as <;> rfl

theorem last_or_cons (p : Option Nat) (a : Nat) (as : List Nat) :
    last_or p (a :: as) = last_or (some a) as := by
  cases as with
  | nil => rfl
  | cons b as =>
    cases h : (b :: as).getLast? with
    | none => simp at h
    | some c => simp only [last_or, List.getLast?_cons_cons, h]

/-- A chain over `as ++ bs` is a chain over `as` that ends at the first of `bs`, and a chain
over `bs` that starts from the last of `as`. -/
theorem links_append (m : Nat → Option (dnode_t α)) (nx : Option Nat) (bs : List Nat)
    (as : List Nat) : ∀ (p : Option Nat),
    Links m p (as ++ bs) nx ↔ Links m p as (first_or bs nx) ∧ Links m (last_or p as) bs nx := by
  induction as with
  | nil => intro p; simp [Links, last_or]
  | cons a as ih =>
    intro p
    simp only [List.cons_append, Links, List.append_eq, ih (some a), first_or_append,
      last_or_cons, and_assoc]

theorem data_append (m : Nat → Option (dnode_t α)) (bs : List Nat) (ys : List α)
    (as : List Nat) : ∀ (xs : List α), as.length = xs.length →
    (Data m (as ++ bs) (xs ++ ys) ↔ Data m as xs ∧ Data m bs ys) := by
  induction as with
  | nil =>
    intro xs h
    cases xs with
    | nil => simp [Data]
    | cons x xs => simp at h
  | cons a as ih =>
    intro xs h
    cases xs with
    | nil => simp at h
    | cons x xs =>
      simp only [List.length_cons, Nat.add_right_cancel_iff] at h
      simp only [List.cons_append, Data, List.append_eq, ih xs h, and_assoc]

/-! ## The two iterations -/

theorem collect_next_none (m : Nat → Option (dnode_t α)) (fuel : Nat) :
    collect_next m none fuel = [] := by
  cases fuel <;> rfl

theorem collect_prev_none (m : Nat → Option (dnode_t α)) (fuel : Nat) :
    collect_prev m none fuel = [] := by
  cases fuel <;> rfl

theorem collect_next_chain (m : Nat → Option (dnode_t α)) (as : List Nat) :
    ∀ (p : Option Nat) (xs : List α) (fuel : Nat), Links m p as none → Data m as xs →
      as.length ≤ fuel → collect_next m (first_or as none) fuel = xs := by
  induction as with
  | nil =>
    intro p xs fuel _ hd _
    cases xs with
    | nil => exact collect_next_none m fuel
    | cons x xs => exact absurd hd (by simp [Data])
  | cons a as ih =>
    intro p xs fuel hl hd hf
    cases xs with
    | nil => exact absurd hd (by simp [Data])
    | cons x xs =>
      obtain ⟨⟨n, e, -, e2⟩, hl2⟩ := hl
      obtain ⟨⟨n1, e3, e4⟩, hd2⟩ := hd
      rw [e] at e3
      cases e3
      cases fuel with
      | zero => simp at hf
      | succ k =>
        have e5 : first_or (a :: as) none = some a := rfl
        rw [e5, collect_next]
        simp only [e, e2, e4]
        rw [ih (some a) xs k hl2 hd2 (by simpa using hf)]

theorem last_or_append_singleton (p : Option Nat) (as : List Nat) (a : Nat) :
    last_or p (as ++ [a]) = some a := by
  simp [last_or]

theorem collect_prev_chain (m : Nat → Option (dnode_t α)) (as : List Nat) :
    ∀ (nx : Option Nat) (xs : List α) (fuel : Nat), Links m none as nx → Data m as xs →
      as.length ≤ fuel → collect_prev m (last_or none as) fuel = xs.reverse := by
  induction as using List.reverseRecOn with
  | nil =>
    intro nx xs fuel _ hd _
    cases xs with
    | nil => exact collect_prev_none m fuel
    | cons x xs => exact absurd hd (by simp [Data])
  | append_singleton as a ih =>
    intro nx xs fuel hl hd hf
    have hlen := data_length m _ xs hd
    rcases List.eq_nil_or_concat xs with rfl | ⟨xs1, x, rfl⟩
    · simp at hlen
    · simp only [List.concat_eq_append] at hd hlen ⊢
      have hlen1 : as.length = xs1.length := by simpa using hlen
      rw [links_append] at hl
      rw [data_append m [a] [x] as xs1 hlen1] at hd
      obtain ⟨hl1, ⟨n, e, e1, -⟩, -⟩ := hl
      obtain ⟨hd1, ⟨n1, e3, e4⟩, -⟩ := hd
      rw [e] at e3
      cases e3
      cases fuel with
      | zero => simp at hf
      | succ k =>
        rw [last_or_append_singleton, collect_prev]
        simp only [e, e1, e4, List.reverse_append, List.reverse_cons,
          List.reverse_nil, List.nil_append, List.singleton_append]
        rw [ih _ xs1 k hl1 hd1 (by simp at hf; omega)]

theorem nodup_length_le (as : List Nat) (n : Nat) (hn : as.Nodup) (hb : ∀ a ∈ as, a < n) :
    as.length ≤ n := by
  have h1 : as.toFinset ⊆ Finset.range n := by
    intro a ha
    simp only [List.mem_toFinset] at ha
    simpa using hb a ha
  have h2 := Finset.card_le_card h1
  rwa [List.toFinset_card_of_nodup hn, Finset.card_range] at h2

theorem first_or_none (as : List Nat) : first_or as none = as.head? := by
  cases as <;> rfl

theorem last_or_none (as : List Nat) : last_or none as = as.getLast? := by
  unfold last_or
  cases as.getLast? <;> rfl

/-- On a well-formed list the iteration from the head meets the data in order, the iteration
from the tail meets them in reverse order, and `length` is their number. -/
theorem WF_observe {d : dlist_t α} {as : List Nat} {xs : List α} (h : WF d as xs) :
    forward d = xs ∧ backward d = xs.reverse ∧ d.length = xs.length ∧
      dlist_get_length d = xs.length ∧ (dlist_is_empty d = true ↔ xs = []) ∧
      (d.head = none ↔ xs = []) ∧ (d.tail = none ↔ xs = []) := by
  obtain ⟨h1, h2, h3, h4, h5, h6, h7⟩ := h
  have hlen := data_length _ _ _ h7
  have hf := nodup_length_le as d.brk h4 h5
  have e0 : as = [] ↔ xs = [] := by
    constructor
    · intro e; subst e; cases xs with
      | nil => rfl
      | cons x xs => simp at hlen
    · intro e; subst e; cases as with
      | nil => rfl
      | cons a as => simp at hlen
  refine ⟨?_, ?_, by rw [h3, hlen], by rw [dlist_get_length, h3, hlen], ?_, ?_, ?_⟩
  · rw [forward, h1, ← first_or_none]
    exact collect_next_chain _ as none xs _ h6 h7 hf
  · rw [backward, h2, ← last_or_none]
    exact collect_prev_chain _ as none xs _ h6 h7 hf
  · rw [dlist_is_empty, h3, hlen]
    simp
  · rw [h1, ← e0]; cases as <;> simp
  · rw [h2, ← e0, List.getLast?_eq_none_iff]

theorem WF_init : WF (dlist_init : dlist_t α) [] [] :=
  ⟨rfl, rfl, rfl, List.nodup_nil, by simp, trivial, trivial⟩

/-! ## Popping -/

/-- Removing the head node of a well-formed list. -/
theorem remove_node_head (d : dlist_t α) (a : Nat) (as : List Nat) (x : α) (xs : List α)
    (h : WF d (a :: as) (x :: xs)) :
    ∃ d1, remove_node d d.head = Except.ok (x, d1) ∧ WF d1 as xs ∧ d1.brk = d.brk := by
  obtain ⟨h1, h2, h3, h4, h5, h6, h7⟩ := h
  obtain ⟨⟨n, e, e1, e2⟩, hl⟩ := h6
  obtain ⟨⟨n1, e3, e4⟩, hd⟩ := h7
  rw [e] at e3
  cases e3
  rw [List.nodup_cons] at h4
  have hlen : ¬ d.length = 0 := by rw [h3]; simp
  have hhead : d.head = some a := h1
  cases as with
  | nil =>
    cases xs with
    | cons y ys => exact absurd hd (by simp [Data])
    | nil =>
      have htail : d.tail = some a := h2
      have en : n.next = none := e2
      refine ⟨dlist_t.mk none none (d.length - 1) (Function.update d.mem a none) d.brk,
        ?_, ?_, rfl⟩
      · simp only [remove_node, hhead, load, e, htail, en, e1, if_true, ne_eq,
          not_true_eq_false, if_false, hlen, e4]
      · exact ⟨rfl, rfl, by simp [h3], List.nodup_nil, by simp, trivial, trivial⟩
  | cons b as =>
    cases xs with
    | nil => exact absurd hd (by simp [Data])
    | cons y ys =>
      obtain ⟨⟨nb, eb, eb1, eb2⟩, hl2⟩ := hl
      obtain ⟨⟨nb1, eb3, eb4⟩, hd2⟩ := hd
      rw [eb] at eb3
      cases eb3
      have en : n.next = some b := e2
      have hab : a ≠ b := fun hh => h4.1 (by rw [hh]; simp)
      have hba : b ≠ a := fun hh => hab hh.symm
      have htail : d.tail = (b :: as).getLast? := by
        rw [h2, List.getLast?_cons_cons]
      have htne : ¬ d.tail = some a := by
        rw [htail]
        intro hh
        exact h4.1 (List.mem_of_getLast?_eq_some hh)
      have h40 := h4.2
      rw [List.nodup_cons] at h4
      refine ⟨dlist_t.mk (some b) d.tail (d.length - 1)
        (Function.update (Function.update (Function.update d.mem b
          (some (dnode_t.mk nb.data nb.next none))) b
          (some (dnode_t.mk nb.data nb.next none))) a none) d.brk, ?_, ?_, rfl⟩
      · simp only [remove_node, hhead, load, e, en, e1, eb, store_prev, if_true, ne_eq,
          not_false_eq_true, reduceCtorEq, htne, if_false, hlen, e4,
          Function.update_noteq hab, Function.update_same, not_true_eq_false]
      · refine ⟨rfl, htail, by simp [h3], h40, fun c hc => h5 c (List.mem_cons_of_mem _ hc),
          ?_, ?_⟩
        · refine ⟨⟨dnode_t.mk nb.data nb.next none, by simp [Function.update_noteq hba],
            rfl, eb2⟩, ?_⟩
          rw [links_frame _ _ _ _ _ _ (fun hh => h4.1 (List.mem_cons_of_mem _ hh)),
            links_frame _ _ _ _ _ _ h4.2.1, links_frame _ _ _ _ _ _ h4.2.1]
          exact hl2
        · refine ⟨⟨dnode_t.mk nb.data nb.next none, by simp [Function.update_noteq hba],
            eb4⟩, ?_⟩
          rw [data_frame _ _ _ _ _ (fun hh => h4.1 (List.mem_cons_of_mem _ hh)),
            data_frame _ _ _ _ _ h4.2.1, data_frame _ _ _ _ _ h4.2.1]
          exact hd2

/-- Removing the tail node of a well-formed list. -/
theorem remove_node_tail (d : dlist_t α) (a : Nat) (as : List Nat) (x : α) (xs : List α)
    (h : WF d (as ++ [a]) (xs ++ [x])) :
    ∃ d1, remove_node d d.tail = Except.ok (x, d1) ∧ WF d1 as xs ∧ d1.brk = d.brk := by
  have hlen0 : as.length = xs.length := by
    have := data_length _ _ _ h.2.2.2.2.2.2
    simpa using this
  rcases List.eq_nil_or_concat as with rfl | ⟨as1, b, rfl⟩
  · have hx : xs = [] := by
      cases xs with
      | nil => rfl
      | cons y ys => simp at hlen0
    subst hx
    have ht : d.tail = d.head := by rw [h.1, h.2.1]; rfl
    rw [ht]
    exact remove_node_head d a [] x [] h
  · rcases List.eq_nil_or_concat xs with rfl | ⟨xs1, y, rfl⟩
    · simp at hlen0
    · simp only [List.concat_eq_append] at h hlen0 ⊢
      have hlen1 : as1.length = xs1.length := by simpa using hlen0
      obtain ⟨h1, h2, h3, h4, h5, h6, h7⟩ := h
      rw [links_append, links_append] at h6
      rw [data_append _ _ _ _ _ hlen0, data_append _ _ _ _ _ hlen1] at h7
      obtain ⟨⟨hl1, ⟨nb, eb, eb1, eb2⟩, -⟩, ⟨n, e, e1, e2⟩, -⟩ := h6
      obtain ⟨⟨hd1, ⟨nb1, eb3, eb4⟩, -⟩, ⟨n1, e3, e4⟩, -⟩ := h7
      rw [eb] at eb3
      cases eb3
      rw [e] at e3
      cases e3
      rw [last_or_append_singleton] at e1
      have en : n.next = none := e2
      have ebn : nb.next = some a := eb2
      rw [List.nodup_append] at h4
      obtain ⟨hn1, -, hn3⟩ := h4
      have ha1 : a ∉ as1 ++ [b] := fun hh => hn3 hh (by simp) 
      have hab : a ≠ b := fun hh => ha1 (by rw [hh]; simp)
      have hba : b ≠ a := fun hh => hab hh.symm
      have ha2 : a ∉ as1 := fun hh => ha1 (List.mem_append_left _ hh)
      rw [List.nodup_append] at hn1
      have hb2 : b ∉ as1 := fun hh => hn1.2.2 hh (by simp)
      have htail : d.tail = some a := by rw [h2]; simp
      have hhead : d.head = (as1 ++ [b]).head? := by
        rw [h1, List.head?_append_of_ne_nil _ (by simp)]
      have hhne : ¬ d.head = some a := by
        rw [hhead]
        intro hh
        exact ha1 (List.mem_of_mem_head? hh)
      have hlen : ¬ d.length = 0 := by rw [h3]; simp
      refine ⟨dlist_t.mk d.head (some b) (d.length - 1)
        (Function.update (Function.update (Function.update d.mem b
          (some (dnode_t.mk nb.data none nb.prev))) b
          (some (dnode_t.mk nb.data none nb.prev))) a none) d.brk, ?_, ?_, rfl⟩
      · simp only [remove_node, htail, load, e, en, e1, eb, store_next, hhne, if_true, ne_eq,
          not_false_eq_true, reduceCtorEq, if_false, hlen, e4,
          Function.update_noteq hab, Function.update_same, not_true_eq_false]
      · refine ⟨hhead, by simp, by simp [h3], ?_,
          fun c hc => h5 c (List.mem_append_left _ hc), ?_, ?_⟩
        · rw [List.nodup_append]; exact hn1
        · rw [links_append]
          constructor
          · rw [links_frame _ _ _ _ _ _ ha2, links_frame _ _ _ _ _ _ hb2,
              links_frame _ _ _ _ _ _ hb2]
            exact hl1
          · exact ⟨⟨dnode_t.mk nb.data none nb.prev, by simp [Function.update_noteq hba],
              eb1, rfl⟩, trivial⟩
        · rw [data_append _ _ _ _ _ hlen1]
          constructor
          · rw [data_frame _ _ _ _ _ ha2, data_frame _ _ _ _ _ hb2,
              data_frame _ _ _ _ _ hb2]
            exact hd1
          · exact ⟨⟨dnode_t.mk nb.data none nb.prev, by simp [Function.update_noteq hba],
              eb4⟩, trivial⟩

/-! ## Adding at the ends -/

/-- The function `add_node` on an empty well-formed list, for every mode and index: the new
node becomes head and tail. -/
theorem add_node_empty (d : dlist_t α) (v : α) (mode : dlist_settings_t) (index : Int)
    (h : WF d [] []) :
    ∃ d1, add_node d v mode index = Except.ok (DLIST_SUCC, d1) ∧ WF d1 [d.brk] [v] ∧
      d1.brk = d.brk + 1 := by
  have hlen : d.length = 0 := h.2.2.1
  refine ⟨dlist_t.mk (some d.brk) (some d.brk) (d.length + 1)
    (Function.update d.mem d.brk (some (dnode_t.mk v none none))) (d.brk + 1), ?_, ?_, rfl⟩
  · simp only [add_node, hlen, if_true]
  · exact ⟨rfl, rfl, by simp [hlen], by simp, by simp,
      ⟨⟨dnode_t.mk v none none, by simp, rfl, rfl⟩, trivial⟩,
      ⟨⟨dnode_t.mk v none none, by simp, rfl⟩, trivial⟩⟩

/-- Prepending to a well-formed list. -/
theorem dlist_prepend_WF (d : dlist_t α) (v : α) (as : List Nat) (xs : List α)
    (h : WF d as xs) :
    ∃ d1, dlist_prepend d v = Except.ok d1 ∧ WF d1 (d.brk :: as) (v :: xs) ∧
      d1.brk = d.brk + 1 := by
  cases as with
  | nil =>
    have hx : xs = [] := by
      cases xs with
      | nil => rfl
      | cons y ys => exact absurd h.2.2.2.2.2.2 (by simp [Data])
    subst hx
    obtain ⟨d1, e, hw, hb⟩ := add_node_empty d v PREPEND 0 h
    exact ⟨d1, by simp only [dlist_prepend, e], hw, hb⟩
  | cons b as =>
    cases xs with
    | nil => exact absurd h.2.2.2.2.2.2 (by simp [Data])
    | cons y ys =>
      obtain ⟨h1, h2, h3, h4, h5, h6, h7⟩ := h
      obtain ⟨⟨nb, eb, eb1, eb2⟩, hl⟩ := h6
      obtain ⟨⟨nb1, eb3, eb4⟩, hd⟩ := h7
      rw [eb] at eb3
      cases eb3
      have hlen : ¬ d.length = 0 := by rw [h3]; simp
      have hhead : d.head = some b := h1
      have hbk : b ≠ d.brk := Nat.ne_of_lt (h5 b (by simp))
      have hkb : d.brk ≠ b := fun hh => hbk hh.symm
      have hk : d.brk ∉ b :: as := fun hh => Nat.lt_irrefl _ (h5 _ hh)
      have hk2 : d.brk ∉ as := fun hh => hk (List.mem_cons_of_mem _ hh)
      have hnd := h4
      rw [List.nodup_cons] at h4
      refine ⟨dlist_t.mk (some d.brk) d.tail (d.length + 1)
        (Function.update (Function.update (Function.update d.mem d.brk
          (some (dnode_t.mk v none none))) d.brk
          (some (dnode_t.mk v (some b) none))) b
          (some (dnode_t.mk nb.data nb.next (some d.brk)))) (d.brk + 1), ?_, ?_, rfl⟩
      · simp only [dlist_prepend, add_node, hlen, if_false, if_true, store_next, store_prev,
          load, hhead, Function.update_same, Function.update_noteq hbk, eb]
      · refine ⟨rfl, by rw [List.getLast?_cons_cons]; exact h2, by simp [h3],
          List.nodup_cons.2 ⟨hk, hnd⟩, ?_, ?_, ?_⟩
        · intro c hc
          rcases List.mem_cons.1 hc with rfl | hc
          · exact Nat.lt_succ_self _
          · exact Nat.lt_succ_of_lt (h5 c hc)
        · refine ⟨⟨dnode_t.mk v (some b) none, by simp [Function.update_noteq hkb], rfl,
            rfl⟩, ⟨dnode_t.mk nb.data nb.next (some d.brk), by simp, rfl, eb2⟩, ?_⟩
          rw [links_frame _ _ _ _ _ _ h4.1, links_frame _ _ _ _ _ _ hk2,
            links_frame _ _ _ _ _ _ hk2]
          exact hl
        · refine ⟨⟨dnode_t.mk v (some b) none, by simp [Function.update_noteq hkb], rfl⟩,
            ⟨dnode_t.mk nb.data nb.next (some d.brk), by simp, eb4⟩, ?_⟩
          rw [data_frame _ _ _ _ _ h4.1, data_frame _ _ _ _ _ hk2, data_frame _ _ _ _ _ hk2]
          exact hd

/-- Appending to a well-formed list. -/
theorem dlist_append_WF (d : dlist_t α) (v : α) (as : List Nat) (xs : List α)
    (h : WF d as xs) :
    ∃ d1, dlist_append d v = Except.ok d1 ∧ WF d1 (as ++ [d.brk]) (xs ++ [v]) ∧
      d1.brk = d.brk + 1 := by
  have hlen0 : as.length = xs.length := data_length _ _ _ h.2.2.2.2.2.2
  rcases List.eq_nil_or_concat as with rfl | ⟨as1, b, rfl⟩
  · have hx : xs = [] := by
      cases xs with
      | nil => rfl
      | cons y ys => simp at hlen0
    subst hx
    obtain ⟨d1, e, hw, hb⟩ := add_node_empty d v APPEND 0 h
    exact ⟨d1, by simp only [dlist_append, e], hw, hb⟩
  · rcases List.eq_nil_or_concat xs with rfl | ⟨xs1, y, rfl⟩
    · simp at hlen0
    · simp only [List.concat_eq_append] at h hlen0 ⊢
      have hlen1 : as1.length = xs1.length := by simpa using hlen0
      obtain ⟨h1, h2, h3, h4, h5, h6, h7⟩ := h
      rw [links_append] at h6
      rw [data_append _ _ _ _ _ hlen1] at h7
      obtain ⟨hl1, ⟨nb, eb, eb1, eb2⟩, -⟩ := h6
      obtain ⟨hd1, ⟨nb1, eb3, eb4⟩, -⟩ := h7
      rw [eb] at eb3
      cases eb3
      have hlen : ¬ d.length = 0 := by rw [h3]; simp
      have htail : d.tail = some b := by rw [h2]; simp
      have hbk : b ≠ d.brk := Nat.ne_of_lt (h5 b (by simp))
      have hkb : d.brk ≠ b := fun hh => hbk hh.symm
      have hk : d.brk ∉ as1 ++ [b] := fun hh => Nat.lt_irrefl _ (h5 _ hh)
      have hk2 : d.brk ∉ as1 := fun hh => hk (List.mem_append_left _ hh)
      have hnd := h4
      rw [List.nodup_append] at h4
      have hb2 : b ∉ as1 := fun hh => h4.2.2 hh (by simp)
      refine ⟨dlist_t.mk d.head (some d.brk) (d.length + 1)
        (Function.update (Function.update (Function.update d.mem d.brk
          (some (dnode_t.mk v none none))) d.brk
          (some (dnode_t.mk v none (some b)))) b
          (some (dnode_t.mk nb.data (some d.brk) nb.prev))) (d.brk + 1), ?_, ?_, rfl⟩
      · have n1 : ¬ APPEND = PREPEND := by decide
        have n2 : ¬ APPEND = INSERT_AT := by decide
        simp only [dlist_append, add_node, hlen, if_false, n1, n2, store_next, store_prev,
          load, htail, Function.update_same, Function.update_noteq hbk, eb]
      · refine ⟨?_, by simp, by simp [h3], ?_, ?_, ?_, ?_⟩
        · show d.head = _
          rw [h1, List.head?_append_of_ne_nil (as1 ++ [b]) (by simp)]
        · rw [List.nodup_append]
          refine ⟨hnd, by simp, ?_⟩
          intro c hc1 hc2
          rw [List.mem_singleton] at hc2
          exact hk (by rw [← hc2]; exact hc1)
        · intro c hc
          rcases List.mem_append.1 hc with hc | hc
          · exact Nat.lt_succ_of_lt (h5 c hc)
          · rw [List.mem_singleton] at hc; rw [hc]; exact Nat.lt_succ_self _
        · rw [links_append, links_append, last_or_append_singleton]
          refine ⟨⟨?_, ⟨dnode_t.mk nb.data (some d.brk) nb.prev, by simp, eb1, rfl⟩,
            trivial⟩, ⟨dnode_t.mk v none (some b), by simp [Function.update_noteq hkb], rfl,
            rfl⟩, trivial⟩
          rw [links_frame _ _ _ _ _ _ hb2, links_frame _ _ _ _ _ _ hk2,
            links_frame _ _ _ _ _ _ hk2]
          exact hl1
        · rw [data_append _ _ _ _ _ (by simpa using hlen0), data_append _ _ _ _ _ hlen1]
          refine ⟨⟨?_, ⟨dnode_t.mk nb.data (some d.brk) nb.prev, by simp, eb4⟩, trivial⟩,
            ⟨dnode_t.mk v none (some b), by simp [Function.update_noteq hkb], rfl⟩, trivial⟩
          rw [data_frame _ _ _ _ _ hb2, data_frame _ _ _ _ _ hk2, data_frame _ _ _ _ _ hk2]
          exact hd1

/-! ## Lists built by the interface -/

theorem append_all_valid (vs : List α) : ∀ (d : dlist_t α) (xs : List α), Valid d xs →
    ∃ d1, append_all d vs = Except.ok d1 ∧ Valid d1 (xs ++ vs) := by
  induction vs with
  | nil =>
    intro d xs h
    exact ⟨d, rfl, by simpa using h⟩
  | cons v vs ih =>
    intro d xs h
    obtain ⟨as, h⟩ := h
    obtain ⟨d1, e, hw, -⟩ := dlist_append_WF d v as xs h
    obtain ⟨d2, e2, hv⟩ := ih d1 (xs ++ [v]) ⟨_, hw⟩
    refine ⟨d2, ?_, by simpa using hv⟩
    simp only [append_all, e, e2]

theorem build_ok (vs : List α) :
    append_all dlist_init vs = Except.ok (build vs) ∧ Valid (build vs) vs := by
  obtain ⟨d1, e, hv⟩ := append_all_valid vs dlist_init [] ⟨[], WF_init⟩
  have e1 : build vs = d1 := by simp only [build, e]
  rw [e1]
  exact ⟨e, by simpa using hv⟩

theorem valid_observe {d : dlist_t α} {xs : List α} (h : Valid d xs) :
    forward d = xs ∧ backward d = xs.reverse ∧ d.length = xs.length ∧
      dlist_get_length d = xs.length ∧ (dlist_is_empty d = true ↔ xs = []) ∧
      (d.head = none ↔ xs = []) ∧ (d.tail = none ↔ xs = []) := by
  obtain ⟨as, h⟩ := h
  exact WF_observe h

theorem valid_nil_of_cons {d : dlist_t α} {x : α} {xs : List α} (h : Valid d (x :: xs)) :
    dlist_is_empty d = false := by
  have h1 := (valid_observe h).2.2.2.2.1
  cases e : dlist_is_empty d with
  | false => rfl
  | true => exact absurd (h1.1 e) (by simp)

theorem pop_head_valid (d : dlist_t α) (x : α) (xs : List α) (h : Valid d (x :: xs)) :
    ∃ d1, dlist_pop_head d = Except.ok (some x, d1) ∧ Valid d1 xs := by
  have he := valid_nil_of_cons h
  obtain ⟨as, h⟩ := h
  cases as with
  | nil => exact absurd h.2.2.2.2.2.2 (by simp [Data])
  | cons a as =>
    obtain ⟨d1, e, hw, -⟩ := remove_node_head d a as x xs h
    exact ⟨d1, by simp [dlist_pop_head, he, e], as, hw⟩

theorem pop_tail_valid (d : dlist_t α) (x : α) (xs : List α) (h : Valid d (xs ++ [x])) :
    ∃ d1, dlist_pop_tail d = Except.ok (some x, d1) ∧ Valid d1 xs := by
  have he : dlist_is_empty d = false := by
    have h1 := (valid_observe h).2.2.2.2.1
    cases e : dlist_is_empty d with
    | false => rfl
    | true => exact absurd (h1.1 e) (by simp)
  obtain ⟨as, h⟩ := h
  have hlen := data_length _ _ _ h.2.2.2.2.2.2
  rcases List.eq_nil_or_concat as with rfl | ⟨as1, a, rfl⟩
  · simp at hlen
  · rw [List.concat_eq_append] at h
    obtain ⟨d1, e, hw, -⟩ := remove_node_tail d a as1 x xs h
    exact ⟨d1, by simp [dlist_pop_tail, he, e], as1, hw⟩

theorem pop_empty (d : dlist_t α) (h : Valid d []) :
    dlist_pop_head d = Except.ok (none, d) ∧ dlist_pop_tail d = Except.ok (none, d) ∧
      dlist_get_length d = 0 := by
  have h1 := valid_observe h
  have he : dlist_is_empty d = true := h1.2.2.2.2.1.2 rfl
  exact ⟨by simp [dlist_pop_head, he], by simp [dlist_pop_tail, he], h1.2.2.2.1⟩

theorem head_data {d : dlist_t α} {x : α} {xs : List α} (h : Valid d (x :: xs)) :
    ∃ n, load d.mem d.head = Except.ok n ∧ n.data = x := by
  obtain ⟨as, h⟩ := h
  cases as with
  | nil => exact absurd h.2.2.2.2.2.2 (by simp [Data])
  | cons a as =>
    obtain ⟨⟨n, e, e1⟩, -⟩ := h.2.2.2.2.2.2
    have hh : d.head = some a := h.1
    exact ⟨n, by simp only [hh, load, e], e1⟩

theorem tail_data {d : dlist_t α} {x : α} {xs : List α} (h : Valid d (xs ++ [x])) :
    ∃ n, load d.mem d.tail = Except.ok n ∧ n.data = x := by
  obtain ⟨as, h⟩ := h
  have hlen := data_length _ _ _ h.2.2.2.2.2.2
  rcases List.eq_nil_or_concat as with rfl | ⟨as1, a, rfl⟩
  · simp at hlen
  · rw [List.concat_eq_append] at h hlen
    have hlen1 : as1.length = xs.length := by simpa using hlen
    have hd := h.2.2.2.2.2.2
    rw [data_append _ _ _ _ _ hlen1] at hd
    obtain ⟨-, ⟨n, e, e1⟩, -⟩ := hd
    have ht : d.tail = some a := by rw [h.2.1]; simp
    exact ⟨n, by simp only [ht, load, e], e1⟩

/-- C22 (dlist pop from head): on a well-formed list with the head-to-tail data sequence
`x :: rest`, `dlist_pop_head` returns `x` and leaves a well-formed list with the sequence
`rest` and a length smaller by one, head and tail both `NULL` when `rest` is empty; on a
well-formed empty list it returns `NULL` and leaves the list as it is, with length 0. -/
theorem dlist_pop_head_spec (d : dlist_t α) (xs : List α) (h : Valid d xs) :
    (∀ x rest, xs = x :: rest →
      ∃ d1, dlist_pop_head d = Except.ok (some x, d1) ∧ Valid d1 rest ∧ forward d1 = rest ∧
        backward d1 = rest.reverse ∧ dlist_get_length d1 = rest.length ∧
        dlist_get_length d1 + 1 = dlist_get_length d ∧
        (rest = [] → d1.head = none ∧ d1.tail = none)) ∧
    (xs = [] → dlist_pop_head d = Except.ok (none, d) ∧ dlist_get_length d = 0) := by
  constructor
  · intro x rest e
    subst e
    obtain ⟨d1, e, hv⟩ := pop_head_valid d x rest h
    have h0 := valid_observe h
    have h1 := valid_observe hv
    refine ⟨d1, e, hv, h1.1, h1.2.1, h1.2.2.2.1, ?_, fun hr => ⟨h1.2.2.2.2.2.1.2 hr,
      h1.2.2.2.2.2.2.2 hr⟩⟩
    rw [h1.2.2.2.1, h0.2.2.2.1, List.length_cons]
  · intro e
    subst e
    exact ⟨(pop_empty d h).1, (pop_empty d h).2.2⟩

theorem dlist_pop_head_spec_witness :
    Valid (build [10, 20, 30] : dlist_t Int) [10, 20, 30] ∧
    (∃ d1, dlist_pop_head (build [10, 20, 30] : dlist_t Int) = Except.ok (some 10, d1) ∧
      Valid d1 [20, 30] ∧ forward d1 = [20, 30] ∧ backward d1 = [30, 20] ∧
      dlist_get_length d1 = 2 ∧
      dlist_get_length d1 + 1 = dlist_get_length (build [10, 20, 30] : dlist_t Int) ∧
      (([20, 30] : List Int) = [] → d1.head = none ∧ d1.tail = none)) :=
  ⟨(build_ok _).2,
    (dlist_pop_head_spec (build [10, 20, 30]) [10, 20, 30] (build_ok _).2).1 10 [20, 30] rfl⟩

/-- C23 (dlist pop from tail): on a well-formed list with the head-to-tail data sequence
`rest ++ [x]`, `dlist_pop_tail` returns `x` and leaves a well-formed list with the sequence
`rest` and a length smaller by one; on a well-formed empty list it returns `NULL` and leaves
the list as it is. -/
theorem dlist_pop_tail_spec (d : dlist_t α) (xs : List α) (h : Valid d xs) :
    (∀ x rest, xs = rest ++ [x] →
      ∃ d1, dlist_pop_tail d = Except.ok (some x, d1) ∧ Valid d1 rest ∧ forward d1 = rest ∧
        backward d1 = rest.reverse ∧ dlist_get_length d1 = rest.length ∧
        dlist_get_length d1 + 1 = dlist_get_length d) ∧
    (xs = [] → dlist_pop_tail d = Except.ok (none, d) ∧ dlist_get_length d = 0) := by
  constructor
  · intro x rest e
    subst e
    obtain ⟨d1, e, hv⟩ := pop_tail_valid d x rest h
    have h0 := valid_observe h
    have h1 := valid_observe hv
    refine ⟨d1, e, hv, h1.1, h1.2.1, h1.2.2.2.1, ?_⟩
    rw [h1.2.2.2.1, h0.2.2.2.1, List.length_append, List.length_singleton]
  · intro e
    subst e
    exact ⟨(pop_empty d h).2.1, (pop_empty d h).2.2⟩

theorem dlist_pop_tail_spec_witness :
    Valid (build [10, 20, 30] : dlist_t Int) [10, 20, 30] ∧
    (∃ d1, dlist_pop_tail (build [10, 20, 30] : dlist_t Int) = Except.ok (some 30, d1) ∧
      Valid d1 [10, 20] ∧ forward d1 = [10, 20] ∧ backward d1 = [20, 10] ∧
      dlist_get_length d1 = 2 ∧
      dlist_get_length d1 + 1 = dlist_get_length (build [10, 20, 30] : dlist_t Int)) :=
  ⟨(build_ok _).2,
    (dlist_pop_tail_spec (build [10, 20, 30]) [10, 20, 30] (build_ok _).2).1 30 [10, 20] rfl⟩

/-- C24 (dlist prepend/pop round trip): on a well-formed list with the data sequence `xs`,
`dlist_prepend` of `v` makes `v` the data of the head node, the sequence `v :: xs` and the
length one more; a `dlist_pop_head` right after returns `v` and leaves the data sequence, in
both directions, and the length of the list before the prepend. -/
theorem prepend_pop_round_trip (d : dlist_t α) (xs : List α) (v : α) (h : Valid d xs) :
    ∃ d1, dlist_prepend d v = Except.ok d1 ∧
      (∃ n, load d1.mem d1.head = Except.ok n ∧ n.data = v) ∧ forward d1 = v :: xs ∧
      dlist_get_length d1 = dlist_get_length d + 1 ∧
      ∃ d2, dlist_pop_head d1 = Except.ok (some v, d2) ∧ Valid d2 xs ∧
        forward d2 = forward d ∧ backward d2 = backward d ∧
        dlist_get_length d2 = dlist_get_length d := by
  have h0 := valid_observe h
  obtain ⟨as, hw⟩ := h
  obtain ⟨d1, e, hw1, -⟩ := dlist_prepend_WF d v as xs hw
  have hv1 : Valid d1 (v :: xs) := ⟨_, hw1⟩
  have h1 := valid_observe hv1
  obtain ⟨d2, e2, hv2⟩ := pop_head_valid d1 v xs hv1
  have h2 := valid_observe hv2
  refine ⟨d1, e, head_data hv1, h1.1, ?_, d2, e2, hv2, ?_, ?_, ?_⟩
  · rw [h1.2.2.2.1, h0.2.2.2.1, List.length_cons]
  · rw [h2.1, h0.1]
  · rw [h2.2.1, h0.2.1]
  · rw [h2.2.2.2.1, h0.2.2.2.1]

theorem prepend_pop_round_trip_witness :
    Valid (build [10, 20, 30] : dlist_t Int) [10, 20, 30] ∧
    ∃ d1, dlist_prepend (build [10, 20, 30] : dlist_t Int) 5 = Except.ok d1 ∧
      (∃ n, load d1.mem d1.head = Except.ok n ∧ n.data = 5) ∧ forward d1 = [5, 10, 20, 30] ∧
      dlist_get_length d1 = dlist_get_length (build [10, 20, 30] : dlist_t Int) + 1 ∧
      ∃ d2, dlist_pop_head d1 = Except.ok (some 5, d2) ∧ Valid d2 [10, 20, 30] ∧
        forward d2 = forward (build [10, 20, 30] : dlist_t Int) ∧
        backward d2 = backward (build [10, 20, 30] : dlist_t Int) ∧
        dlist_get_length d2 = dlist_get_length (build [10, 20, 30] : dlist_t Int) :=
  ⟨(build_ok _).2, prepend_pop_round_trip (build [10, 20, 30]) [10, 20, 30] 5 (build_ok _).2⟩

/-- C25 (dlist append keeps insertion order): on a well-formed list with the data sequence
`xs`, `dlist_append` of `v` makes `v` the data of the tail node, the head-to-tail sequence
`xs ++ [v]` and the length exactly one more; and the list built from `dlist_init` by
appending the payloads `vs` in turn iterates from the head as `vs`. -/
theorem append_keeps_order (d : dlist_t α) (xs : List α) (v : α) (h : Valid d xs) :
    (∃ d1, dlist_append d v = Except.ok d1 ∧ Valid d1 (xs ++ [v]) ∧
      (∃ n, load d1.mem d1.tail = Except.ok n ∧ n.data = v) ∧
      forward d1 = forward d ++ [v] ∧ forward d1 = xs ++ [v] ∧
      backward d1 = v :: backward d ∧
      dlist_get_length d1 = dlist_get_length d + 1) ∧
    (∀ vs : List α, ∃ d2, append_all dlist_init vs = Except.ok d2 ∧ forward d2 = vs ∧
      dlist_get_length d2 = vs.length) := by
  have h0 := valid_observe h
  obtain ⟨as, hw⟩ := h
  obtain ⟨d1, e, hw1, -⟩ := dlist_append_WF d v as xs hw
  have hv1 : Valid d1 (xs ++ [v]) := ⟨_, hw1⟩
  have h1 := valid_observe hv1
  refine ⟨⟨d1, e, hv1, tail_data hv1, ?_, h1.1, ?_, ?_⟩, ?_⟩
  · rw [h1.1, h0.1]
  · rw [h1.2.1, h0.2.1, List.reverse_append, List.reverse_singleton, List.singleton_append]
  · rw [h1.2.2.2.1, h0.2.2.2.1, List.length_append, List.length_singleton]
  · intro vs
    have hb := build_ok vs
    have h2 := valid_observe hb.2
    exact ⟨build vs, hb.1, h2.1, h2.2.2.2.1⟩

theorem append_keeps_order_witness :
    Valid (build [10, 20, 30] : dlist_t Int) [10, 20, 30] ∧
    (∃ d1, dlist_append (build [10, 20, 30] : dlist_t Int) 40 = Except.ok d1 ∧
      Valid d1 [10, 20, 30, 40] ∧
      (∃ n, load d1.mem d1.tail = Except.ok n ∧ n.data = 40) ∧
      forward d1 = forward (build [10, 20, 30] : dlist_t Int) ++ [40] ∧
      forward d1 = [10, 20, 30, 40] ∧
      backward d1 = 40 :: backward (build [10, 20, 30] : dlist_t Int) ∧
      dlist_get_length d1 = dlist_get_length (build [10, 20, 30] : dlist_t Int) + 1) :=
  ⟨(build_ok _).2,
    (append_keeps_order (build [10, 20, 30]) [10, 20, 30] 40 (build_ok _).2).1⟩

/-! ## Insertion at an index -/

/-- C26 (dlist insert at index), the failing inputs: on the list 10, 20, 30 built by appends,
whose indices 0 and -3 both name the head node, `dlist_insert` at index 0 and at index -3
reads the `NULL` parent of the head node and writes through it; at index -1 it succeeds and
puts the new data before the tail node, so that index -1 of the new list is still 30. -/
theorem insert_at_head_position :
    forward (build [10, 20, 30] : dlist_t Int) = [10, 20, 30] ∧
    dlist_get_by_index (build [10, 20, 30] : dlist_t Int) 0 = some 10 ∧
    dlist_get_by_index (build [10, 20, 30] : dlist_t Int) (-3) = some 10 ∧
    dlist_insert (build [10, 20, 30] : dlist_t Int) 99 0 = Except.error fault.null_deref ∧
    dlist_insert (build [10, 20, 30] : dlist_t Int) 99 (-3) = Except.error fault.null_deref ∧
    (∃ d1, dlist_insert (build [10, 20, 30] : dlist_t Int) 99 (-1)
        = Except.ok (DLIST_SUCC, d1) ∧
      forward d1 = [10, 20, 99, 30] ∧ dlist_get_by_index d1 (-1) = some 30 ∧
      dlist_get_by_index d1 (-2) = some 99) :=
  ⟨by decide, by decide, by decide, rfl, rfl, _, rfl, by decide, by decide, by decide⟩

/-- On a well-formed list that is not empty, `dlist_insert` at an index outside the range
from `-length` to `length - 1` returns `DLIST_FAIL` and leaves the data sequence and the
length as they were (the node that `init_node` allocated stays allocated). -/
theorem insert_out_of_range_nonempty (d : dlist_t α) (xs : List α) (v : α) (index : Int)
    (h : Valid d xs) (hne : xs ≠ [])
    (hi : (d.length : Int) ≤ index ∨ index < -(d.length : Int)) :
    ∃ d1, dlist_insert d v index = Except.ok (DLIST_FAIL, d1) ∧ Valid d1 xs ∧
      forward d1 = forward d ∧ dlist_get_length d1 = dlist_get_length d := by
  have h0 := valid_observe h
  obtain ⟨as, h1, h2, h3, h4, h5, h6, h7⟩ := h
  have hlen : ¬ d.length = 0 := by
    rw [h0.2.2.1]
    intro hh
    exact hne (List.length_eq_zero.1 hh)
  have n1 : ¬ INSERT_AT = PREPEND := by decide
  have c1 : ¬ (0 ≤ index ∧ index < (d.length : Int)) := by omega
  have c2 : ¬ (index < 0 ∧ -(d.length : Int) ≤ index) := by omega
  have hk : ∀ a ∈ as, a ≠ d.brk := fun a ha => Nat.ne_of_lt (h5 a ha)
  have hk2 : d.brk ∉ as := fun hh => hk _ hh rfl
  have hv : Valid (dlist_t.mk d.head d.tail d.length
      (Function.update d.mem d.brk (some (dnode_t.mk v none none))) (d.brk + 1)) xs :=
    ⟨as, h1, h2, h3, h4, fun a ha => Nat.lt_succ_of_lt (h5 a ha),
      (links_frame _ _ _ _ _ _ hk2).2 h6, (data_frame _ _ _ _ _ hk2).2 h7⟩
  refine ⟨_, ?_, hv, ?_, rfl⟩
  · simp only [dlist_insert, add_node, hlen, if_false, n1, if_true, get_by_index, c1, c2]
  · rw [(valid_observe hv).1, h0.1]

/-- C27 (dlist insert out of range), the failing input: on the empty list, which has no
index in range, `dlist_insert` at every index returns `DLIST_SUCC` and the list then holds
the new data, with length 1. -/
theorem insert_into_empty (v : α) (index : Int) :
    dlist_get_length (dlist_init : dlist_t α) = 0 ∧
    dlist_get_by_index (dlist_init : dlist_t α) index = none ∧
    ∃ d1, dlist_insert (dlist_init : dlist_t α) v index = Except.ok (DLIST_SUCC, d1) ∧
      forward d1 = [v] ∧ dlist_get_length d1 = 1 := by
  obtain ⟨d1, e, hw, -⟩ := add_node_empty dlist_init v INSERT_AT index WF_init
  have h1 := WF_observe hw
  refine ⟨rfl, ?_, d1, e, h1.1, h1.2.2.2.1⟩
  simp only [dlist_get_by_index, get_by_index, dlist_init]
  split_ifs <;> first | rfl | (cases (-index - 1).toNat <;> rfl) | (cases index.toNat <;> rfl)

/-! ## Sorting -/

theorem load_some (m : Nat → Option (dnode_t α)) (a : Nat) (n : dnode_t α)
    (h : m a = some n) : load m (some a) = Except.ok n := by
  simp only [load, h]

/-- The node in the middle of a chain: its data, and its two neighbours. -/
theorem holds_load (m : Nat → Option (dnode_t α)) (A : List Nat) (a : Nat) (B : List Nat)
    (X : List α) (x : α) (Y : List α) (hl : A.length = X.length)
    (h : Holds m (A ++ a :: B) (X ++ x :: Y)) :
    ∃ n, m a = some n ∧ n.data = x ∧ n.prev = last_or none A ∧ n.next = first_or B none := by
  obtain ⟨-, h2, h3⟩ := h
  rw [links_append] at h2
  rw [data_append _ _ _ _ _ hl] at h3
  obtain ⟨-, ⟨n, e, e1, e2⟩, -⟩ := h2
  obtain ⟨-, ⟨n1, e3, e4⟩, -⟩ := h3
  rw [e] at e3
  cases e3
  exact ⟨n, e, e4, e1, e2⟩

/-- Writing the data of the node in the middle of a chain. -/
theorem holds_store (m : Nat → Option (dnode_t α)) (A : List Nat) (a : Nat) (B : List Nat)
    (X : List α) (x : α) (Y : List α) (v : α) (hl : A.length = X.length)
    (h : Holds m (A ++ a :: B) (X ++ x :: Y)) :
    ∃ m1, store_data m (some a) v = Except.ok m1 ∧ Holds m1 (A ++ a :: B) (X ++ v :: Y) := by
  obtain ⟨n, e, -, -, -⟩ := holds_load m A a B X x Y hl h
  obtain ⟨h1, h2, h3⟩ := h
  refine ⟨Function.update m a (some (dnode_t.mk v n.next n.prev)), ?_, h1, ?_, ?_⟩
  · simp only [store_data, e]
  · exact links_same_pointers m a n (dnode_t.mk v n.next n.prev) e rfl rfl none _ none h2
  · rw [data_append _ _ _ _ _ hl] at h3 ⊢
    have ha : a ∉ A := fun hh => (List.nodup_append.1 h1).2.2 hh (by simp)
    have hb : a ∉ B := (List.nodup_cons.1 (List.nodup_append.1 h1).2.1).1
    refine ⟨(data_frame _ _ _ _ _ ha).2 h3.1, ⟨dnode_t.mk v n.next n.prev, by simp, rfl⟩, ?_⟩
    exact (data_frame _ _ _ _ _ hb).2 h3.2.2

/-- Swapping the data of two different nodes of a chain. -/
theorem swap_dnodes_far (m : Nat → Option (dnode_t α)) (A : List Nat) (a : Nat)
    (B : List Nat) (b : Nat) (C : List Nat) (X : List α) (x : α) (Y : List α) (y : α)
    (Z : List α) (hl1 : A.length = X.length) (hl2 : B.length = Y.length)
    (h : Holds m (A ++ a :: (B ++ b :: C)) (X ++ x :: (Y ++ y :: Z))) :
    ∃ m1, swap_dnodes m (some a) (some b) = Except.ok m1 ∧
      Holds m1 (A ++ a :: (B ++ b :: C)) (X ++ y :: (Y ++ x :: Z)) := by
  obtain ⟨na, ea, da, -, -⟩ := holds_load m A a _ X x _ hl1 h
  have hl3 : (A ++ a :: B).length = (X ++ x :: Y).length := by simp [hl1, hl2]
  have e1 : A ++ a :: (B ++ b :: C) = (A ++ a :: B) ++ b :: C := by simp
  have e2 : X ++ x :: (Y ++ y :: Z) = (X ++ x :: Y) ++ y :: Z := by simp
  have h' := h
  rw [e1, e2] at h'
  obtain ⟨nb, eb, db, -, -⟩ := holds_load m _ b C _ y Z hl3 h'
  obtain ⟨m1, s1, k1⟩ := holds_store m A a _ X x _ y hl1 h
  have e3 : X ++ y :: (Y ++ y :: Z) = (X ++ y :: Y) ++ y :: Z := by simp
  have hl4 : (A ++ a :: B).length = (X ++ y :: Y).length := by simp [hl1, hl2]
  rw [e1, e3] at k1
  obtain ⟨m2, s2, k2⟩ := holds_store m1 _ b C _ y Z x hl4 k1
  refine ⟨m2, ?_, ?_⟩
  · simp only [swap_dnodes, load_some m a na ea, load_some m b nb eb, da, db, s1, s2]
  · rw [e1]
    have e4 : X ++ y :: (Y ++ x :: Z) = (X ++ y :: Y) ++ x :: Z := by simp
    rw [e4]
    exact k2

/-- Swapping the data of a node of a chain with itself. -/
theorem swap_dnodes_self (m : Nat → Option (dnode_t α)) (A : List Nat) (a : Nat)
    (B : List Nat) (X : List α) (x : α) (Y : List α) (hl : A.length = X.length)
    (h : Holds m (A ++ a :: B) (X ++ x :: Y)) :
    ∃ m1, swap_dnodes m (some a) (some a) = Except.ok m1 ∧
      Holds m1 (A ++ a :: B) (X ++ x :: Y) := by
  obtain ⟨na, ea, da, -, -⟩ := holds_load m A a _ X x _ hl h
  obtain ⟨m1, s1, k1⟩ := holds_store m A a _ X x _ x hl h
  obtain ⟨m2, s2, k2⟩ := holds_store m1 A a _ X x _ x hl k1
  exact ⟨m2, by simp only [swap_dnodes, load_some m a na ea, da, s1, s2], k2⟩

theorem do_swap_eq (sort : quick_sort_t α) (m : Nat → Option (dnode_t α)) (l r : Option Nat)
    (nl nr : dnode_t α) (h1 : load m l = Except.ok nl) (h2 : load m r = Except.ok nr) :
    do_swap sort m l r = Except.ok (Swaps sort nl.data nr.data) := by
  simp only [do_swap, h1, h2, Swaps]
  split_ifs <;> rfl

theorem last_or_eq_none (as : List Nat) (h : last_or none as = none) : as = [] := by
  rw [last_or_none] at h
  exact List.getLast?_eq_none_iff.1 h

/-- The node after the last node of a front part of a chain is the first node of the
rest. -/
theorem links_next_of_last (m : Nat → Option (dnode_t α)) (P Q : List Nat) (c : Nat)
    (h : Links m none (P ++ Q) none) (hc : last_or none P = some c) :
    ∃ n, load m (some c) = Except.ok n ∧ n.next = first_or Q none := by
  rcases List.eq_nil_or_concat P with rfl | ⟨P1, c1, rfl⟩
  · cases hc
  · rw [List.concat_eq_append] at hc h
    rw [last_or_append_singleton] at hc
    cases hc
    rw [List.append_assoc, links_append] at h
    obtain ⟨-, ⟨n, e, -, e2⟩, -⟩ := h
    exact ⟨n, load_some m _ n e, by simpa [first_or_append] using e2⟩

/-- The node before the first node of a back part of a chain is the last node of the
front. -/
theorem links_prev_of_first (m : Nat → Option (dnode_t α)) (P Q : List Nat) (c : Nat)
    (h : Links m none (P ++ Q) none) (hc : first_or Q none = some c) :
    ∃ n, load m (some c) = Except.ok n ∧ n.prev = last_or none P ∧
      n.next = first_or Q.tail none := by
  cases Q with
  | nil => cases hc
  | cons c1 Q1 =>
    cases hc
    rw [links_append] at h
    obtain ⟨-, ⟨n, e, e1, e2⟩, -⟩ := h
    exact ⟨n, load_some m _ n e, e1, e2⟩

/-- The step `partition_node = (NULL == partition_node) ? left : partition_node->next` moves
to the first node after the front part. -/
theorem advance_spec (m : Nat → Option (dnode_t α)) (A0 AL AG : List Nat) (c : Nat)
    (Rs : List Nat) (left : Option Nat)
    (h : Links m none (A0 ++ (AL ++ (AG ++ c :: Rs))) none)
    (hleft : A0 ++ AL = [] → left = first_or AG (some c)) :
    (if last_or none (A0 ++ AL) = none then Except.ok left
      else
        match load m (last_or none (A0 ++ AL)) with
        | Except.error e => Except.error e
        | Except.ok n => Except.ok n.next : Except fault (Option Nat))
      = Except.ok (first_or AG (some c)) := by
  cases hc : last_or none (A0 ++ AL) with
  | none =>
    rw [if_pos rfl, hleft (last_or_eq_none _ hc)]
  | some c1 =>
    rw [← List.append_assoc] at h
    obtain ⟨n, e, e1⟩ := links_next_of_last m _ _ c1 h hc
    rw [first_or_append] at e1
    simp only [reduceCtorEq, if_false, e, e1]
    rfl

theorem partition_loop_spec (sort : quick_sort_t α) (A0 A1 : List Nat) (X0 X1 : List α)
    (ap : Nat) (p : α) (left : Option Nat) (hl0 : A0.length = X0.length) (AU : List Nat) :
    ∀ (U : List α) (AL AG : List Nat) (L G : List α) (m : Nat → Option (dnode_t α))
      (fuel : Nat),
      AL.length = L.length → AG.length = G.length → AU.length = U.length →
      AU.length ≤ fuel →
      Holds m (A0 ++ (AL ++ (AG ++ (AU ++ ap :: A1))))
        (X0 ++ (L ++ (G ++ (U ++ p :: X1)))) →
      (A0 ++ AL = [] → left = first_or (AG ++ AU) (some ap)) →
      (∀ l ∈ L, Swaps sort l p = true) → (∀ g ∈ G, Swaps sort g p = false) →
      ∃ m1 AL1 AG1 L1 G1,
        partition_loop sort left (some ap) fuel m (first_or AU (some ap))
            (last_or none (A0 ++ AL))
          = Except.ok (m1, last_or none (A0 ++ AL1)) ∧
        Holds m1 (A0 ++ (AL1 ++ (AG1 ++ ap :: A1))) (X0 ++ (L1 ++ (G1 ++ p :: X1))) ∧
        AL1 ++ AG1 = AL ++ (AG ++ AU) ∧ AL1.length = L1.length ∧
        AG1.length = G1.length ∧ (L1 ++ G1).Perm (L ++ (G ++ U)) ∧
        (∀ l ∈ L1, Swaps sort l p = true) ∧ (∀ g ∈ G1, Swaps sort g p = false) := by
  induction AU with
  | nil =>
    intro U AL AG L G m fuel h1 h2 h3 _ hh _ hL hG
    cases U with
    | cons u U => simp at h3
    | nil =>
      refine ⟨m, AL, AG, L, G, ?_, by simpa using hh, by simp, h1, h2, by simp, hL, hG⟩
      rw [partition_loop.eq_def]
      simp [first_or]
  | cons au AU ih =>
    intro U AL AG L G m fuel h1 h2 h3 h4 hh hleft hL hG
    cases U with
    | nil => simp at h3
    | cons u U =>
      cases fuel with
      | zero => simp at h4
      | succ k =>
        have h3a : AU.length = U.length := by simpa using h3
        have h4a : AU.length ≤ k := by simpa using h4
        -- the node under the index, and the pivot
        have ea : A0 ++ (AL ++ (AG ++ (au :: AU ++ ap :: A1)))
            = (A0 ++ (AL ++ AG)) ++ au :: (AU ++ ap :: A1) := by simp
        have ex : X0 ++ (L ++ (G ++ (u :: U ++ p :: X1)))
            = (X0 ++ (L ++ G)) ++ u :: (U ++ p :: X1) := by simp
        have la : (A0 ++ (AL ++ AG)).length = (X0 ++ (L ++ G)).length := by
          simp [hl0, h1, h2]
        have hh1 := hh
        rw [ea, ex] at hh1
        obtain ⟨nu, eu, du, -, nxu⟩ := holds_load m _ au _ _ u _ la hh1
        have ea2 : A0 ++ (AL ++ (AG ++ (au :: AU ++ ap :: A1)))
            = (A0 ++ (AL ++ (AG ++ au :: AU))) ++ ap :: A1 := by simp
        have ex2 : X0 ++ (L ++ (G ++ (u :: U ++ p :: X1)))
            = (X0 ++ (L ++ (G ++ u :: U))) ++ p :: X1 := by simp
        have la2 : (A0 ++ (AL ++ (AG ++ au :: AU))).length
            = (X0 ++ (L ++ (G ++ u :: U))).length := by
          simp [hl0, h1, h2, h3a]
        have hh2 := hh
        rw [ea2, ex2] at hh2
        obtain ⟨np, ep, dp, -, -⟩ := holds_load m _ ap _ _ p _ la2 hh2
        have hne : ¬ (some au = some ap) := by
          intro hc
          cases hc
          have hnd := hh.1
          rw [ea] at hnd
          have := (List.nodup_cons.1 (List.nodup_append.1 hnd).2.1).1
          exact this (by simp)
        have hds := do_swap_eq sort m (some au) (some ap) nu np (load_some m _ _ eu)
          (load_some m _ _ ep)
        rw [du, dp] at hds
        have hnx : nu.next = first_or AU (some ap) := by
          rw [nxu, first_or_append]
          rfl
        have hfirst : first_or (au :: AU) (some ap) = some au := rfl
        cases hb : Swaps sort u p with
        | false =>
          have e3 : A0 ++ (AL ++ (AG ++ (au :: AU ++ ap :: A1)))
              = A0 ++ (AL ++ ((AG ++ [au]) ++ (AU ++ ap :: A1))) := by simp
          have e4 : X0 ++ (L ++ (G ++ (u :: U ++ p :: X1)))
              = X0 ++ (L ++ ((G ++ [u]) ++ (U ++ p :: X1))) := by simp
          have hh3 := hh
          rw [e3, e4] at hh3
          obtain ⟨m1, AL1, AG1, L1, G1, r1, r2, r3, r4, r5, r6, r7, r8⟩ :=
            ih U AL (AG ++ [au]) L (G ++ [u]) m k h1 (by simp [h2]) h3a h4a hh3
              (fun hc => by
                rw [hleft hc]
                congr 1
                simp)
              hL
              (fun g hg => by
                rcases List.mem_append.1 hg with hg | hg
                · exact hG g hg
                · rw [List.mem_singleton] at hg
                  rw [hg]
                  exact hb)
          refine ⟨m1, AL1, AG1, L1, G1, ?_, r2, by rw [r3]; simp, r4, r5, ?_, r7, r8⟩
          · rw [partition_loop, hfirst]
            simp only [hne, if_false, hds, hb, Bool.false_eq_true, load_some m _ _ eu, hnx]
            exact r1
          · refine r6.trans ?_
            simp
        | true =>
          have hadv := advance_spec m A0 AL AG au (AU ++ ap :: A1) left hh.2.1
            (fun hc => by
              rw [hleft hc, first_or_append]
              rfl)
          cases AG with
          | nil =>
            cases G with
            | cons g G => simp at h2
            | nil =>
              have e5 : A0 ++ (AL ++ ([] ++ (au :: AU ++ ap :: A1)))
                  = (A0 ++ AL) ++ au :: (AU ++ ap :: A1) := by simp
              have e6 : X0 ++ (L ++ ([] ++ (u :: U ++ p :: X1)))
                  = (X0 ++ L) ++ u :: (U ++ p :: X1) := by simp
              have la3 : (A0 ++ AL).length = (X0 ++ L).length := by simp [hl0, h1]
              have hh3 := hh
              rw [e5, e6] at hh3
              obtain ⟨m1, s1, k1⟩ := swap_dnodes_self m _ au _ _ u _ la3 hh3
              obtain ⟨nu1, eu1, -, -, nxu1⟩ := holds_load m1 _ au _ _ u _ la3 k1
              have hnx1 : nu1.next = first_or AU (some ap) := by
                rw [nxu1, first_or_append]
                rfl
              have e7 : (A0 ++ AL) ++ au :: (AU ++ ap :: A1)
                  = A0 ++ ((AL ++ [au]) ++ ([] ++ (AU ++ ap :: A1))) := by simp
              have e8 : (X0 ++ L) ++ u :: (U ++ p :: X1)
                  = X0 ++ ((L ++ [u]) ++ ([] ++ (U ++ p :: X1))) := by simp
              rw [e7, e8] at k1
              obtain ⟨m2, AL1, AG1, L1, G1, r1, r2, r3, r4, r5, r6, r7, r8⟩ :=
                ih U (AL ++ [au]) [] (L ++ [u]) [] m1 k (by simp [h1]) rfl h3a h4a k1
                  (fun hc => by simp at hc)
                  (fun l hl => by
                    rcases List.mem_append.1 hl with hl | hl
                    · exact hL l hl
                    · rw [List.mem_singleton] at hl
                      rw [hl]
                      exact hb)
                  (fun g hg => by simp at hg)
              have hlast : last_or none (A0 ++ (AL ++ [au])) = some au := by
                rw [← List.append_assoc, last_or_append_singleton]
              rw [hlast] at r1
              refine ⟨m2, AL1, AG1, L1, G1, ?_, r2, by rw [r3]; simp, r4, r5, ?_, r7, r8⟩
              · rw [partition_loop, hfirst]
                have hadv1 : first_or [] (some au) = some au := rfl
                rw [hadv1] at hadv
                simp only [hne, if_false, hds, hb, if_true, hadv, s1,
                  load_some m1 _ _ eu1, hnx1]
                exact r1
              · refine r6.trans ?_
                simp
          | cons ag AG2 =>
            cases G with
            | nil => simp at h2
            | cons g G2 =>
              have h2a : AG2.length = G2.length := by simpa using h2
              have e5 : A0 ++ (AL ++ (ag :: AG2 ++ (au :: AU ++ ap :: A1)))
                  = (A0 ++ AL) ++ ag :: (AG2 ++ au :: (AU ++ ap :: A1)) := by simp
              have e6 : X0 ++ (L ++ (g :: G2 ++ (u :: U ++ p :: X1)))
                  = (X0 ++ L) ++ g :: (G2 ++ u :: (U ++ p :: X1)) := by simp
              have la3 : (A0 ++ AL).length = (X0 ++ L).length := by simp [hl0, h1]
              have hh3 := hh
              rw [e5, e6] at hh3
              obtain ⟨m1, s1, k1⟩ := swap_dnodes_far m _ ag AG2 au _ _ g G2 u _ la3 h2a hh3
              have e7 : (A0 ++ AL) ++ ag :: (AG2 ++ au :: (AU ++ ap :: A1))
                  = (A0 ++ (AL ++ (ag :: AG2))) ++ au :: (AU ++ ap :: A1) := by simp
              have e8 : (X0 ++ L) ++ u :: (G2 ++ g :: (U ++ p :: X1))
                  = (X0 ++ (L ++ (u :: G2))) ++ g :: (U ++ p :: X1) := by simp
              have la4 : (A0 ++ (AL ++ (ag :: AG2))).length
                  = (X0 ++ (L ++ (u :: G2))).length := by simp [hl0, h1, h2a]
              have k2 := k1
              rw [e7, e8] at k2
              obtain ⟨nu1, eu1, -, -, nxu1⟩ := holds_load m1 _ au _ _ g _ la4 k2
              have hnx1 : nu1.next = first_or AU (some ap) := by
                rw [nxu1, first_or_append]
                rfl
              have e9 : (A0 ++ AL) ++ ag :: (AG2 ++ au :: (AU ++ ap :: A1))
                  = A0 ++ ((AL ++ [ag]) ++ ((AG2 ++ [au]) ++ (AU ++ ap :: A1))) := by simp
              have e10 : (X0 ++ L) ++ u :: (G2 ++ g :: (U ++ p :: X1))
                  = X0 ++ ((L ++ [u]) ++ ((G2 ++ [g]) ++ (U ++ p :: X1))) := by simp
              rw [e9, e10] at k1
              obtain ⟨m2, AL1, AG1, L1, G1, r1, r2, r3, r4, r5, r6, r7, r8⟩ :=
                ih U (AL ++ [ag]) (AG2 ++ [au]) (L ++ [u]) (G2 ++ [g]) m1 k (by simp [h1])
                  (by simp [h2a]) h3a h4a k1
                  (fun hc => by simp at hc)
                  (fun l hl => by
                    rcases List.mem_append.1 hl with hl | hl
                    · exact hL l hl
                    · rw [List.mem_singleton] at hl
                      rw [hl]
                      exact hb)
                  (fun g1 hg => by
                    rcases List.mem_append.1 hg with hg | hg
                    · exact hG g1 (List.mem_cons_of_mem _ hg)
                    · rw [List.mem_singleton] at hg
                      rw [hg]
                      exact hG g (List.mem_cons_self _ _))
              have hlast : last_or none (A0 ++ (AL ++ [ag])) = some ag := by
                rw [← List.append_assoc, last_or_append_singleton]
              rw [hlast] at r1
              refine ⟨m2, AL1, AG1, L1, G1, ?_, r2, by rw [r3]; simp, r4, r5, ?_, r7, r8⟩
              · rw [partition_loop, hfirst]
                have hadv1 : first_or (ag :: AG2) (some au) = some ag := rfl
                rw [hadv1] at hadv
                simp only [hne, if_false, hds, hb, if_true, hadv, s1,
                  load_some m1 _ _ eu1, hnx1]
                exact r1
              · refine r6.trans ?_
                simp only [List.append_assoc, List.singleton_append, List.cons_append,
                  List.nil_append]
                refine List.Perm.append_left L ?_
                have q1 : (u :: (G2 ++ g :: U)).Perm (u :: g :: (G2 ++ U)) :=
                  List.Perm.cons u List.perm_middle
                have q2 : (g :: (G2 ++ u :: U)).Perm (g :: u :: (G2 ++ U)) :=
                  List.Perm.cons g List.perm_middle
                exact q1.trans ((List.Perm.swap g u _).trans q2.symm)

/-- The function `partition` on the segment `S ++ [ap]` of a chain: the pivot data `p` end up
at the returned node, the data that `do_swap` accepts before it and the others after it. -/
theorem partition_spec (sort : quick_sort_t α) (A0 A1 : List Nat) (X0 X1 : List α)
    (S : List Nat) (ap : Nat) (XS : List α) (p : α) (m : Nat → Option (dnode_t α))
    (fuel : Nat) (hl0 : A0.length = X0.length) (hl1 : S.length = XS.length)
    (hf : S.length ≤ fuel)
    (hh : Holds m (A0 ++ (S ++ ap :: A1)) (X0 ++ (XS ++ p :: X1))) :
    ∃ m1 AL q AR L G,
      partition sort fuel m (first_or S (some ap)) (some ap) = Except.ok (m1, some q) ∧
      Holds m1 (A0 ++ (AL ++ q :: (AR ++ A1))) (X0 ++ (L ++ p :: (G ++ X1))) ∧
      AL ++ q :: AR = S ++ [ap] ∧ AL.length = L.length ∧ AR.length = G.length ∧
      (L ++ G).Perm XS ∧ (∀ l ∈ L, Swaps sort l p = true) ∧
      (∀ g ∈ G, Swaps sort g p = false) := by
  -- the node `left`
  have hfo : ∃ c, first_or (S ++ ap :: A1) none = some c ∧ first_or S (some ap) = some c := by
    cases S with
    | nil => exact ⟨ap, rfl, rfl⟩
    | cons s S => exact ⟨s, rfl, rfl⟩
  obtain ⟨c, hc1, hc2⟩ := hfo
  obtain ⟨nl, el, pl, -⟩ := links_prev_of_first m A0 _ c hh.2.1 hc1
  have e1 : A0 ++ (S ++ ap :: A1) = A0 ++ ([] ++ ([] ++ (S ++ ap :: A1))) := by simp
  have e2 : X0 ++ (XS ++ p :: X1) = X0 ++ ([] ++ ([] ++ (XS ++ p :: X1))) := by simp
  have hh1 := hh
  rw [e1, e2] at hh1
  obtain ⟨m1, AL1, AG1, L1, G1, r1, r2, r3, r4, r5, r6, r7, r8⟩ :=
    partition_loop_spec sort A0 A1 X0 X1 ap p (first_or S (some ap)) hl0 S XS [] [] [] [] m
      fuel rfl rfl hl1 hf hh1 (fun _ => rfl) (fun l hl => by simp at hl)
      (fun g hg => by simp at hg)
  simp only [List.nil_append, List.append_nil] at r1 r3 r6
  have hadv := advance_spec m1 A0 AL1 AG1 ap A1 (first_or S (some ap)) r2.2.1
    (fun hc => by
      have hc3 : AL1 = [] := (List.append_eq_nil.1 hc).2
      rw [← r3, hc3]
      rfl)
  cases AG1 with
  | nil =>
    cases G1 with
    | cons g G => simp at r5
    | nil =>
      have e5 : A0 ++ (AL1 ++ ([] ++ ap :: A1)) = (A0 ++ AL1) ++ ap :: A1 := by simp
      have e6 : X0 ++ (L1 ++ ([] ++ p :: X1)) = (X0 ++ L1) ++ p :: X1 := by simp
      have la : (A0 ++ AL1).length = (X0 ++ L1).length := by simp [hl0, r4]
      have r2a := r2
      rw [e5, e6] at r2a
      obtain ⟨m2, s1, k1⟩ := swap_dnodes_self m1 _ ap _ _ p _ la r2a
      refine ⟨m2, AL1, ap, [], L1, [], ?_, ?_, ?_, r4, rfl, by simpa using r6, r7,
        fun g hg => by simp at hg⟩
      · have hadv1 : first_or [] (some ap) = some ap := rfl
        rw [hadv1] at hadv
        simp only [partition, hc2, el, pl, r1, hadv, s1]
        rw [← hc2]
        simp only [r1, hadv, s1]
      · simpa using k1
      · rw [← r3]
        simp
  | cons ag AG2 =>
    cases G1 with
    | nil => simp at r5
    | cons g G2 =>
      have r5a : AG2.length = G2.length := by simpa using r5
      have e5 : A0 ++ (AL1 ++ (ag :: AG2 ++ ap :: A1))
          = (A0 ++ AL1) ++ ag :: (AG2 ++ ap :: A1) := by simp
      have e6 : X0 ++ (L1 ++ (g :: G2 ++ p :: X1))
          = (X0 ++ L1) ++ g :: (G2 ++ p :: X1) := by simp
      have la : (A0 ++ AL1).length = (X0 ++ L1).length := by simp [hl0, r4]
      have r2a := r2
      rw [e5, e6] at r2a
      obtain ⟨m2, s1, k1⟩ := swap_dnodes_far m1 _ ag AG2 ap A1 _ g G2 p X1 la r5a r2a
      refine ⟨m2, AL1, ag, AG2 ++ [ap], L1, G2 ++ [g], ?_, ?_, ?_, r4, by simp [r5a], ?_, r7,
        ?_⟩
      · have hadv1 : first_or (ag :: AG2) (some ap) = some ag := rfl
        rw [hadv1] at hadv
        simp only [partition, hc2, el, pl]
        rw [← hc2]
        simp only [r1, hadv, s1]
      · simpa using k1
      · rw [← r3]
        simp
      · refine List.Perm.trans ?_ r6
        refine List.Perm.append_left L1 ?_
        exact (List.perm_append_singleton g G2)
      · intro g1 hg
        rcases List.mem_append.1 hg with hg | hg
        · exact r8 g1 (List.mem_cons_of_mem _ hg)
        · rw [List.mem_singleton] at hg
          rw [hg]
          exact r8 g (List.mem_cons_self _ _)

/-- The call `quick_sort(sort, left, partition_node->prev)` when the partition node is
`left`: nothing is done. -/
theorem quick_sort_skip_left (sort : quick_sort_t α) (m : Nat → Option (dnode_t α))
    (A0 : List Nat) (q : Nat) (Rs : List Nat) (fuel : Nat)
    (h : Links m none (A0 ++ q :: Rs) none) :
    quick_sort sort fuel m (some q) (last_or none A0) = Except.ok m := by
  cases hc : last_or none A0 with
  | none =>
    cases fuel <;> rfl
  | some c =>
    obtain ⟨n, e, e1⟩ := links_next_of_last m A0 (q :: Rs) c h hc
    have e2 : n.next = some q := e1
    cases fuel <;> simp only [quick_sort, e, e2, if_true] <;> split_ifs <;> rfl

/-- The call `quick_sort(sort, partition_node->next, right)` when the partition node is
`right`: nothing is done. -/
theorem quick_sort_skip_right (sort : quick_sort_t α) (m : Nat → Option (dnode_t α))
    (P : List Nat) (ap : Nat) (A1 : List Nat) (fuel : Nat)
    (h : Links m none (P ++ ap :: A1) none) :
    quick_sort sort fuel m (first_or A1 none) (some ap) = Except.ok m := by
  rw [links_append] at h
  obtain ⟨-, ⟨n, e, -, e2⟩, -⟩ := h
  cases fuel <;> simp only [quick_sort, load_some m ap n e, e2, if_true] <;>
    split_ifs <;> rfl

/-- The function `quick_sort` on a segment `S` of a chain, with enough fuel: the data of the
segment are permuted into an order in which every element is related to every later one, and
the rest of the chain keeps its data. -/
theorem quick_sort_spec (sort : quick_sort_t α) (R : α → α → Prop)
    (hs : ∀ x y, Swaps sort x y = true ↔ R x y) (htot : ∀ x y, R x y ∨ R y x)
    (htr : ∀ x y z, R x y → R y z → R x z) :
    ∀ (fuel : Nat) (S : List Nat) (XS : List α) (A0 A1 : List Nat) (X0 X1 : List α)
      (m : Nat → Option (dnode_t α)),
      S ≠ [] → A0.length = X0.length → S.length = XS.length → S.length ≤ fuel →
      Holds m (A0 ++ (S ++ A1)) (X0 ++ (XS ++ X1)) →
      ∃ m1 YS, quick_sort sort fuel m S.head? S.getLast? = Except.ok m1 ∧
        Holds m1 (A0 ++ (S ++ A1)) (X0 ++ (YS ++ X1)) ∧ YS.Perm XS ∧ YS.Pairwise R := by
  intro fuel
  induction fuel with
  | zero =>
    intro S XS A0 A1 X0 X1 m hne _ _ hf _
    exact absurd (List.length_eq_zero.1 (Nat.le_zero.1 hf)) hne
  | succ k ih =>
    intro S XS A0 A1 X0 X1 m hne hl0 hl1 hf hh
    rcases List.eq_nil_or_concat S with rfl | ⟨S1, ap, rfl⟩
    · exact absurd rfl hne
    rcases List.eq_nil_or_concat XS with rfl | ⟨XS1, p, rfl⟩
    · simp at hl1
    simp only [List.concat_eq_append] at hl1 hf hh ⊢
    have hl2 : S1.length = XS1.length := by simpa using hl1
    have hlast : (S1 ++ [ap]).getLast? = some ap := by simp
    have hhead : (S1 ++ [ap]).head? = first_or S1 (some ap) := by cases S1 <;> rfl
    rw [hlast, hhead]
    cases S1 with
    | nil =>
      cases XS1 with
      | cons x XS2 => simp at hl2
      | nil =>
        refine ⟨m, [p], ?_, hh, List.Perm.refl _, List.pairwise_singleton _ _⟩
        simp [quick_sort, first_or]
    | cons s S2 =>
      cases XS1 with
      | nil => simp at hl2
      | cons x XS2 =>
        have e1 : A0 ++ (s :: S2 ++ [ap] ++ A1) = A0 ++ (s :: S2 ++ ap :: A1) := by simp
        have e2 : X0 ++ (x :: XS2 ++ [p] ++ X1) = X0 ++ (x :: XS2 ++ p :: X1) := by simp
        rw [e1, e2] at hh
        rw [e1]
        have hfk : (s :: S2).length ≤ k := by
          simp only [List.length_append, List.length_singleton] at hf
          omega
        obtain ⟨m1, AL, q, AR, L, G, r1, r2, r3, r4, r5, r6, r7, r8⟩ :=
          partition_spec sort A0 A1 X0 X1 (s :: S2) ap (x :: XS2) p m k hl0 hl2 hfk hh
        have hfirst : first_or (s :: S2) (some ap) = some s := rfl
        rw [hfirst] at r1 ⊢
        -- the guard of `quick_sort`
        have e3 : A0 ++ (s :: S2 ++ ap :: A1) = (A0 ++ s :: S2) ++ ap :: A1 := by simp
        have hl3 := hh.2.1
        rw [e3, links_append] at hl3
        obtain ⟨-, ⟨np, ep, -, nxp⟩, -⟩ := hl3
        have nxp1 : np.next = first_or A1 none := nxp
        have hnd := hh.1
        have hn1 : ¬ (some s = some ap) := by
          intro hc
          cases hc
          rw [List.nodup_append] at hnd
          have h5 := (List.nodup_cons.1 hnd.2.1).1
          exact h5 (by simp)
        have hn2 : ¬ (some s = first_or A1 none) := by
          intro hc
          cases A1 with
          | nil => cases hc
          | cons c A2 =>
            cases hc
            rw [List.nodup_append] at hnd
            have h5 := (List.nodup_cons.1 hnd.2.1).1
            exact h5 (by simp)
        have hsz : AL.length + 1 + AR.length = S2.length + 2 := by
          have := congrArg List.length r3
          simp only [List.length_append, List.length_cons, List.length_singleton,
            List.length_nil] at this
          omega
        have hk2 : S2.length + 1 ≤ k := by simpa using hfk
        -- the partition node
        have e4 : A0 ++ (AL ++ q :: (AR ++ A1)) = (A0 ++ AL) ++ q :: (AR ++ A1) := by simp
        have e5 : X0 ++ (L ++ p :: (G ++ X1)) = (X0 ++ L) ++ p :: (G ++ X1) := by simp
        have la : (A0 ++ AL).length = (X0 ++ L).length := by simp [hl0, r4]
        have r2a := r2
        rw [e4, e5] at r2a
        obtain ⟨n1, en1, -, pv1, -⟩ := holds_load m1 _ q _ _ p _ la r2a
        -- the left part
        have hleft : ∃ m2 L2,
            quick_sort sort k m1 (some s) (last_or none (A0 ++ AL)) = Except.ok m2 ∧
            Holds m2 (A0 ++ (AL ++ q :: (AR ++ A1))) (X0 ++ (L2 ++ p :: (G ++ X1))) ∧
            L2.Perm L ∧ L2.Pairwise R := by
          cases AL with
          | nil =>
            cases L with
            | cons l L => simp at r4
            | nil =>
              have hq : q = s := by
                have := congrArg List.head? r3
                simpa using this
              subst hq
              refine ⟨m1, [], ?_, r2, List.Perm.refl _, List.Pairwise.nil⟩
              rw [List.append_nil]
              exact quick_sort_skip_left sort m1 A0 q (AR ++ A1) k (by simpa using r2.2.1)
          | cons a AL1 =>
            have ha : a = s := by
              have := congrArg List.head? r3
              simpa using this
            subst ha
            obtain ⟨m2, L2, t1, t2, t3, t4⟩ :=
              ih (a :: AL1) L A0 (q :: (AR ++ A1)) X0 (p :: (G ++ X1)) m1 (by simp) hl0 r4
                (by simp only [List.length_cons] at hsz ⊢; omega) r2
            refine ⟨m2, L2, ?_, t2, t3, t4⟩
            have e6 : last_or none (A0 ++ a :: AL1) = (a :: AL1).getLast? := by
              rw [last_or_none, List.getLast?_append_of_ne_nil _ (by simp)]
            rw [e6]
            exact t1
        obtain ⟨m2, L2, t1, t2, t3, t4⟩ := hleft
        have la2 : (A0 ++ AL).length = (X0 ++ L2).length := by
          simp [hl0, r4, t3.length_eq]
        have e7 : X0 ++ (L2 ++ p :: (G ++ X1)) = (X0 ++ L2) ++ p :: (G ++ X1) := by simp
        have t2a := t2
        rw [e4, e7] at t2a
        obtain ⟨n2, en2, -, -, nx2⟩ := holds_load m2 _ q _ _ p _ la2 t2a
        -- the right part
        have hright : ∃ m3 G3,
            quick_sort sort k m2 (first_or (AR ++ A1) none) (some ap) = Except.ok m3 ∧
            Holds m3 (A0 ++ (AL ++ q :: (AR ++ A1))) (X0 ++ (L2 ++ p :: (G3 ++ X1))) ∧
            G3.Perm G ∧ G3.Pairwise R := by
          rcases List.eq_nil_or_concat AR with rfl | ⟨AR1, b, rfl⟩
          · cases G with
            | cons g G => simp at r5
            | nil =>
              have hq : q = ap := by
                have := (List.append_inj' r3 rfl).2
                simpa using this
              subst hq
              refine ⟨m2, [], ?_, t2, List.Perm.refl _, List.Pairwise.nil⟩
              have := quick_sort_skip_right sort m2 (A0 ++ AL) q A1 k
                (by simpa using t2.2.1)
              simpa using this
          · rw [List.concat_eq_append] at r3 r5 t2 hsz ⊢
            have hb : b = ap := by
              have r3a : (AL ++ q :: AR1) ++ [b] = (s :: S2) ++ [ap] := by
                rw [← r3]
                simp
              have := (List.append_inj' r3a rfl).2
              simpa using this
            subst hb
            have e8 : A0 ++ (AL ++ q :: (AR1 ++ [b] ++ A1))
                = (A0 ++ (AL ++ [q])) ++ ((AR1 ++ [b]) ++ A1) := by simp
            have e9 : X0 ++ (L2 ++ p :: (G ++ X1))
                = (X0 ++ (L2 ++ [p])) ++ (G ++ X1) := by simp
            have t2b := t2
            rw [e8, e9] at t2b
            obtain ⟨m3, G3, u1, u2, u3, u4⟩ :=
              ih (AR1 ++ [b]) G (A0 ++ (AL ++ [q])) A1 (X0 ++ (L2 ++ [p])) X1 m2 (by simp)
                (by simp [hl0, r4, t3.length_eq]) r5
                (by
                  simp only [List.length_append, List.length_singleton] at hsz ⊢
                  omega) t2b
            refine ⟨m3, G3, ?_, ?_, u3, u4⟩
            · have e10 : first_or (AR1 ++ [b] ++ A1) none = (AR1 ++ [b]).head? := by
                cases AR1 <;> rfl
              have e11 : (AR1 ++ [b]).getLast? = some b := by simp
              rw [e10, ← e11]
              exact u1
            · rw [e8]
              have e12 : X0 ++ (L2 ++ p :: (G3 ++ X1))
                  = (X0 ++ (L2 ++ [p])) ++ (G3 ++ X1) := by simp
              rw [e12]
              exact u2
        obtain ⟨m3, G3, u1, u2, u3, u4⟩ := hright
        refine ⟨m3, L2 ++ p :: G3, ?_, ?_, ?_, ?_⟩
        · rw [quick_sort]
          simp only [hn1, if_false, load_some m ap np ep, nxp1, hn2, r1,
            load_some m1 q n1 en1, pv1, t1, load_some m2 q n2 en2, nx2, u1]
        · have e13 : A0 ++ (s :: S2 ++ ap :: A1) = A0 ++ (AL ++ q :: (AR ++ A1)) := by
            have : s :: S2 ++ ap :: A1 = (s :: S2 ++ [ap]) ++ A1 := by simp
            rw [this, ← r3]
            simp
          rw [e13]
          simpa using u2
        · have c1 : (L2 ++ p :: G3).Perm (L ++ p :: G) :=
            List.Perm.append t3 (List.Perm.cons p u3)
          have c2 : (L ++ p :: G).Perm (p :: (L ++ G)) := List.perm_middle
          have c3 : (p :: (L ++ G)).Perm (p :: (x :: XS2)) := List.Perm.cons p r6
          have c4 : (p :: (x :: XS2)).Perm (x :: XS2 ++ [p]) :=
            (List.perm_append_singleton p (x :: XS2)).symm
          exact c1.trans (c2.trans (c3.trans c4))
        · have hLp : ∀ l ∈ L2, R l p := fun l hl => (hs l p).1 (r7 l (t3.subset hl))
          have hpG : ∀ g ∈ G3, R p g := by
            intro g hg
            have h1 := r8 g (u3.subset hg)
            rcases htot p g with h2 | h2
            · exact h2
            · rw [(hs g p).2 h2] at h1
              cases h1
          rw [List.pairwise_append]
          refine ⟨t4, List.pairwise_cons.2 ⟨hpG, u4⟩, ?_⟩
          intro l hl g hg
          rcases List.mem_cons.1 hg with rfl | hg
          · exact hLp l hl
          · exact htr l p g (hLp l hl) (hpG g hg)

theorem swaps_iff_in_order (direction : sort_direction_t) (f : α → α → dlist_compare_t)
    (x y : α) :
    Swaps (quick_sort_t.mk direction f) x y = true ↔ InOrder direction f x y := by
  cases direction <;> simp [Swaps, InOrder]

theorem in_order_total (f : α → α → dlist_compare_t) (hf : TotalPreorder f)
    (direction : sort_direction_t) (x y : α) :
    InOrder direction f x y ∨ InOrder direction f y x := by
  cases direction with
  | ASCENDING =>
    by_cases h : f x y = DLIST_GT
    · right
      show f y x ≠ DLIST_GT
      rw [(hf.1 x y).1 h]
      decide
    · exact Or.inl h
  | DESCENDING =>
    by_cases h : f x y = DLIST_LT
    · right
      show f y x ≠ DLIST_LT
      rw [(hf.1 y x).2 h]
      decide
    · exact Or.inl h

theorem in_order_trans (f : α → α → dlist_compare_t) (hf : TotalPreorder f)
    (direction : sort_direction_t) (x y z : α) (h1 : InOrder direction f x y)
    (h2 : InOrder direction f y z) : InOrder direction f x z := by
  cases direction with
  | ASCENDING => exact hf.2 x y z h1 h2
  | DESCENDING =>
    have k1 : f y x ≠ DLIST_GT := fun hc => h1 ((hf.1 y x).1 hc)
    have k2 : f z y ≠ DLIST_GT := fun hc => h2 ((hf.1 z y).1 hc)
    have k3 := hf.2 z y x k2 k1
    exact fun hc => k3 ((hf.1 z x).2 hc)

theorem compare_int_total : TotalPreorder compare_int := by
  constructor
  · intro a b
    unfold compare_int
    split_ifs
    all_goals first | omega | simp
  · intro a b c
    unfold compare_int
    split_ifs
    all_goals first | omega | simp

/-- The function `dlist_quick_sort` on a well-formed list, with enough fuel: the nodes stay
where they are, and their data are permuted into the requested order. -/
theorem dlist_quick_sort_WF (fuel : Nat) (d : dlist_t α) (as : List Nat) (xs : List α)
    (direction : sort_direction_t) (f : α → α → dlist_compare_t) (hf : TotalPreorder f)
    (h : WF d as xs) (hfuel : d.length ≤ fuel) :
    ∃ d1 ys, dlist_quick_sort fuel d direction f = Except.ok d1 ∧ WF d1 as ys ∧
      ys.Perm xs ∧ ys.Pairwise (InOrder direction f) ∧ d1.length = d.length := by
  have hlen := data_length _ _ _ h.2.2.2.2.2.2
  by_cases hlt : 2 > d.length
  · refine ⟨d, xs, by simp only [dlist_quick_sort, hlt, if_true], h, List.Perm.refl _, ?_, rfl⟩
    rw [h.2.2.1, hlen] at hlt
    cases xs with
    | nil => exact List.Pairwise.nil
    | cons x xs =>
      cases xs with
      | nil => exact List.pairwise_singleton _ _
      | cons y ys =>
        simp only [List.length_cons] at hlt
        omega
  · obtain ⟨h1, h2, h3, h4, h5, h6, h7⟩ := h
    have hne : as ≠ [] := by
      intro hc
      rw [hc] at h3
      rw [h3] at hlt
      exact hlt (by decide)
    have hh : Holds d.mem ([] ++ (as ++ [])) ([] ++ (xs ++ [])) := by
      simpa using (⟨h4, h6, h7⟩ : Holds d.mem as xs)
    obtain ⟨m1, ys, r1, r2, r3, r4⟩ :=
      quick_sort_spec (quick_sort_t.mk direction f) (InOrder direction f)
        (swaps_iff_in_order direction f) (in_order_total f hf direction)
        (in_order_trans f hf direction) fuel as xs [] [] [] [] d.mem hne rfl hlen
        (by rw [← h3]; exact hfuel) hh
    have r2a : Holds m1 as ys := by simpa using r2
    refine ⟨dlist_t.mk d.head d.tail d.length m1 d.brk, ys, ?_, ?_, r3, r4, rfl⟩
    · rw [← h1, ← h2] at r1
      simp only [dlist_quick_sort, hlt, if_false, r1]
    · exact ⟨h1, h2, h3, h4, h5, r2a.2.1, r2a.2.2⟩

/-- C28 (dlist quick sort): on a well-formed list with the data sequence `xs`, for a
three-way comparator that is a total preorder and either direction, `dlist_quick_sort` with
fuel not less than the length returns; the nodes are the same and linked as before, the
length is unchanged, the head-to-tail data sequence is a permutation of `xs`, and in it
every element is in the requested order with its successor, and with every later element:
with `ASCENDING` it does not compare `GT`, with `DESCENDING` it does not compare `LT`. -/
theorem quick_sort_sorts (fuel : Nat) (d : dlist_t α) (xs : List α)
    (direction : sort_direction_t) (f : α → α → dlist_compare_t) (hf : TotalPreorder f)
    (h : Valid d xs) (hfuel : dlist_get_length d ≤ fuel) :
    ∃ d1, dlist_quick_sort fuel d direction f = Except.ok d1 ∧
      (∃ as, WF d as xs ∧ WF d1 as (forward d1)) ∧
      (forward d1).Perm xs ∧ dlist_get_length d1 = dlist_get_length d ∧
      (forward d1).Chain' (InOrder direction f) ∧
      (forward d1).Pairwise (InOrder direction f) ∧
      backward d1 = (forward d1).reverse := by
  obtain ⟨as, hw⟩ := h
  obtain ⟨d1, ys, r1, r2, r3, r4, r5⟩ := dlist_quick_sort_WF fuel d as xs direction f hf hw hfuel
  have h1 := WF_observe r2
  refine ⟨d1, r1, ?_⟩
  rw [h1.1]
  exact ⟨⟨as, hw, r2⟩, r3, r5, List.Pairwise.chain' r4, r4, h1.2.1⟩

theorem quick_sort_sorts_witness :
    TotalPreorder compare_int ∧ Valid (build [5, 3, 8, 1] : dlist_t Int) [5, 3, 8, 1] ∧
    dlist_get_length (build [5, 3, 8, 1] : dlist_t Int) ≤ 4 ∧
    (∃ d1, dlist_quick_sort 4 (build [5, 3, 8, 1] : dlist_t Int) DESCENDING compare_int
        = Except.ok d1 ∧
      (∃ as, WF (build [5, 3, 8, 1] : dlist_t Int) as [5, 3, 8, 1] ∧
        WF d1 as (forward d1)) ∧
      (forward d1).Perm [5, 3, 8, 1] ∧
      dlist_get_length d1 = dlist_get_length (build [5, 3, 8, 1] : dlist_t Int) ∧
      (forward d1).Chain' (InOrder DESCENDING compare_int) ∧
      (forward d1).Pairwise (InOrder DESCENDING compare_int) ∧
      backward d1 = (forward d1).reverse) ∧
    (match dlist_quick_sort 4 (build [5, 3, 8, 1] : dlist_t Int) DESCENDING compare_int with
      | Except.ok d1 => some (forward d1)
      | Except.error _ => none) = some [8, 5, 3, 1] ∧
    (match dlist_quick_sort 4 (build [5, 3, 8, 1] : dlist_t Int) ASCENDING compare_int with
      | Except.ok d1 => some (forward d1)
      | Except.error _ => none) = some [1, 3, 5, 8] :=
  ⟨compare_int_total, (build_ok _).2, by decide,
    quick_sort_sorts 4 (build [5, 3, 8, 1]) [5, 3, 8, 1] DESCENDING compare_int
      compare_int_total (build_ok _).2 (by decide), by decide, by decide⟩

/-! ## Lists built by appends, prepends and pops -/

/-- Every list built from the empty list by appends, prepends and pops is well formed. -/
theorem built_valid (d : dlist_t α) (h : Built d) : ∃ xs, Valid d xs := by
  induction h with
  | init => exact ⟨[], [], WF_init⟩
  | append d d1 data _ e ih =>
    obtain ⟨xs, as, hw⟩ := ih
    obtain ⟨d2, e2, hw2, -⟩ := dlist_append_WF d data as xs hw
    rw [e2] at e
    cases e
    exact ⟨_, _, hw2⟩
  | prepend d d1 data _ e ih =>
    obtain ⟨xs, as, hw⟩ := ih
    obtain ⟨d2, e2, hw2, -⟩ := dlist_prepend_WF d data as xs hw
    rw [e2] at e
    cases e
    exact ⟨_, _, hw2⟩
  | pop_head d d1 v _ e ih =>
    obtain ⟨xs, hv⟩ := ih
    cases xs with
    | nil =>
      rw [(pop_empty d hv).1] at e
      cases e
      exact ⟨[], hv⟩
    | cons x rest =>
      obtain ⟨d2, e2, hv2⟩ := pop_head_valid d x rest hv
      rw [e2] at e
      cases e
      exact ⟨rest, hv2⟩
  | pop_tail d d1 v _ e ih =>
    obtain ⟨xs, hv⟩ := ih
    rcases List.eq_nil_or_concat xs with rfl | ⟨rest, x, rfl⟩
    · rw [(pop_empty d hv).2.1] at e
      cases e
      exact ⟨[], hv⟩
    · rw [List.concat_eq_append] at hv
      obtain ⟨d2, e2, hv2⟩ := pop_tail_valid d x rest hv
      rw [e2] at e
      cases e
      exact ⟨rest, hv2⟩

theorem built_append_all (vs : List α) : ∀ (d d1 : dlist_t α), Built d →
    append_all d vs = Except.ok d1 → Built d1 := by
  induction vs with
  | nil =>
    intro d d1 hb e
    cases e
    exact hb
  | cons v vs ih =>
    intro d d1 hb e
    rw [append_all] at e
    cases e1 : dlist_append d v with
    | error f => rw [e1] at e; cases e
    | ok d2 =>
      rw [e1] at e
      exact ih d2 d1 (Built.append d d2 v hb e1) e

theorem built_build (vs : List α) : Built (build vs) :=
  built_append_all vs dlist_init (build vs) Built.init (build_ok vs).1

/-- C38 (dlist length and link invariant): in every list built from the empty list by
`dlist_append`, `dlist_prepend`, `dlist_pop_head` and `dlist_pop_tail`, the nodes reached from
`head` through `next` up to `NULL` are different nodes whose number is the `length` field,
the data met from `tail` through `prev` are those met from `head` through `next` in reverse
order, `head` is `NULL` exactly when the length is 0 and so is `tail`, and `dlist_is_empty`
answers true exactly when the data sequence is empty. -/
theorem length_and_links (d : dlist_t α) (h : Built d) :
    (∃ as, WF d as (forward d) ∧ dlist_get_length d = as.length) ∧
    dlist_get_length d = (forward d).length ∧
    backward d = (forward d).reverse ∧
    (d.head = none ↔ dlist_get_length d = 0) ∧ (d.tail = none ↔ dlist_get_length d = 0) ∧
    (dlist_is_empty d = true ↔ dlist_get_length d = 0) ∧
    (dlist_is_empty d = true ↔ forward d = []) := by
  obtain ⟨xs, as, hw⟩ := built_valid d h
  have h1 := WF_observe hw
  have e0 : xs = [] ↔ dlist_get_length d = 0 := by
    rw [h1.2.2.2.1, List.length_eq_zero]
  rw [h1.1]
  refine ⟨⟨as, hw, hw.2.2.1⟩, h1.2.2.2.1, h1.2.1, ?_, ?_, ?_, h1.2.2.2.2.1⟩
  · rw [← e0]; exact h1.2.2.2.2.2.1
  · rw [← e0]; exact h1.2.2.2.2.2.2
  · rw [← e0]; exact h1.2.2.2.2.1

theorem length_and_links_witness :
    Built (build [10, 20, 30] : dlist_t Int) ∧
    ((∃ as, WF (build [10, 20, 30] : dlist_t Int) as (forward (build [10, 20, 30])) ∧
        dlist_get_length (build [10, 20, 30] : dlist_t Int) = as.length) ∧
      dlist_get_length (build [10, 20, 30] : dlist_t Int)
        = (forward (build [10, 20, 30] : dlist_t Int)).length ∧
      backward (build [10, 20, 30] : dlist_t Int)
        = (forward (build [10, 20, 30] : dlist_t Int)).reverse ∧
      ((build [10, 20, 30] : dlist_t Int).head = none ↔
        dlist_get_length (build [10, 20, 30] : dlist_t Int) = 0) ∧
      ((build [10, 20, 30] : dlist_t Int).tail = none ↔
        dlist_get_length (build [10, 20, 30] : dlist_t Int) = 0) ∧
      (dlist_is_empty (build [10, 20, 30] : dlist_t Int) = true ↔
        dlist_get_length (build [10, 20, 30] : dlist_t Int) = 0) ∧
      (dlist_is_empty (build [10, 20, 30] : dlist_t Int) = true ↔
        forward (build [10, 20, 30] : dlist_t Int) = [])) :=
  ⟨built_build _, length_and_links (build [10, 20, 30]) (built_build _)⟩

end Dlist
